import Mathlib

/-!
# noble-router: wire codecs

A shallow embedding of `x/router/keeper/util.go` (the fixed-offset decoders
`DecodeMessage` and `DecodeBurnMessage`) and of the generated codec in
`x/router/types/ibc_forward_metadata.pb.go` (`IBCForwardMetadata.Marshal`,
`IBCForwardMetadata.Unmarshal`, `skipIbcForwardMetadata`), followed by the
properties proved about them.

Conventions of the embedding:

* a Go `[]byte` and a Go `string` are both `List Byte` (a Go string is an
  arbitrary byte sequence; `string(b)` and `copy(dst, s)` keep the bytes);
* fixed-width unsigned integers are `Nat` reduced `% 2 ^ w` where the Go
  operation can overflow; Go `int` is `Int` wrapped to 64 bits by `wrapInt64`;
* a Go function that can panic at run time (slice or index out of range)
  returns `Option`, with `none` for the panic;
* a Go `(*T, error)` result is a pair of options (`nil` is `none`); a result
  of struct type is the struct itself;
* loops whose termination is not structural carry a fuel argument and
  return `none` when the fuel runs out.
-/

namespace NobleRouter

/-- A Go `byte`. -/
abbrev Byte := Fin 256

/-! ## Errors -/

/-- The error values that the embedded code can return. `Wrap` is
`sdkerrors.Wrap` / `sdkerrors.Wrapf`; the `Errorf…` constructors are the
`fmt.Errorf` calls of the generated codec with their arguments. -/
inductive GoError where
  /-- `types.ErrDecodingMessage`, registered in `x/router/types/errors.go`. -/
  | ErrDecodingMessage
  /-- `io.ErrUnexpectedEOF`. -/
  | ErrUnexpectedEOF
  | ErrInvalidLengthIbcForwardMetadata
  | ErrIntOverflowIbcForwardMetadata
  | ErrUnexpectedEndOfGroupIbcForwardMetadata
  /-- `"proto: <message>: wiretype end group for non-group"`. -/
  | ErrorfEndGroup (message : String)
  /-- `"proto: <message>: illegal tag %d (wire type %d)"`. -/
  | ErrorfIllegalTag (message : String) (fieldNum : Int) (wire : Nat)
  /-- `"proto: wrong wireType = %d for field <field>"`. -/
  | ErrorfWrongWireType (wireType : Nat) (field : String)
  /-- `"proto: illegal wireType %d"`. -/
  | ErrorfIllegalWireType (wireType : Nat)
  | Wrap (cause : GoError) (description : String)
  deriving DecidableEq, Repr

/-- Go `errors.Is(e, target)` for the errors above: `e` is `target` or wraps it. -/
def GoError.Is : GoError → GoError → Bool
  | .Wrap cause d, target => decide (GoError.Wrap cause d = target) || GoError.Is cause target
  | e, target => decide (e = target)

/-! ## `x/router/keeper/util.go` -/

structure BurnMessage where
  Version : Nat
  BurnToken : List Byte
  MintRecipient : List Byte
  Amount : Int
  MessageSender : List Byte
  deriving DecidableEq, Repr

structure Message where
  Version : Nat
  SourceDomain : Nat
  DestinationDomain : Nat
  Nonce : Nat
  Sender : List Byte
  Recipient : List Byte
  DestinationCaller : List Byte
  MessageBody : List Byte
  deriving DecidableEq, Repr

def VersionIndex : Nat := 0
def SourceDomainIndex : Nat := 4
def DestinationDomainIndex : Nat := 8
def NonceIndex : Nat := 12
def SenderIndex : Nat := 20
def RecipientIndex : Nat := 52
def DestinationCallerIndex : Nat := 84
def MessageBodyIndex : Nat := 116

def BurnMsgVersionIndex : Nat := 0
def VersionLen : Nat := 4
def BurnTokenIndex : Nat := 4
def BurnTokenLen : Nat := 32
def MintRecipientIndex : Nat := 36
def MintRecipientLen : Nat := 32
def AmountIndex : Nat := 68
def AmountLen : Nat := 32
def MsgSenderIndex : Nat := 100
def MsgSenderLen : Nat := 32
def BurnMessageLen : Nat := 132

/-- The Go slice expression `s[lo:hi]` on a slice whose capacity equals its
length; `none` is the run-time panic "slice bounds out of range". -/
def slice (s : List Byte) (lo hi : Nat) : Option (List Byte) :=
  if lo ≤ hi ∧ hi ≤ s.length then some ((s.take hi).drop lo) else none

/-- The Go slice expression `s[lo:]`. -/
def sliceFrom (s : List Byte) (lo : Nat) : Option (List Byte) :=
  slice s lo s.length

/-- Go `binary.BigEndian.Uint32(b)`: panics when `len(b) < 4`, otherwise
`uint32(b[3]) | uint32(b[2])<<8 | uint32(b[1])<<16 | uint32(b[0])<<24`. -/
def BigEndian_Uint32 : List Byte → Option Nat
  | b0 :: b1 :: b2 :: b3 :: _ =>
      some (b3.val ||| b2.val <<< 8 ||| b1.val <<< 16 ||| b0.val <<< 24)
  | _ => none

/-- Go `binary.BigEndian.Uint64(b)`: panics when `len(b) < 8`. -/
def BigEndian_Uint64 : List Byte → Option Nat
  | b0 :: b1 :: b2 :: b3 :: b4 :: b5 :: b6 :: b7 :: _ =>
      some (b7.val ||| b6.val <<< 8 ||| b5.val <<< 16 ||| b4.val <<< 24 |||
        b3.val <<< 32 ||| b2.val <<< 40 ||| b1.val <<< 48 ||| b0.val <<< 56)
  | _ => none

/-- Go `new(big.Int).SetBytes(buf)`: the bytes read as a big-endian unsigned integer. -/
def bigIntSetBytes (buf : List Byte) : Nat :=
  buf.foldl (fun acc b => acc * 256 + b.val) 0

/-- Go `(*big.Int).BitLen` on a non-negative value: the length of the value in bits. -/
def bigIntBitLen (x : Nat) : Nat := Nat.size x

/-- `isValidUint32`: `binary.Read` of a `uint32` from a reader over `byteArray`
fails exactly when fewer than 4 bytes are available. -/
def isValidUint32 (byteArray : List Byte) : Bool :=
  decide (4 ≤ byteArray.length)

/-- `isValidUint64`: `binary.Read` of a `uint64` fails exactly when fewer than
8 bytes are available. -/
def isValidUint64 (byteArray : List Byte) : Bool :=
  decide (8 ≤ byteArray.length)

def isValidUint256 (byteArray : List Byte) : Bool :=
  let bigInt := bigIntSetBytes byteArray
  if bigIntBitLen bigInt > 256 then false else true

def bytesToBigInt (data : List Byte) : Int :=
  Int.ofNat (bigIntSetBytes data)

/-- The error returned by `DecodeBurnMessage`. -/
def errDecodingBurnMessage : GoError :=
  .Wrap .ErrDecodingMessage "error decoding burn message"

/-- The error returned by `DecodeMessage`. -/
def errDecodingMessage : GoError :=
  .Wrap .ErrDecodingMessage "error decoding message"

/-- Go `a || b` where evaluating an operand may panic: `b` is evaluated only
when `a` is false. -/
def orElse (a : Option Bool) (b : Unit → Option Bool) : Option Bool :=
  a.bind fun x => if x then some true else b ()

/-- The condition of the `if` in `DecodeBurnMessage`. -/
def DecodeBurnMessage.malformed (msg : List Byte) : Option Bool :=
  orElse (some (decide (msg.length ≠ BurnMessageLen))) fun _ =>
  orElse ((slice msg BurnMsgVersionIndex BurnTokenIndex).map fun s => !isValidUint32 s) fun _ =>
  (slice msg AmountIndex MsgSenderIndex).map fun s => !isValidUint256 s

/-- The struct literal `BurnMessage{...}` in `DecodeBurnMessage`. -/
def DecodeBurnMessage.build (msg : List Byte) : Option BurnMessage :=
  Option.bind ((slice msg BurnMsgVersionIndex BurnTokenIndex).bind BigEndian_Uint32) fun version =>
  Option.bind (slice msg BurnTokenIndex MintRecipientIndex) fun burnToken =>
  Option.bind (slice msg MintRecipientIndex AmountIndex) fun mintRecipient =>
  Option.bind ((slice msg AmountIndex MsgSenderIndex).map bytesToBigInt) fun amount =>
  Option.bind (slice msg MsgSenderIndex BurnMessageLen) fun messageSender =>
  some
    { Version := version
      BurnToken := burnToken
      MintRecipient := mintRecipient
      Amount := amount
      MessageSender := messageSender }

def DecodeBurnMessage (msg : List Byte) : Option (Option BurnMessage × Option GoError) :=
  (DecodeBurnMessage.malformed msg).bind fun bad =>
  if bad then some (none, some errDecodingBurnMessage) else
  (DecodeBurnMessage.build msg).bind fun message => some (some message, none)

/-- The condition of the `if` in `DecodeMessage`. -/
def DecodeMessage.malformed (msg : List Byte) : Option Bool :=
  orElse (some (decide (msg.length < MessageBodyIndex))) fun _ =>
  orElse ((slice msg VersionIndex SourceDomainIndex).map fun s => !isValidUint32 s) fun _ =>
  orElse ((slice msg SourceDomainIndex DestinationDomainIndex).map fun s => !isValidUint32 s) fun _ =>
  orElse ((slice msg DestinationDomainIndex NonceIndex).map fun s => !isValidUint32 s) fun _ =>
  (slice msg NonceIndex SenderIndex).map fun s => !isValidUint64 s

/-- The struct literal `Message{...}` in `DecodeMessage`. -/
def DecodeMessage.build (msg : List Byte) : Option Message :=
  Option.bind ((slice msg VersionIndex SourceDomainIndex).bind BigEndian_Uint32) fun version =>
  Option.bind ((slice msg SourceDomainIndex DestinationDomainIndex).bind BigEndian_Uint32)
    fun sourceDomain =>
  Option.bind ((slice msg DestinationDomainIndex NonceIndex).bind BigEndian_Uint32)
    fun destinationDomain =>
  Option.bind ((slice msg NonceIndex SenderIndex).bind BigEndian_Uint64) fun nonce =>
  Option.bind (slice msg SenderIndex RecipientIndex) fun sender =>
  Option.bind (slice msg RecipientIndex DestinationCallerIndex) fun recipient =>
  Option.bind (slice msg DestinationCallerIndex MessageBodyIndex) fun destinationCaller =>
  Option.bind (sliceFrom msg MessageBodyIndex) fun messageBody =>
  some
    { Version := version
      SourceDomain := sourceDomain
      DestinationDomain := destinationDomain
      Nonce := nonce
      Sender := sender
      Recipient := recipient
      DestinationCaller := destinationCaller
      MessageBody := messageBody }

def DecodeMessage (msg : List Byte) : Option (Option Message × Option GoError) :=
  (DecodeMessage.malformed msg).bind fun bad =>
  if bad then some (none, some errDecodingMessage) else
  (DecodeMessage.build msg).bind fun message => some (some message, none)

/-! ## `x/router/types/ibc_forward_metadata.pb.go` -/

structure IBCForwardMetadata where
  Nonce : Nat
  Port : List Byte
  Channel : List Byte
  DestinationReceiver : List Byte
  Memo : List Byte
  TimeoutInNanoseconds : Nat
  deriving DecidableEq, Repr

/-- `Reset`: `*m = IBCForwardMetadata{}`, the zero value of the struct. -/
def IBCForwardMetadata.Reset : IBCForwardMetadata :=
  { Nonce := 0, Port := [], Channel := [], DestinationReceiver := [], Memo := [],
    TimeoutInNanoseconds := 0 }

/-- Conversion of an integer to Go `int` / `int64` (two's complement, 64 bits). -/
def wrapInt64 (x : Int) : Int := (x + 2 ^ 63) % 2 ^ 64 - 2 ^ 63

/-- Conversion of an integer to Go `int32`. -/
def wrapInt32 (x : Int) : Int := (x + 2 ^ 31) % 2 ^ 32 - 2 ^ 31

/-- Conversion to Go `uint8`. -/
def uint8 (x : Nat) : Byte := ⟨x % 256, Nat.mod_lt _ (by decide)⟩

/-- Conversion to Go `uint64`. -/
def uint64 (x : Nat) : Nat := x % 2 ^ 64

/-- Go `math/bits.Len64(x)`: the number of bits needed to represent the
`uint64` value `x`, that is the number of `k < 64` with `2 ^ k ≤ x`. -/
def bitsLen64 (x : Nat) : Nat := (List.range 64).countP fun k => 2 ^ k ≤ x

def sovIbcForwardMetadata (x : Nat) : Nat :=
  (bitsLen64 (x ||| 1) + 6) / 7

/-- The Go assignment `dAtA[i] = b`; `none` is the panic "index out of range". -/
def setIndex (dAtA : List Byte) (i : Int) (b : Byte) : Option (List Byte) :=
  if 0 ≤ i ∧ i < dAtA.length then some (dAtA.set i.toNat b) else none

/-- The Go statement `copy(dAtA[i:], src)`: `dAtA[i:]` panics unless
`0 ≤ i ≤ len(dAtA)`, and `copy` writes `min(len(dAtA) - i, len(src))` bytes. -/
def copyAt (dAtA : List Byte) (i : Int) (src : List Byte) : Option (List Byte) :=
  if 0 ≤ i ∧ i ≤ dAtA.length then
    some (dAtA.take i.toNat ++ src.take (dAtA.length - i.toNat) ++
      dAtA.drop (i.toNat + min (dAtA.length - i.toNat) src.length))
  else none

/-- The `for v >= 1<<7` loop of `encodeVarintIbcForwardMetadata` followed by
the final `dAtA[offset] = uint8(v)`; the result is the buffer after the writes. -/
def encodeVarintLoop : Nat → List Byte → Int → Nat → Option (List Byte)
  | 0, _, _, _ => none
  | fuel + 1, dAtA, offset, v =>
    if v ≥ 1 <<< 7 then
      (setIndex dAtA offset (uint8 (v &&& 0x7f ||| 0x80))).bind fun dAtA =>
        encodeVarintLoop fuel dAtA (offset + 1) (v >>> 7)
    else
      setIndex dAtA offset (uint8 v)

/-- `encodeVarintIbcForwardMetadata(dAtA, offset, v)`: the buffer after the
call and the returned `base`. A `uint64` leaves the loop after at most 9
shifts, so 10 units of fuel are enough. -/
def encodeVarintIbcForwardMetadata (dAtA : List Byte) (offset : Int) (v : Nat) :
    Option (List Byte × Int) :=
  let offset := offset - sovIbcForwardMetadata v
  let base := offset
  (encodeVarintLoop 10 dAtA offset v).map fun dAtA => (dAtA, base)

/-- One `if m.X != 0 { … }` block of `MarshalToSizedBuffer` for a `uint64`
field whose tag byte is `tag` (`0x30` for TimeoutInNanoseconds, `0x8` for Nonce). -/
def marshalUint64Field (tag : Byte) (x : Nat) (st : List Byte × Int) : Option (List Byte × Int) :=
  if x ≠ 0 then
    (encodeVarintIbcForwardMetadata st.1 st.2 (uint64 x)).bind fun r =>
    let i := r.2 - 1
    (setIndex r.1 i tag).map fun dAtA => (dAtA, i)
  else some st

/-- One `if len(m.X) > 0 { … }` block of `MarshalToSizedBuffer` for a string
field whose tag byte is `tag` (`0x2a` Memo, `0x22` DestinationReceiver,
`0x1a` Channel, `0x12` Port). -/
def marshalStringField (tag : Byte) (x : List Byte) (st : List Byte × Int) :
    Option (List Byte × Int) :=
  if x.length > 0 then
    let i := st.2 - x.length
    (copyAt st.1 i x).bind fun dAtA =>
    (encodeVarintIbcForwardMetadata dAtA i (uint64 x.length)).bind fun r =>
    let i := r.2 - 1
    (setIndex r.1 i tag).map fun dAtA => (dAtA, i)
  else some st

/-- `(*IBCForwardMetadata).MarshalToSizedBuffer`: the buffer after the call
and the returned `(int, error)`. The buffer is filled from its end. -/
def IBCForwardMetadata.MarshalToSizedBuffer (m : IBCForwardMetadata) (dAtA : List Byte) :
    Option (List Byte × Int × Option GoError) :=
  let i : Int := dAtA.length
  (marshalUint64Field 0x30 m.TimeoutInNanoseconds (dAtA, i)).bind fun st =>
  (marshalStringField 0x2a m.Memo st).bind fun st =>
  (marshalStringField 0x22 m.DestinationReceiver st).bind fun st =>
  (marshalStringField 0x1a m.Channel st).bind fun st =>
  (marshalStringField 0x12 m.Port st).bind fun st =>
  (marshalUint64Field 0x8 m.Nonce st).bind fun st =>
  some (st.1, (dAtA.length : Int) - st.2, none)

def IBCForwardMetadata.Size (m : IBCForwardMetadata) : Nat :=
  let n := 0
  let n := if m.Nonce ≠ 0 then n + (1 + sovIbcForwardMetadata (uint64 m.Nonce)) else n
  let l := m.Port.length
  let n := if l > 0 then n + (1 + l + sovIbcForwardMetadata (uint64 l)) else n
  let l := m.Channel.length
  let n := if l > 0 then n + (1 + l + sovIbcForwardMetadata (uint64 l)) else n
  let l := m.DestinationReceiver.length
  let n := if l > 0 then n + (1 + l + sovIbcForwardMetadata (uint64 l)) else n
  let l := m.Memo.length
  let n := if l > 0 then n + (1 + l + sovIbcForwardMetadata (uint64 l)) else n
  let n := if m.TimeoutInNanoseconds ≠ 0 then
    n + (1 + sovIbcForwardMetadata (uint64 m.TimeoutInNanoseconds)) else n
  n

/-- The records that a Go program can hold: the two `uint64` fields are below
`2 ^ 64`, and the strings are short enough for `Size()` not to overflow a Go
`int` (a record and its encoding fit in memory). -/
def IBCForwardMetadata.Representable (m : IBCForwardMetadata) : Prop :=
  m.Nonce < 2 ^ 64 ∧ m.TimeoutInNanoseconds < 2 ^ 64 ∧ m.Size < 2 ^ 63

instance (m : IBCForwardMetadata) : Decidable m.Representable := by
  unfold IBCForwardMetadata.Representable; infer_instance

/-- `(*IBCForwardMetadata).Marshal`. -/
def IBCForwardMetadata.Marshal (m : IBCForwardMetadata) :
    Option (Option (List Byte) × Option GoError) :=
  let size := m.Size
  let dAtA : List Byte := List.replicate size 0
  (slice dAtA 0 size).bind fun buf =>
  (m.MarshalToSizedBuffer buf).bind fun r =>
  match r.2.2 with
  | some err => some (none, some err)
  | none =>
    if 0 ≤ r.2.1 ∧ r.2.1 ≤ (r.1.length : Int) then
      some (some (r.1.take r.2.1.toNat), none)
    else none

/-- The state of a varint-reading loop when it is left: the accumulated
value, the read index, and the error if the loop returned one. -/
structure VarintResult where
  value : Nat
  iNdEx : Nat
  err : Option GoError
  deriving DecidableEq, Repr

/-- The loop
`for shift := uint(0); ; shift += 7 { … x |= uint64(b&0x7F) << shift … }`
that reads a varint into a `uint64` accumulator. It occurs for the tag, for
`Nonce`, for `TimeoutInNanoseconds` and for every `stringLen`. -/
def decodeVarintLoop : Nat → List Byte → Nat → Nat → Nat → Option VarintResult
  | 0, _, _, _, _ => none
  | fuel + 1, dAtA, iNdEx, shift, value =>
    if shift ≥ 64 then
      some ⟨value, iNdEx, some .ErrIntOverflowIbcForwardMetadata⟩
    else if iNdEx ≥ dAtA.length then
      some ⟨value, iNdEx, some .ErrUnexpectedEOF⟩
    else
      dAtA[iNdEx]?.bind fun b =>
      let value := value ||| uint64 ((b.val &&& 0x7F) <<< shift)
      if b.val < 0x80 then some ⟨value, iNdEx + 1, none⟩
      else decodeVarintLoop fuel dAtA (iNdEx + 1) (shift + 7) value

/-- A varint-reading loop started with `shift = 0` on a zero accumulator. The
loop returns at the latest in its 11th iteration (`shift = 70`). -/
def decodeVarint (dAtA : List Byte) (iNdEx : Nat) : Option VarintResult :=
  decodeVarintLoop 11 dAtA iNdEx 0 0

/-- The `switch wireType` of `skipIbcForwardMetadata`, entered with the read
index `iNdEx` just after the tag: the read index and the depth after the
switch, and the error if the switch returned one. In `case 0` the loop is the
varint loop without its accumulator. -/
def skipSwitch (dAtA : List Byte) (iNdEx : Nat) (depth : Int) (wireType : Nat) :
    Option (Int × Int × Option GoError) :=
  if wireType = 0 then
    (decodeVarint dAtA iNdEx).bind fun r => some (r.iNdEx, depth, r.err)
  else if wireType = 1 then
    some (wrapInt64 (iNdEx + 8), depth, none)
  else if wireType = 2 then
    (decodeVarint dAtA iNdEx).bind fun r =>
    match r.err with
    | some e => some (r.iNdEx, depth, some e)
    | none =>
      let length := wrapInt64 r.value
      if length < 0 then
        some (r.iNdEx, depth, some .ErrInvalidLengthIbcForwardMetadata)
      else some (wrapInt64 (r.iNdEx + length), depth, none)
  else if wireType = 3 then
    some (iNdEx, wrapInt64 (depth + 1), none)
  else if wireType = 4 then
    if depth = 0 then
      some (iNdEx, depth, some .ErrUnexpectedEndOfGroupIbcForwardMetadata)
    else some (iNdEx, wrapInt64 (depth - 1), none)
  else if wireType = 5 then
    some (wrapInt64 (iNdEx + 4), depth, none)
  else
    some (iNdEx, depth, some (.ErrorfIllegalWireType wireType))

/-- The outer loop of `skipIbcForwardMetadata`. `iNdEx` is non-negative at
the head of the loop (the body returns when it becomes negative). -/
def skipLoop : Nat → List Byte → Nat → Int → Option (Int × Option GoError)
  | 0, _, _, _ => none
  | fuel + 1, dAtA, iNdEx, depth =>
    let l := dAtA.length
    if iNdEx < l then
      (decodeVarint dAtA iNdEx).bind fun t =>
      match t.err with
      | some e => some (0, some e)
      | none =>
        let wire := t.value
        let wireType := wire &&& 0x7
        (skipSwitch dAtA t.iNdEx depth wireType).bind fun s =>
        match s.2.2 with
        | some e => some (0, some e)
        | none =>
          if s.1 < 0 then some (0, some .ErrInvalidLengthIbcForwardMetadata)
          else if s.2.1 = 0 then some (s.1, none)
          else skipLoop fuel dAtA s.1.toNat s.2.1
    else
      some (0, some .ErrUnexpectedEOF)

/-- `skipIbcForwardMetadata(dAtA)`. Every iteration of the outer loop reads
at least one byte, so `len(dAtA) + 1` units of fuel are enough. -/
def skipIbcForwardMetadata (dAtA : List Byte) : Option (Int × Option GoError) :=
  skipLoop (dAtA.length + 1) dAtA 0 0

/-- The result of one `case` of the `switch fieldNum` in `Unmarshal`: the
record after the case, the read index, and the error if the case returned one. -/
structure FieldResult where
  m : IBCForwardMetadata
  iNdEx : Nat
  err : Option GoError
  deriving DecidableEq, Repr

/-- The body of `case 1` and `case 6`: a `uint64` field named `field`, read
through `set` into the record. The field is zeroed before the loop and holds
the bits read so far when the loop returns an error. -/
def unmarshalUint64Field (field : String) (set : IBCForwardMetadata → Nat → IBCForwardMetadata)
    (m : IBCForwardMetadata) (wireType : Nat) (dAtA : List Byte) (iNdEx : Nat) :
    Option FieldResult :=
  if wireType ≠ 0 then some ⟨m, iNdEx, some (.ErrorfWrongWireType wireType field)⟩ else
  (decodeVarint dAtA iNdEx).bind fun r => some ⟨set m r.value, r.iNdEx, r.err⟩

/-- The body of `case 2` to `case 5`: a string field named `field`. -/
def unmarshalStringField (field : String)
    (set : IBCForwardMetadata → List Byte → IBCForwardMetadata)
    (m : IBCForwardMetadata) (wireType : Nat) (dAtA : List Byte) (iNdEx : Nat) :
    Option FieldResult :=
  let l : Int := dAtA.length
  if wireType ≠ 2 then some ⟨m, iNdEx, some (.ErrorfWrongWireType wireType field)⟩ else
  (decodeVarint dAtA iNdEx).bind fun r =>
  match r.err with
  | some e => some ⟨m, r.iNdEx, some e⟩
  | none =>
    let stringLen := r.value
    let iNdEx := r.iNdEx
    let intStringLen := wrapInt64 stringLen
    if intStringLen < 0 then some ⟨m, iNdEx, some .ErrInvalidLengthIbcForwardMetadata⟩ else
    let postIndex := wrapInt64 (iNdEx + intStringLen)
    if postIndex < 0 then some ⟨m, iNdEx, some .ErrInvalidLengthIbcForwardMetadata⟩ else
    if postIndex > l then some ⟨m, iNdEx, some .ErrUnexpectedEOF⟩ else
    (slice dAtA iNdEx postIndex.toNat).bind fun s => some ⟨set m s, postIndex.toNat, none⟩

/-- The `default` case of the `switch fieldNum` in `Unmarshal`: an unknown
field is skipped from `preIndex`, the index of its tag. -/
def unmarshalUnknownField (m : IBCForwardMetadata) (dAtA : List Byte) (preIndex : Nat) :
    Option FieldResult :=
  let l : Int := dAtA.length
  let iNdEx := preIndex
  (sliceFrom dAtA iNdEx).bind fun rest =>
  (skipIbcForwardMetadata rest).bind fun r =>
  let skippy := r.1
  match r.2 with
  | some e => some ⟨m, iNdEx, some e⟩
  | none =>
    if skippy < 0 ∨ wrapInt64 (iNdEx + skippy) < 0 then
      some ⟨m, iNdEx, some .ErrInvalidLengthIbcForwardMetadata⟩
    else if wrapInt64 (iNdEx + skippy) > l then some ⟨m, iNdEx, some .ErrUnexpectedEOF⟩
    else some ⟨m, (wrapInt64 (iNdEx + skippy)).toNat, none⟩

/-- One iteration of the outer loop of `(*IBCForwardMetadata).Unmarshal`,
entered with `iNdEx < l`. -/
def IBCForwardMetadata.unmarshalField (m : IBCForwardMetadata) (dAtA : List Byte) (iNdEx : Nat) :
    Option FieldResult :=
  let preIndex := iNdEx
  (decodeVarint dAtA iNdEx).bind fun t =>
  match t.err with
  | some e => some ⟨m, t.iNdEx, some e⟩
  | none =>
    let wire := t.value
    let iNdEx := t.iNdEx
    let fieldNum := wrapInt32 (wire >>> 3)
    let wireType := wire &&& 0x7
    if wireType = 4 then some ⟨m, iNdEx, some (.ErrorfEndGroup "IBCForwardMetadata")⟩
    else if fieldNum ≤ 0 then
      some ⟨m, iNdEx, some (.ErrorfIllegalTag "IBCForwardMetadata" fieldNum wire)⟩
    else if fieldNum = 1 then
      unmarshalUint64Field "Nonce" (fun m v => { m with Nonce := v }) m wireType dAtA iNdEx
    else if fieldNum = 2 then
      unmarshalStringField "Port" (fun m s => { m with Port := s }) m wireType dAtA iNdEx
    else if fieldNum = 3 then
      unmarshalStringField "Channel" (fun m s => { m with Channel := s }) m wireType dAtA iNdEx
    else if fieldNum = 4 then
      unmarshalStringField "DestinationReceiver"
        (fun m s => { m with DestinationReceiver := s }) m wireType dAtA iNdEx
    else if fieldNum = 5 then
      unmarshalStringField "Memo" (fun m s => { m with Memo := s }) m wireType dAtA iNdEx
    else if fieldNum = 6 then
      unmarshalUint64Field "TimeoutInNanoseconds"
        (fun m v => { m with TimeoutInNanoseconds := v }) m wireType dAtA iNdEx
    else unmarshalUnknownField m dAtA preIndex

/-- The outer loop `for iNdEx < l { … }` of `(*IBCForwardMetadata).Unmarshal`
and the statements after it. The result is the record as the call leaves it
(also when it returns an error) and the returned error. -/
def IBCForwardMetadata.unmarshalLoop :
    Nat → IBCForwardMetadata → List Byte → Nat → Option (IBCForwardMetadata × Option GoError)
  | 0, _, _, _ => none
  | fuel + 1, m, dAtA, iNdEx =>
    let l := dAtA.length
    if iNdEx < l then
      (m.unmarshalField dAtA iNdEx).bind fun r =>
      match r.err with
      | some e => some (r.m, some e)
      | none => IBCForwardMetadata.unmarshalLoop fuel r.m dAtA r.iNdEx
    else if iNdEx > l then some (m, some .ErrUnexpectedEOF)
    else some (m, none)

/-- `(*IBCForwardMetadata).Unmarshal(dAtA)` on the receiver `m`. Every
iteration of the outer loop reads at least one byte, so `len(dAtA) + 1` units
of fuel are enough. -/
def IBCForwardMetadata.Unmarshal (m : IBCForwardMetadata) (dAtA : List Byte) :
    Option (IBCForwardMetadata × Option GoError) :=
  IBCForwardMetadata.unmarshalLoop (dAtA.length + 1) m dAtA 0

/-- Go `proto.Unmarshal(buf, pb)` of gogo/protobuf for a message with a
generated `XXX_Unmarshal`: `pb.Reset()` followed by `pb.Unmarshal(buf)`. -/
def proto_Unmarshal (buf : List Byte) (_pb : IBCForwardMetadata) :
    Option (IBCForwardMetadata × Option GoError) :=
  IBCForwardMetadata.Reset.Unmarshal buf

/-- The error returned by `DecodeIBCForward`. -/
def errDecodingIBCForward : GoError :=
  .Wrap .ErrDecodingMessage "error decoding ibc forward"

def DecodeIBCForward (msg : List Byte) : Option (IBCForwardMetadata × Option GoError) :=
  let res : IBCForwardMetadata := IBCForwardMetadata.Reset
  (proto_Unmarshal msg res).bind fun r =>
  match r.2 with
  | some _ => some (IBCForwardMetadata.Reset, some errDecodingIBCForward)
  | none => some (r.1, none)

/-! ## Encoders of the fixed-offset formats

`util.go` only decodes. The encoders below are the inverse that the
specification describes; the round-trip properties compare the decoders of
`util.go` with them. -/

/-- Modelled from the spec: "zero-padded to fixed widths", the big-endian
bytes of `x` on exactly `width` bytes (left-padded with zeros). The encoder
is missing from `util.go`. -/
def bigEndianBytes : Nat → Nat → List Byte
  | 0, _ => []
  | width + 1, x => bigEndianBytes width (x / 256) ++ [uint8 x]

/-- Modelled from the spec: a byte field brought to a fixed width by zero
bytes on the left. The encoder is missing from `util.go`. -/
def fixedWidth (width : Nat) (field : List Byte) : List Byte :=
  List.replicate (width - field.length) 0 ++ field

/-- Modelled from the spec: the encoder of `BurnMessage`, missing from
`util.go`, "the exact inverse, zero-padded to fixed widths": Version on 4
big-endian bytes, BurnToken and MintRecipient on 32 bytes, Amount on 32
big-endian bytes, MessageSender on 32 bytes. -/
def encodeBurnMessage (m : BurnMessage) : List Byte :=
  bigEndianBytes VersionLen m.Version ++ fixedWidth BurnTokenLen m.BurnToken ++
    fixedWidth MintRecipientLen m.MintRecipient ++ bigEndianBytes AmountLen m.Amount.toNat ++
    fixedWidth MsgSenderLen m.MessageSender

/-- Modelled from the spec: the encoder of `Message`, missing from `util.go`:
Version, SourceDomain and DestinationDomain on 4 big-endian bytes each, Nonce
on 8 big-endian bytes, Sender, Recipient and DestinationCaller on 32 bytes
each, then MessageBody. -/
def encodeMessage (m : Message) : List Byte :=
  bigEndianBytes 4 m.Version ++ bigEndianBytes 4 m.SourceDomain ++
    bigEndianBytes 4 m.DestinationDomain ++ bigEndianBytes 8 m.Nonce ++
    fixedWidth 32 m.Sender ++ fixedWidth 32 m.Recipient ++ fixedWidth 32 m.DestinationCaller ++
    m.MessageBody

/-! ## The byte layout written by `MarshalToSizedBuffer`

Auxiliary definitions used by the proofs: the bytes that the backward-writing
encoder leaves in the buffer, described front to back. They are related to
the embedded encoder by `MarshalToSizedBuffer_eq` and `Marshal_eq`. -/

/-- The bytes that the loop of `encodeVarintIbcForwardMetadata` writes for `v`,
in increasing index order. -/
def varintBytesAux : Nat → Nat → List Byte
  | 0, _ => []
  | fuel + 1, v =>
    if v ≥ 1 <<< 7 then uint8 (v &&& 0x7f ||| 0x80) :: varintBytesAux fuel (v >>> 7)
    else [uint8 v]

/-- The varint of a `uint64` value. -/
def varintBytes (v : Nat) : List Byte := varintBytesAux 10 v

/-- The bytes of a `uint64` field in the buffer: nothing for the zero value,
otherwise the tag byte and the varint of the value. -/
def uint64FieldBytes (tag : Byte) (x : Nat) : List Byte :=
  if x ≠ 0 then tag :: varintBytes (uint64 x) else []

/-- The bytes of a string field in the buffer: nothing for the empty string,
otherwise the tag byte, the varint of the length and the bytes of the string. -/
def stringFieldBytes (tag : Byte) (x : List Byte) : List Byte :=
  if x.length > 0 then tag :: (varintBytes (uint64 x.length) ++ x) else []

/-- The bytes of a record in the buffer: its fields in increasing field number. -/
def IBCForwardMetadata.wireBytes (m : IBCForwardMetadata) : List Byte :=
  uint64FieldBytes 0x8 m.Nonce ++ (stringFieldBytes 0x12 m.Port ++
    (stringFieldBytes 0x1a m.Channel ++ (stringFieldBytes 0x22 m.DestinationReceiver ++
      (stringFieldBytes 0x2a m.Memo ++ uint64FieldBytes 0x30 m.TimeoutInNanoseconds))))

/-! ## The loop heads of `Unmarshal` -/

/-- The states in which `(*IBCForwardMetadata).Unmarshal`, called on the
receiver `m₀` with the buffer `dAtA`, stands at the head of its outer loop:
the read index and the record at that point. The call starts at index 0, and
every iteration that returns no error leads to the next loop head. -/
inductive IBCForwardMetadata.AtLoopHead (m₀ : IBCForwardMetadata) (dAtA : List Byte) :
    Nat → IBCForwardMetadata → Prop
  | start : IBCForwardMetadata.AtLoopHead m₀ dAtA 0 m₀
  | step {iNdEx : Nat} {m : IBCForwardMetadata} {r : FieldResult} :
      IBCForwardMetadata.AtLoopHead m₀ dAtA iNdEx m → iNdEx < dAtA.length →
      m.unmarshalField dAtA iNdEx = some r → r.err = none →
      IBCForwardMetadata.AtLoopHead m₀ dAtA r.iNdEx r.m


/-! ## `StoreIBCForwardMetadata` in `ibc_forward_metadata.pb.go` -/

structure StoreIBCForwardMetadata where
  SourceDomain : Nat
  SourceDomainSender : List Byte
  Metadata : Option IBCForwardMetadata
  AckError : Bool
  deriving DecidableEq, Repr

/-- `Reset`: `*m = StoreIBCForwardMetadata{}`, the zero value of the struct. -/
def StoreIBCForwardMetadata.Reset : StoreIBCForwardMetadata :=
  { SourceDomain := 0, SourceDomainSender := [], Metadata := none, AckError := false }

/-- Conversion to Go `uint32`. -/
def uint32 (x : Nat) : Nat := x % 2 ^ 32

/-- Conversion of a Go `int` to `uint64`. -/
def uint64OfInt (x : Int) : Nat := (x % 2 ^ 64).toNat

/-- The `if m.AckError { … }` block of
`(*StoreIBCForwardMetadata).MarshalToSizedBuffer`, with tag byte `0x20`. -/
def marshalBoolField (tag : Byte) (x : Bool) (st : List Byte × Int) : Option (List Byte × Int) :=
  if x then
    let i := st.2 - 1
    (setIndex st.1 i (if x then 1 else 0)).bind fun dAtA =>
    let i := i - 1
    (setIndex dAtA i tag).map fun dAtA => (dAtA, i)
  else some st

/-- The `if m.Metadata != nil { … }` block of
`(*StoreIBCForwardMetadata).MarshalToSizedBuffer`. The nested call writes into
`dAtA[:i]`, which shares its bytes with `dAtA`. The result carries the error
of the nested call, on which the function returns. -/
def marshalMetadataField (tag : Byte) (x : Option IBCForwardMetadata) (st : List Byte × Int) :
    Option (List Byte × Int × Option GoError) :=
  match x with
  | none => some (st.1, st.2, none)
  | some md =>
    if 0 ≤ st.2 ∧ st.2 ≤ (st.1.length : Int) then
      (md.MarshalToSizedBuffer (st.1.take st.2.toNat)).bind fun r =>
      let dAtA := r.1 ++ st.1.drop st.2.toNat
      match r.2.2 with
      | some err => some (dAtA, st.2, some err)
      | none =>
        let size := r.2.1
        let i := st.2 - size
        (encodeVarintIbcForwardMetadata dAtA i (uint64OfInt size)).bind fun e =>
        let i := e.2 - 1
        (setIndex e.1 i tag).map fun dAtA => (dAtA, i, none)
    else none

/-- `(*StoreIBCForwardMetadata).MarshalToSizedBuffer`: the buffer after the
call and the returned `(int, error)`. -/
def StoreIBCForwardMetadata.MarshalToSizedBuffer (m : StoreIBCForwardMetadata)
    (dAtA : List Byte) : Option (List Byte × Int × Option GoError) :=
  let i : Int := dAtA.length
  (marshalBoolField 0x20 m.AckError (dAtA, i)).bind fun st =>
  (marshalMetadataField 0x1a m.Metadata st).bind fun r =>
  match r.2.2 with
  | some err => some (r.1, 0, some err)
  | none =>
    (marshalStringField 0x12 m.SourceDomainSender (r.1, r.2.1)).bind fun st =>
    (marshalUint64Field 0x8 m.SourceDomain st).bind fun st =>
    some (st.1, (dAtA.length : Int) - st.2, none)

def StoreIBCForwardMetadata.Size (m : StoreIBCForwardMetadata) : Nat :=
  let n := 0
  let n := if m.SourceDomain ≠ 0 then n + (1 + sovIbcForwardMetadata (uint64 m.SourceDomain)) else n
  let l := m.SourceDomainSender.length
  let n := if l > 0 then n + (1 + l + sovIbcForwardMetadata (uint64 l)) else n
  let n := match m.Metadata with
    | some md =>
      let l := md.Size
      n + (1 + l + sovIbcForwardMetadata (uint64 l))
    | none => n
  let n := if m.AckError then n + 2 else n
  n

/-- `(*StoreIBCForwardMetadata).Marshal`. -/
def StoreIBCForwardMetadata.Marshal (m : StoreIBCForwardMetadata) :
    Option (Option (List Byte) × Option GoError) :=
  let size := m.Size
  let dAtA : List Byte := List.replicate size 0
  (slice dAtA 0 size).bind fun buf =>
  (m.MarshalToSizedBuffer buf).bind fun r =>
  match r.2.2 with
  | some err => some (none, some err)
  | none =>
    if 0 ≤ r.2.1 ∧ r.2.1 ≤ (r.1.length : Int) then
      some (some (r.1.take r.2.1.toNat), none)
    else none

/-- The loop
`for shift := uint(0); ; shift += 7 { … m.SourceDomain |= uint32(b&0x7F) << shift … }`
that reads a varint into a `uint32` accumulator. -/
def decodeVarint32Loop : Nat → List Byte → Nat → Nat → Nat → Option VarintResult
  | 0, _, _, _, _ => none
  | fuel + 1, dAtA, iNdEx, shift, value =>
    if shift ≥ 64 then
      some ⟨value, iNdEx, some .ErrIntOverflowIbcForwardMetadata⟩
    else if iNdEx ≥ dAtA.length then
      some ⟨value, iNdEx, some .ErrUnexpectedEOF⟩
    else
      dAtA[iNdEx]?.bind fun b =>
      let value := value ||| uint32 ((b.val &&& 0x7F) <<< shift)
      if b.val < 0x80 then some ⟨value, iNdEx + 1, none⟩
      else decodeVarint32Loop fuel dAtA (iNdEx + 1) (shift + 7) value

/-- The `uint32` varint loop started with `shift = 0` on a zero accumulator. -/
def decodeVarint32 (dAtA : List Byte) (iNdEx : Nat) : Option VarintResult :=
  decodeVarint32Loop 11 dAtA iNdEx 0 0

/-- The result of the common part of a length-delimited `case`: the bytes
`dAtA[iNdEx:postIndex]`, the read index, and the error if one was returned. -/
structure BytesResult where
  bytes : List Byte
  iNdEx : Nat
  err : Option GoError
  deriving DecidableEq, Repr

/-- The common part of `case 2` and `case 3` of
`(*StoreIBCForwardMetadata).Unmarshal`: the length prefix, the three checks on
the length and on `postIndex`, and the slice `dAtA[iNdEx:postIndex]`. In
`case 3` the prefix is accumulated in an `int`, which holds the same 64 bits
as the `uint64` accumulator of `case 2` converted by `int(stringLen)`. -/
def readLengthDelimited (dAtA : List Byte) (iNdEx : Nat) : Option BytesResult :=
  let l : Int := dAtA.length
  (decodeVarint dAtA iNdEx).bind fun r =>
  match r.err with
  | some e => some ⟨[], r.iNdEx, some e⟩
  | none =>
    let iNdEx := r.iNdEx
    let msglen := wrapInt64 r.value
    if msglen < 0 then some ⟨[], iNdEx, some .ErrInvalidLengthIbcForwardMetadata⟩ else
    let postIndex := wrapInt64 (iNdEx + msglen)
    if postIndex < 0 then some ⟨[], iNdEx, some .ErrInvalidLengthIbcForwardMetadata⟩ else
    if postIndex > l then some ⟨[], iNdEx, some .ErrUnexpectedEOF⟩ else
    (slice dAtA iNdEx postIndex.toNat).bind fun s => some ⟨s, postIndex.toNat, none⟩

/-- The result of one `case` of the `switch fieldNum` in
`(*StoreIBCForwardMetadata).Unmarshal`. -/
structure StoreFieldResult where
  m : StoreIBCForwardMetadata
  iNdEx : Nat
  err : Option GoError
  deriving DecidableEq, Repr

/-- `case 1`: `SourceDomain`, zeroed before the loop and accumulated in place. -/
def unmarshalSourceDomain (m : StoreIBCForwardMetadata) (wireType : Nat) (dAtA : List Byte)
    (iNdEx : Nat) : Option StoreFieldResult :=
  if wireType ≠ 0 then some ⟨m, iNdEx, some (.ErrorfWrongWireType wireType "SourceDomain")⟩ else
  (decodeVarint32 dAtA iNdEx).bind fun r =>
    some ⟨{ m with SourceDomain := r.value }, r.iNdEx, r.err⟩

/-- `case 2`: `SourceDomainSender`. -/
def unmarshalSourceDomainSender (m : StoreIBCForwardMetadata) (wireType : Nat)
    (dAtA : List Byte) (iNdEx : Nat) : Option StoreFieldResult :=
  if wireType ≠ 2 then
    some ⟨m, iNdEx, some (.ErrorfWrongWireType wireType "SourceDomainSender")⟩ else
  (readLengthDelimited dAtA iNdEx).bind fun r =>
  match r.err with
  | some e => some ⟨m, r.iNdEx, some e⟩
  | none => some ⟨{ m with SourceDomainSender := r.bytes }, r.iNdEx, none⟩

/-- `case 3`: `Metadata`. A nil `m.Metadata` is replaced by a new empty
record, and the nested `Unmarshal` decodes into `m.Metadata` without resetting
it; its partial result stays in place when it returns an error. -/
def unmarshalMetadata (m : StoreIBCForwardMetadata) (wireType : Nat) (dAtA : List Byte)
    (iNdEx : Nat) : Option StoreFieldResult :=
  if wireType ≠ 2 then some ⟨m, iNdEx, some (.ErrorfWrongWireType wireType "Metadata")⟩ else
  (readLengthDelimited dAtA iNdEx).bind fun r =>
  match r.err with
  | some e => some ⟨m, r.iNdEx, some e⟩
  | none =>
    let md := match m.Metadata with
      | some md => md
      | none => IBCForwardMetadata.Reset
    (md.Unmarshal r.bytes).bind fun u =>
    match u.2 with
    | some e => some ⟨{ m with Metadata := some u.1 }, iNdEx, some e⟩
    | none => some ⟨{ m with Metadata := some u.1 }, r.iNdEx, none⟩

/-- `case 4`: `AckError`, assigned after the loop from an `int` accumulator,
which is non-zero exactly when its 64 bits are. -/
def unmarshalAckError (m : StoreIBCForwardMetadata) (wireType : Nat) (dAtA : List Byte)
    (iNdEx : Nat) : Option StoreFieldResult :=
  if wireType ≠ 0 then some ⟨m, iNdEx, some (.ErrorfWrongWireType wireType "AckError")⟩ else
  (decodeVarint dAtA iNdEx).bind fun r =>
  match r.err with
  | some e => some ⟨m, r.iNdEx, some e⟩
  | none => some ⟨{ m with AckError := decide (wrapInt64 r.value ≠ 0) }, r.iNdEx, none⟩

/-- The `default` case of `(*StoreIBCForwardMetadata).Unmarshal`. -/
def unmarshalStoreUnknownField (m : StoreIBCForwardMetadata) (dAtA : List Byte)
    (preIndex : Nat) : Option StoreFieldResult :=
  let l : Int := dAtA.length
  let iNdEx := preIndex
  (sliceFrom dAtA iNdEx).bind fun rest =>
  (skipIbcForwardMetadata rest).bind fun r =>
  let skippy := r.1
  match r.2 with
  | some e => some ⟨m, iNdEx, some e⟩
  | none =>
    if skippy < 0 ∨ wrapInt64 (iNdEx + skippy) < 0 then
      some ⟨m, iNdEx, some .ErrInvalidLengthIbcForwardMetadata⟩
    else if wrapInt64 (iNdEx + skippy) > l then some ⟨m, iNdEx, some .ErrUnexpectedEOF⟩
    else some ⟨m, (wrapInt64 (iNdEx + skippy)).toNat, none⟩

/-- One iteration of the outer loop of `(*StoreIBCForwardMetadata).Unmarshal`,
entered with `iNdEx < l`. -/
def StoreIBCForwardMetadata.unmarshalField (m : StoreIBCForwardMetadata) (dAtA : List Byte)
    (iNdEx : Nat) : Option StoreFieldResult :=
  let preIndex := iNdEx
  (decodeVarint dAtA iNdEx).bind fun t =>
  match t.err with
  | some e => some ⟨m, t.iNdEx, some e⟩
  | none =>
    let wire := t.value
    let iNdEx := t.iNdEx
    let fieldNum := wrapInt32 (wire >>> 3)
    let wireType := wire &&& 0x7
    if wireType = 4 then some ⟨m, iNdEx, some (.ErrorfEndGroup "StoreIBCForwardMetadata")⟩
    else if fieldNum ≤ 0 then
      some ⟨m, iNdEx, some (.ErrorfIllegalTag "StoreIBCForwardMetadata" fieldNum wire)⟩
    else if fieldNum = 1 then unmarshalSourceDomain m wireType dAtA iNdEx
    else if fieldNum = 2 then unmarshalSourceDomainSender m wireType dAtA iNdEx
    else if fieldNum = 3 then unmarshalMetadata m wireType dAtA iNdEx
    else if fieldNum = 4 then unmarshalAckError m wireType dAtA iNdEx
    else unmarshalStoreUnknownField m dAtA preIndex

/-- The outer loop of `(*StoreIBCForwardMetadata).Unmarshal` and the
statements after it. -/
def StoreIBCForwardMetadata.unmarshalLoop :
    Nat → StoreIBCForwardMetadata → List Byte → Nat →
      Option (StoreIBCForwardMetadata × Option GoError)
  | 0, _, _, _ => none
  | fuel + 1, m, dAtA, iNdEx =>
    let l := dAtA.length
    if iNdEx < l then
      (m.unmarshalField dAtA iNdEx).bind fun r =>
      match r.err with
      | some e => some (r.m, some e)
      | none => StoreIBCForwardMetadata.unmarshalLoop fuel r.m dAtA r.iNdEx
    else if iNdEx > l then some (m, some .ErrUnexpectedEOF)
    else some (m, none)

/-- `(*StoreIBCForwardMetadata).Unmarshal(dAtA)` on the receiver `m`, with
`len(dAtA) + 1` units of fuel as for `(*IBCForwardMetadata).Unmarshal`. -/
def StoreIBCForwardMetadata.Unmarshal (m : StoreIBCForwardMetadata) (dAtA : List Byte) :
    Option (StoreIBCForwardMetadata × Option GoError) :=
  StoreIBCForwardMetadata.unmarshalLoop (dAtA.length + 1) m dAtA 0

/-! ## The byte layout written by `(*StoreIBCForwardMetadata).MarshalToSizedBuffer`

Auxiliary definitions used by the proofs, as `wireBytes` above. -/

/-- The bytes of the `AckError` field in the buffer: nothing for `false`,
otherwise the tag byte and the byte 1. -/
def boolFieldBytes (tag : Byte) (x : Bool) : List Byte :=
  if x then [tag, 1] else []

/-- The bytes of the `Metadata` field in the buffer: nothing for nil, otherwise
the tag byte, the varint of the size of the nested record and its bytes. -/
def metadataFieldBytes (tag : Byte) (x : Option IBCForwardMetadata) : List Byte :=
  match x with
  | none => []
  | some md => tag :: (varintBytes (uint64 md.Size) ++ md.wireBytes)

/-- The bytes of a stored record in the buffer: its fields in increasing field
number. -/
def StoreIBCForwardMetadata.wireBytes (s : StoreIBCForwardMetadata) : List Byte :=
  uint64FieldBytes 0x8 s.SourceDomain ++ (stringFieldBytes 0x12 s.SourceDomainSender ++
    (metadataFieldBytes 0x1a s.Metadata ++ boolFieldBytes 0x20 s.AckError))

/-! ## Well-formed fields

The shape of a field on the wire, as the claims on unknown fields describe
it: a tag followed by a complete payload. -/

/-- The bytes `bs` are one complete varint of value `v`: the varint loop of
the decoder, started on the first byte, stops on the last one without error. -/
def IsVarint (bs : List Byte) (v : Nat) : Prop :=
  decodeVarint bs 0 = some ⟨v, bs.length, none⟩

instance (bs : List Byte) (v : Nat) : Decidable (IsVarint bs v) := by
  unfold IsVarint; infer_instance

/-- A complete payload for a field of wire type `wireType`: a complete varint
(wire type 0), 8 bytes (wire type 1), a length prefix followed by exactly as
many bytes as it declares (wire type 2), 4 bytes (wire type 5). -/
def WellFormedPayload (wireType : Nat) (payload : List Byte) : Prop :=
  (wireType = 0 ∧ ∃ v, IsVarint payload v) ∨
  (wireType = 1 ∧ payload.length = 8) ∨
  (wireType = 2 ∧ ∃ lp body, payload = lp ++ body ∧ IsVarint lp body.length) ∨
  (wireType = 5 ∧ payload.length = 4)


/-! ## Stored records the encoder can write -/

/-- The stored records of the Go type: `SourceDomain` is a `uint32`, the
nested record (if present) is representable, and the encoded size fits a Go
`int`, the length of the slice that `Marshal` allocates. -/
def StoreIBCForwardMetadata.Representable (s : StoreIBCForwardMetadata) : Prop :=
  s.SourceDomain < 2 ^ 32 ∧ (∀ md ∈ s.Metadata, md.Representable) ∧ s.Size < 2 ^ 63

instance (s : StoreIBCForwardMetadata) : Decidable s.Representable := by
  unfold StoreIBCForwardMetadata.Representable; infer_instance

/-! ## The ledger, the intent store and the orchestrator

Of the keeper of the router module only `util.go` is among the source files.
The operations below are the ones section 4 of the specification describes;
the stores are association lists in the order of insertion, the host's
account system and transfer module are parameters. -/

/-- Modelled from the spec: the Mint record (replay marker), "identity =
(SourceDomainSender composite of domain+sender, Nonce)". The Go type
`types.Mint` is declared outside the source files; `query_mint_test.go` fills
these two fields. -/
structure Mint where
  SourceDomainSender : List Byte
  Nonce : Nat
  deriving DecidableEq, Repr

/-- Modelled from the spec: the two outcomes of `ReplayLedger.Record`,
"Ok | AlreadyProcessed". -/
inductive RecordResult where
  | Ok
  | AlreadyProcessed
  deriving DecidableEq, Repr

/-- Modelled from the spec: `ReplayLedger.Record(domainSender, nonce)`, missing
from the source files: "inserts the key if absent; if present, fails with
AlreadyProcessed and performs no mutation". The ledger is the list of Mint
records written so far. -/
def ReplayLedger.Record (ledger : List Mint) (domainSender : List Byte) (nonce : Nat) :
    List Mint × RecordResult :=
  if (⟨domainSender, nonce⟩ : Mint) ∈ ledger then (ledger, .AlreadyProcessed)
  else (⟨domainSender, nonce⟩ :: ledger, .Ok)

/-- Modelled from the spec: the answer of the query surface when no Mint has
the key, the gRPC status `codes.NotFound` that `TestShowMint` expects. -/
inductive QueryError where
  | NotFound
  deriving DecidableEq, Repr

/-- Modelled from the spec: the show-mint query, missing from the source
files: "lookup a Mint record by (sourceDomainSender, nonce) → found/not-found".
It returns the first stored Mint with the key. -/
def ShowMint (mints : List Mint) (sourceDomainSender : List Byte) (nonce : Nat) :
    Option Mint × Option QueryError :=
  match mints.find? fun m => decide (m.SourceDomainSender = sourceDomainSender ∧ m.Nonce = nonce) with
  | some m => (some m, none)
  | none => (none, some .NotFound)

/-- Modelled from the spec: `ForwardIntentStore.TakeForMint(domainSender)`,
missing from the source files: "returns the intent correlated with an arriving
mint, if any; absence is a normal outcome". The store holds one
`StoreIBCForwardMetadata` per key. -/
def ForwardIntentStore.TakeForMint :
    List (List Byte × StoreIBCForwardMetadata) → List Byte → Option StoreIBCForwardMetadata
  | [], _ => none
  | e :: es, domainSender =>
    if e.1 = domainSender then some e.2 else ForwardIntentStore.TakeForMint es domainSender

/-- Modelled from the spec: `ForwardIntentStore.Put(domainSender, intent)`,
missing from the source files: "upsert, last write wins". -/
def ForwardIntentStore.Put :
    List (List Byte × StoreIBCForwardMetadata) → List Byte → StoreIBCForwardMetadata →
      List (List Byte × StoreIBCForwardMetadata)
  | [], domainSender, intent => [(domainSender, intent)]
  | e :: es, domainSender, intent =>
    if e.1 = domainSender then (domainSender, intent) :: es
    else e :: ForwardIntentStore.Put es domainSender intent

/-- Modelled from the spec: `ForwardIntentStore.MarkAckError(domainSender)`,
missing from the source files: it "sets AckError = true on the stored intent";
"calling it when no intent exists, or calling it twice, must not error". The
result is the store after the call and the error returned. -/
def ForwardIntentStore.MarkAckError (store : List (List Byte × StoreIBCForwardMetadata))
    (domainSender : List Byte) :
    List (List Byte × StoreIBCForwardMetadata) × Option GoError :=
  match ForwardIntentStore.TakeForMint store domainSender with
  | none => (store, none)
  | some intent =>
    (ForwardIntentStore.Put store domainSender { intent with AckError := true }, none)

/-- Modelled from the spec: the interfaces the orchestrator consumes (section
6), over a host state `H`: the composite key of step 3, the ledger credit
interface "Credit(recipientAddress, amount) -> Ok | Err" (`none` is `Err`) and
the forward transfer interface "InitiateTransfer(port, channel, receiver,
amount, memo, timeoutInNanoseconds)", whose outcome is not awaited. -/
structure HostInterface (H : Type) where
  composite : Nat → List Byte → List Byte
  Credit : H → List Byte → Int → Option H
  InitiateTransfer : H → List Byte → List Byte → List Byte → Int → List Byte → Nat → H

/-- Modelled from the spec: the state the orchestrator works on: the replay
ledger, the intent store and the state of the host. -/
structure RouterState (H : Type) where
  ledger : List Mint
  intents : List (List Byte × StoreIBCForwardMetadata)
  host : H
  deriving DecidableEq, Repr

/-- Modelled from the spec: the outcomes of `ProcessInboundMessage`,
"MintResult | DecodingError | AlreadyProcessed" and the `CreditFailure` of the
error taxonomy; "MintResult reports: minted amount, recipient, and whether a
forward was attempted". -/
inductive ProcessResult where
  | MintResult (amount : Int) (recipient : List Byte) (forwardAttempted : Bool)
  | DecodingError
  | AlreadyProcessed
  | CreditFailure
  deriving DecidableEq, Repr

/-- Modelled from the spec: step 6 of `ProcessInboundMessage`: "Look up
ForwardIntentStore.TakeForMint(domainSender); if present, initiate a transfer
through the external forward interface using the intent's Metadata". An intent
without Metadata starts no transfer. The result is the host state and whether
a forward was attempted. -/
def forwardStep {H : Type} (host : HostInterface H) (st : RouterState H)
    (domainSender : List Byte) (amount : Int) (h : H) : H × Bool :=
  match (ForwardIntentStore.TakeForMint st.intents domainSender).bind fun i => i.Metadata with
  | none => (h, false)
  | some md =>
    (host.InitiateTransfer h md.Port md.Channel md.DestinationReceiver amount md.Memo
      md.TimeoutInNanoseconds, true)

/-- Modelled from the spec: steps 3 to 6 of `ProcessInboundMessage` on a
decoded envelope and burn: the composite key, `ReplayLedger.Record` (abort on
AlreadyProcessed, "no further steps execute"), the credit of `burn.Amount` to
`burn.MintRecipient` (on failure the record of step 4 is rolled back: the
state is the one before the call), the forward on the credited host. -/
def mintStep {H : Type} (host : HostInterface H) (st : RouterState H) (envelope : Message)
    (burn : BurnMessage) : RouterState H × ProcessResult :=
  let domainSender := host.composite envelope.SourceDomain envelope.Sender
  let rec1 := ReplayLedger.Record st.ledger domainSender envelope.Nonce
  match rec1.2 with
  | .AlreadyProcessed => (st, .AlreadyProcessed)
  | .Ok =>
    match host.Credit st.host burn.MintRecipient burn.Amount with
    | none => (st, .CreditFailure)
    | some h =>
      let f := forwardStep host st domainSender burn.Amount h
      ({ ledger := rec1.1, intents := st.intents, host := f.1 },
        .MintResult burn.Amount burn.MintRecipient f.2)

/-- Modelled from the spec: `ProcessInboundMessage(bytes)` of the
MintOrchestrator, missing from the source files. Steps 1 and 2 decode the
envelope with `DecodeMessage` and its body with `DecodeBurnMessage`; "any
decoding failure aborts with no state change". The result is the state after
the call and the outcome. -/
def ProcessInboundMessage {H : Type} (host : HostInterface H) (st : RouterState H)
    (bytes : List Byte) : Option (RouterState H × ProcessResult) :=
  (DecodeMessage bytes).bind fun r =>
  match r.1 with
  | none => some (st, .DecodingError)
  | some envelope =>
    (DecodeBurnMessage envelope.MessageBody).bind fun b =>
    match b.1 with
    | none => some (st, .DecodingError)
    | some burn => some (mintStep host st envelope burn)

/-- A host for examples: the state is the pair of the amount credited so far
and the number of transfers initiated, the composite key is the domain byte
followed by the sender. -/
def exampleHost : HostInterface (Int × Nat) where
  composite := fun d s => uint8 d :: s
  Credit := fun h _ a => some (h.1 + a, h.2)
  InitiateTransfer := fun h _ _ _ _ _ _ => (h.1, h.2 + 1)

/-- An envelope from domain 0 with nonce 0 whose body is a burn of 100. -/
def exampleBurnBytes : List Byte :=
  List.replicate 116 0 ++ (List.replicate 99 0 ++ (0x64 :: List.replicate 32 0))

/-! ## Varints on the wire

The value and the shape of the bytes of a varint, as the claims on the varint
loops describe them. -/

/-- The base-128 value carried by the bytes of a varint: the low 7 bits of
each byte, least significant group first. -/
def varintValue : List Byte → Nat
  | [] => 0
  | b :: bs => b.val % 128 + 128 * varintValue bs

/-- A well-terminated varint: at least one byte, the continuation bit `0x80`
set on every byte but the last, and clear on the last. -/
def WellTerminated : List Byte → Prop
  | [] => False
  | b :: bs => (bs = [] ∧ b.val < 128) ∨ (128 ≤ b.val ∧ WellTerminated bs)

instance : (bs : List Byte) → Decidable (WellTerminated bs)
  | [] => isFalse (fun h => h)
  | b :: bs =>
    have : Decidable (WellTerminated bs) := instDecidableWellTerminated bs
    inferInstanceAs (Decidable ((bs = [] ∧ b.val < 128) ∨ (128 ≤ b.val ∧ WellTerminated bs)))
/-! ## Properties of the fixed-offset decoders -/

theorem or_shiftLeft_eq (a b k : Nat) (h : b < 2 ^ k) : b ||| a <<< k = a * 2 ^ k + b := by
  rw [Nat.lor_comm, Nat.shiftLeft_eq, Nat.mul_comm a, ← Nat.mul_add_lt_is_or h]

theorem slice_eq (s : List Byte) (lo hi : Nat) (h1 : lo ≤ hi) (h2 : hi ≤ s.length) :
    slice s lo hi = some ((s.drop lo).take (hi - lo)) := by
  unfold slice
  rw [if_pos ⟨h1, h2⟩, List.drop_take]

theorem getD_drop_take (s : List Byte) (lo n i : Nat) (hi : i < n) :
    ((s.drop lo).take n).getD i 0 = s.getD (lo + i) 0 := by
  simp [List.getD_eq_getElem?_getD, List.getElem?_take, hi]

theorem BigEndian_Uint32_eq (s : List Byte) (h : 4 ≤ s.length) :
    BigEndian_Uint32 s = some (∑ i in Finset.range 4, (s.getD i 0).val * 256 ^ (3 - i)) := by
  match s, h with
  | b0 :: b1 :: b2 :: b3 :: _, _ =>
    have h0 := b0.isLt; have h1 := b1.isLt; have h2 := b2.isLt; have h3 := b3.isLt
    simp only [BigEndian_Uint32, Finset.sum_range_succ, Finset.sum_range_zero, List.getD_cons_zero,
      List.getD_cons_succ, Option.some.injEq]
    rw [or_shiftLeft_eq _ _ 8 (by omega), or_shiftLeft_eq _ _ 16 (by omega),
      or_shiftLeft_eq _ _ 24 (by omega)]
    omega

theorem BigEndian_Uint64_eq (s : List Byte) (h : 8 ≤ s.length) :
    BigEndian_Uint64 s = some (∑ i in Finset.range 8, (s.getD i 0).val * 256 ^ (7 - i)) := by
  match s, h with
  | b0 :: b1 :: b2 :: b3 :: b4 :: b5 :: b6 :: b7 :: _, _ =>
    have h0 := b0.isLt; have h1 := b1.isLt; have h2 := b2.isLt; have h3 := b3.isLt
    have h4 := b4.isLt; have h5 := b5.isLt; have h6 := b6.isLt; have h7 := b7.isLt
    simp only [BigEndian_Uint64, Finset.sum_range_succ, Finset.sum_range_zero, List.getD_cons_zero,
      List.getD_cons_succ, Option.some.injEq]
    rw [or_shiftLeft_eq _ _ 8 (by omega), or_shiftLeft_eq _ _ 16 (by omega),
      or_shiftLeft_eq _ _ 24 (by omega), or_shiftLeft_eq _ _ 32 (by omega),
      or_shiftLeft_eq _ _ 40 (by omega), or_shiftLeft_eq _ _ 48 (by omega),
      or_shiftLeft_eq _ _ 56 (by omega)]
    omega


theorem bigIntSetBytes_snoc (s : List Byte) (b : Byte) :
    bigIntSetBytes (s ++ [b]) = bigIntSetBytes s * 256 + b.val := by
  simp [bigIntSetBytes, List.foldl_append]

theorem bigIntSetBytes_lt (s : List Byte) : bigIntSetBytes s < 256 ^ s.length := by
  induction s using List.reverseRecOn with
  | nil => simp [bigIntSetBytes]
  | append_singleton s b ih =>
    rw [bigIntSetBytes_snoc, List.length_append, List.length_singleton, pow_succ]
    have := b.isLt
    omega

theorem bigIntSetBytes_eq_sum (s : List Byte) :
    bigIntSetBytes s = ∑ i in Finset.range s.length, (s.getD i 0).val * 256 ^ (s.length - 1 - i) := by
  induction s using List.reverseRecOn with
  | nil => simp [bigIntSetBytes]
  | append_singleton s b ih =>
    rw [bigIntSetBytes_snoc, List.length_append, List.length_singleton, Finset.sum_range_succ, ih,
      Finset.sum_mul]
    congr 1
    · apply Finset.sum_congr rfl
      intro i hi
      have hi' : i < s.length := Finset.mem_range.mp hi
      rw [List.getD_append _ _ _ _ hi', mul_assoc, ← pow_succ]
      congr 2
      omega
    · simp [List.getD_eq_getElem?_getD]

theorem isValidUint256_iff (s : List Byte) : isValidUint256 s = true ↔ bigIntSetBytes s < 2 ^ 256 := by
  unfold isValidUint256 bigIntBitLen
  simp only [gt_iff_lt]
  rw [← Nat.size_le]
  split <;> simp_all

theorem isValidUint256_of_length_le (s : List Byte) (h : s.length ≤ 32) : isValidUint256 s = true := by
  rw [isValidUint256_iff]
  calc bigIntSetBytes s < 256 ^ s.length := bigIntSetBytes_lt s
    _ ≤ 256 ^ 32 := Nat.pow_le_pow_right (by decide) h
    _ = 2 ^ 256 := by norm_num

theorem DecodeMessage_malformed_of_short (msg : List Byte) (h : msg.length < 116) :
    DecodeMessage.malformed msg = some true := by
  simp [DecodeMessage.malformed, orElse, MessageBodyIndex, h]

theorem DecodeMessage_malformed_of_long (msg : List Byte) (h : 116 ≤ msg.length) :
    DecodeMessage.malformed msg = some false := by
  have h' : ¬ msg.length < 116 := by omega
  simp [DecodeMessage.malformed, orElse, MessageBodyIndex, VersionIndex, SourceDomainIndex,
    DestinationDomainIndex, NonceIndex, SenderIndex, h', isValidUint32, isValidUint64]
  rw [slice_eq _ _ _ (by omega) (by omega), slice_eq _ _ _ (by omega) (by omega),
    slice_eq _ _ _ (by omega) (by omega), slice_eq _ _ _ (by omega) (by omega)]
  simp
  rw [if_neg (by omega), if_neg (by omega), if_neg (by omega)]
  simp
  omega


theorem DecodeMessage_build_eq (msg : List Byte) (h : 116 ≤ msg.length) :
    DecodeMessage.build msg = some
      { Version := ∑ i in Finset.range 4, (msg.getD i 0).val * 256 ^ (3 - i)
        SourceDomain := ∑ i in Finset.range 4, (msg.getD (4 + i) 0).val * 256 ^ (3 - i)
        DestinationDomain := ∑ i in Finset.range 4, (msg.getD (8 + i) 0).val * 256 ^ (3 - i)
        Nonce := ∑ i in Finset.range 8, (msg.getD (12 + i) 0).val * 256 ^ (7 - i)
        Sender := (msg.drop 20).take 32
        Recipient := (msg.drop 52).take 32
        DestinationCaller := (msg.drop 84).take 32
        MessageBody := msg.drop 116 } := by
  unfold DecodeMessage.build sliceFrom
  simp only [VersionIndex, SourceDomainIndex, DestinationDomainIndex, NonceIndex, SenderIndex,
    RecipientIndex, DestinationCallerIndex, MessageBodyIndex]
  rw [slice_eq _ 0 4 (by omega) (by omega), slice_eq _ 4 8 (by omega) (by omega),
    slice_eq _ 8 12 (by omega) (by omega), slice_eq _ 12 20 (by omega) (by omega),
    slice_eq _ 20 52 (by omega) (by omega), slice_eq _ 52 84 (by omega) (by omega),
    slice_eq _ 84 116 (by omega) (by omega), slice_eq _ 116 _ (by omega) (by omega)]
  simp only [Option.some_bind]
  rw [BigEndian_Uint32_eq _ (by simp; omega), BigEndian_Uint32_eq _ (by simp; omega),
    BigEndian_Uint32_eq _ (by simp; omega), BigEndian_Uint64_eq _ (by simp; omega)]
  simp only [Option.some_bind, Option.some.injEq, Message.mk.injEq]
  refine ⟨?_, ?_, ?_, ?_, trivial, trivial, trivial, ?_⟩
  · apply Finset.sum_congr rfl
    intro i hi
    rw [getD_drop_take _ _ _ _ (Finset.mem_range.mp hi)]
    simp
  · apply Finset.sum_congr rfl
    intro i hi
    rw [getD_drop_take _ _ _ _ (Finset.mem_range.mp hi)]
  · apply Finset.sum_congr rfl
    intro i hi
    rw [getD_drop_take _ _ _ _ (Finset.mem_range.mp hi)]
  · apply Finset.sum_congr rfl
    intro i hi
    rw [getD_drop_take _ _ _ _ (Finset.mem_range.mp hi)]
  · simp

/-- C1: on every byte buffer shorter than 116 bytes `DecodeMessage` returns
a nil `*Message` together with `ErrDecodingMessage` wrapped with the text
"error decoding message". -/
theorem DecodeMessage_rejects_short (msg : List Byte) (h : msg.length < 116) :
    DecodeMessage msg = some (none, some (.Wrap .ErrDecodingMessage "error decoding message")) ∧
      (GoError.Wrap .ErrDecodingMessage "error decoding message").Is .ErrDecodingMessage = true := by
  refine ⟨?_, by decide⟩
  unfold DecodeMessage
  rw [DecodeMessage_malformed_of_short msg h]
  rfl

theorem DecodeMessage_rejects_short_witness :
    ([0x00, 0x00, 0x00, 0x01] : List Byte).length < 116 ∧
      DecodeMessage [0x00, 0x00, 0x00, 0x01] =
        some (none, some (.Wrap .ErrDecodingMessage "error decoding message")) :=
  ⟨by decide, (DecodeMessage_rejects_short [0x00, 0x00, 0x00, 0x01] (by decide)).1⟩

/-- C2: on every byte buffer of at least 116 bytes `DecodeMessage` returns no
error and a `Message` whose integer fields are the big-endian values of
`msg[0:4)`, `msg[4:8)`, `msg[8:12)` and `msg[12:20)`, whose `Sender`,
`Recipient` and `DestinationCaller` are the 32-byte windows at offsets 20, 52
and 84, and whose `MessageBody` is everything from offset 116 on, of length
`len(msg) - 116`. -/
theorem DecodeMessage_fields (msg : List Byte) (h : 116 ≤ msg.length) :
    DecodeMessage msg = some (some
      { Version := ∑ i in Finset.range 4, (msg.getD i 0).val * 256 ^ (3 - i)
        SourceDomain := ∑ i in Finset.range 4, (msg.getD (4 + i) 0).val * 256 ^ (3 - i)
        DestinationDomain := ∑ i in Finset.range 4, (msg.getD (8 + i) 0).val * 256 ^ (3 - i)
        Nonce := ∑ i in Finset.range 8, (msg.getD (12 + i) 0).val * 256 ^ (7 - i)
        Sender := (msg.drop 20).take 32
        Recipient := (msg.drop 52).take 32
        DestinationCaller := (msg.drop 84).take 32
        MessageBody := msg.drop 116 }, none) ∧
      ((msg.drop 20).take 32).length = 32 ∧ ((msg.drop 52).take 32).length = 32 ∧
      ((msg.drop 84).take 32).length = 32 ∧ (msg.drop 116).length = msg.length - 116 ∧
      (msg.length = 116 → msg.drop 116 = []) := by
  refine ⟨?_, ?_, ?_, ?_, ?_, ?_⟩
  · unfold DecodeMessage
    rw [DecodeMessage_malformed_of_long msg h, DecodeMessage_build_eq msg h]
    rfl
  · simp; omega
  · simp; omega
  · simp; omega
  · simp
  · intro h'
    simp [h']


theorem DecodeMessage_fields_witness :
    116 ≤ (List.replicate 115 (1 : Byte) ++ [100, 7, 7]).length ∧
      DecodeMessage (List.replicate 115 (1 : Byte) ++ [100, 7, 7]) = some (some
        { Version := 16843009
          SourceDomain := 16843009
          DestinationDomain := 16843009
          Nonce := 72340172838076673
          Sender := List.replicate 32 1
          Recipient := List.replicate 32 1
          DestinationCaller := List.replicate 31 1 ++ [100]
          MessageBody := [7, 7] }, none) :=
  ⟨by decide, (DecodeMessage_fields _ (by decide)).1.trans (by decide)⟩

theorem DecodeBurnMessage_malformed_of_length_ne (msg : List Byte) (h : msg.length ≠ 132) :
    DecodeBurnMessage.malformed msg = some true := by
  simp [DecodeBurnMessage.malformed, orElse, BurnMessageLen, h]

theorem DecodeBurnMessage_malformed_of_length_eq (msg : List Byte) (h : msg.length = 132) :
    DecodeBurnMessage.malformed msg = some false := by
  simp only [DecodeBurnMessage.malformed, orElse, BurnMessageLen, BurnMsgVersionIndex,
    BurnTokenIndex, AmountIndex, MsgSenderIndex]
  rw [slice_eq _ _ _ (by omega) (by omega), slice_eq _ _ _ (by omega) (by omega)]
  have hv := isValidUint256_of_length_le (List.take (100 - 68) (List.drop 68 msg)) (by simp)
  simp [isValidUint32, h, hv]

theorem DecodeBurnMessage_build_eq (msg : List Byte) (h : msg.length = 132) :
    DecodeBurnMessage.build msg = some
      { Version := ∑ i in Finset.range 4, (msg.getD i 0).val * 256 ^ (3 - i)
        BurnToken := (msg.drop 4).take 32
        MintRecipient := (msg.drop 36).take 32
        Amount := ((∑ i in Finset.range 32, (msg.getD (68 + i) 0).val * 256 ^ (31 - i) : Nat) : Int)
        MessageSender := (msg.drop 100).take 32 } := by
  unfold DecodeBurnMessage.build
  simp only [BurnMessageLen, BurnMsgVersionIndex, BurnTokenIndex, AmountIndex, MsgSenderIndex,
    MintRecipientIndex]
  rw [slice_eq _ 0 4 (by omega) (by omega), slice_eq _ 4 36 (by omega) (by omega),
    slice_eq _ 36 68 (by omega) (by omega), slice_eq _ 68 100 (by omega) (by omega),
    slice_eq _ 100 132 (by omega) (by omega)]
  simp only [Option.some_bind, Option.map_some']
  rw [BigEndian_Uint32_eq _ (by simp; omega)]
  simp only [Option.some_bind, Option.some.injEq, BurnMessage.mk.injEq]
  refine ⟨?_, trivial, trivial, ?_, trivial⟩
  · apply Finset.sum_congr rfl
    intro i hi
    rw [getD_drop_take _ _ _ _ (Finset.mem_range.mp hi)]
    simp
  · unfold bytesToBigInt
    rw [bigIntSetBytes_eq_sum]
    have hl : (List.take (100 - 68) (List.drop 68 msg)).length = 32 := by simp; omega
    rw [hl]
    simp only [Int.ofNat_eq_coe, Nat.cast_inj]
    apply Finset.sum_congr rfl
    intro i hi
    rw [getD_drop_take _ _ _ _ (Finset.mem_range.mp hi)]

/-- C3: on every byte buffer whose length is not exactly 132 (so also 131
and 133 bytes) `DecodeBurnMessage` returns a nil `*BurnMessage` together with
`ErrDecodingMessage` wrapped with the text "error decoding burn message". -/
theorem DecodeBurnMessage_rejects_wrong_length (msg : List Byte) (h : msg.length ≠ 132) :
    DecodeBurnMessage msg =
        some (none, some (.Wrap .ErrDecodingMessage "error decoding burn message")) ∧
      (GoError.Wrap .ErrDecodingMessage "error decoding burn message").Is .ErrDecodingMessage
        = true := by
  refine ⟨?_, by decide⟩
  unfold DecodeBurnMessage
  rw [DecodeBurnMessage_malformed_of_length_ne msg h]
  rfl

theorem DecodeBurnMessage_rejects_wrong_length_witness :
    ((List.replicate 131 (0 : Byte)).length ≠ 132 ∧
      DecodeBurnMessage (List.replicate 131 0) =
        some (none, some (.Wrap .ErrDecodingMessage "error decoding burn message"))) ∧
    ((List.replicate 133 (0 : Byte)).length ≠ 132 ∧
      DecodeBurnMessage (List.replicate 133 0) =
        some (none, some (.Wrap .ErrDecodingMessage "error decoding burn message"))) :=
  ⟨⟨by simp, (DecodeBurnMessage_rejects_wrong_length _ (by simp)).1⟩,
    ⟨by simp, (DecodeBurnMessage_rejects_wrong_length _ (by simp)).1⟩⟩

/-- C4: on every byte buffer of exactly 132 bytes `DecodeBurnMessage` returns
no error and a `BurnMessage` with `Version` the big-endian value of
`msg[0:4)`, `BurnToken = msg[4:36)`, `MintRecipient = msg[36:68)`, `Amount`
the unsigned big-endian value of the 32 bytes `msg[68:100)` and
`MessageSender = msg[100:132)`. -/
theorem DecodeBurnMessage_fields (msg : List Byte) (h : msg.length = 132) :
    DecodeBurnMessage msg = some (some
      { Version := ∑ i in Finset.range 4, (msg.getD i 0).val * 256 ^ (3 - i)
        BurnToken := (msg.drop 4).take 32
        MintRecipient := (msg.drop 36).take 32
        Amount := ((∑ i in Finset.range 32, (msg.getD (68 + i) 0).val * 256 ^ (31 - i) : Nat) : Int)
        MessageSender := (msg.drop 100).take 32 }, none) := by
  unfold DecodeBurnMessage
  rw [DecodeBurnMessage_malformed_of_length_eq msg h, DecodeBurnMessage_build_eq msg h]
  rfl

set_option maxRecDepth 8192 in
theorem DecodeBurnMessage_fields_witness :
    (List.replicate 36 (0 : Byte) ++ List.replicate 32 0xAB ++ List.replicate 31 0 ++ [0x64] ++
        List.replicate 32 0).length = 132 ∧
      DecodeBurnMessage (List.replicate 36 (0 : Byte) ++ List.replicate 32 0xAB ++
        List.replicate 31 0 ++ [0x64] ++ List.replicate 32 0) = some (some
        { Version := 0
          BurnToken := List.replicate 32 0
          MintRecipient := List.replicate 32 0xAB
          Amount := 100
          MessageSender := List.replicate 32 0 }, none) :=
  ⟨by decide, (DecodeBurnMessage_fields _ (by decide)).trans (by decide)⟩


/-! ## Round trips of the fixed-offset formats -/

theorem bigEndianBytes_setBytes (s : List Byte) : bigEndianBytes s.length (bigIntSetBytes s) = s := by
  induction s using List.reverseRecOn with
  | nil => rfl
  | append_singleton s b ih =>
    rw [bigIntSetBytes_snoc, List.length_append, List.length_singleton, bigEndianBytes]
    have hb := b.isLt
    have h1 : (bigIntSetBytes s * 256 + b.val) / 256 = bigIntSetBytes s := by omega
    have h2 : uint8 (bigIntSetBytes s * 256 + b.val) = b := by
      apply Fin.ext
      simp only [uint8]
      omega
    rw [h1, h2, ih]

theorem fixedWidth_of_length (w : Nat) (s : List Byte) (h : s.length = w) : fixedWidth w s = s := by
  simp [fixedWidth, h]

theorem drop_split (x : List Byte) (a n : Nat) :
    x.drop a = (x.drop a).take n ++ x.drop (a + n) := by
  conv_lhs => rw [← List.take_append_drop n (x.drop a)]
  rw [List.drop_drop]

theorem BigEndian_Uint32_eq_setBytes (s : List Byte) (h : s.length = 4) :
    BigEndian_Uint32 s = some (bigIntSetBytes s) := by
  rw [BigEndian_Uint32_eq s (by omega), bigIntSetBytes_eq_sum, h]

theorem BigEndian_Uint64_eq_setBytes (s : List Byte) (h : s.length = 8) :
    BigEndian_Uint64 s = some (bigIntSetBytes s) := by
  rw [BigEndian_Uint64_eq s (by omega), bigIntSetBytes_eq_sum, h]

theorem DecodeBurnMessage_eq_raw (msg : List Byte) (h : msg.length = 132) :
    DecodeBurnMessage msg = some (some
      { Version := bigIntSetBytes ((msg.drop 0).take 4)
        BurnToken := (msg.drop 4).take 32
        MintRecipient := (msg.drop 36).take 32
        Amount := (bigIntSetBytes ((msg.drop 68).take 32) : Int)
        MessageSender := (msg.drop 100).take 32 }, none) := by
  unfold DecodeBurnMessage
  rw [DecodeBurnMessage_malformed_of_length_eq msg h]
  unfold DecodeBurnMessage.build
  simp only [BurnMessageLen, BurnMsgVersionIndex, BurnTokenIndex, AmountIndex, MsgSenderIndex,
    MintRecipientIndex]
  rw [slice_eq _ 0 4 (by omega) (by omega), slice_eq _ 4 36 (by omega) (by omega),
    slice_eq _ 36 68 (by omega) (by omega), slice_eq _ 68 100 (by omega) (by omega),
    slice_eq _ 100 132 (by omega) (by omega)]
  simp only [Option.some_bind, Option.map_some']
  rw [BigEndian_Uint32_eq_setBytes _ (by simp; omega)]
  rfl

/-- C5: whenever `DecodeBurnMessage` returns a `BurnMessage`, its `Amount`
lies in `[0, 2 ^ 256)`. -/
theorem DecodeBurnMessage_amount_range (msg : List Byte) (bm : BurnMessage) (e : Option GoError)
    (h : DecodeBurnMessage msg = some (some bm, e)) : 0 ≤ bm.Amount ∧ bm.Amount < 2 ^ 256 := by
  by_cases hl : msg.length = 132
  · unfold DecodeBurnMessage at h
    rw [DecodeBurnMessage_malformed_of_length_eq msg hl] at h
    simp only [Option.some_bind, Bool.false_eq_true, if_false] at h
    unfold DecodeBurnMessage.build at h
    simp only [BurnMessageLen, BurnMsgVersionIndex, BurnTokenIndex, AmountIndex, MsgSenderIndex,
      MintRecipientIndex] at h
    rw [slice_eq _ 0 4 (by omega) (by omega), slice_eq _ 4 36 (by omega) (by omega),
      slice_eq _ 36 68 (by omega) (by omega), slice_eq _ 68 100 (by omega) (by omega),
      slice_eq _ 100 132 (by omega) (by omega)] at h
    simp only [Option.some_bind, Option.map_some'] at h
    rw [BigEndian_Uint32_eq _ (by simp; omega)] at h
    simp only [Option.some_bind, Option.some.injEq, Prod.mk.injEq] at h
    obtain ⟨hbm, -⟩ := h
    subst hbm
    simp only [bytesToBigInt, Int.ofNat_eq_coe]
    refine ⟨Int.natCast_nonneg _, ?_⟩
    have hlt := (isValidUint256_iff _).mp
      (isValidUint256_of_length_le (List.take (100 - 68) (List.drop 68 msg)) (by simp))
    exact_mod_cast hlt
  · unfold DecodeBurnMessage at h
    rw [DecodeBurnMessage_malformed_of_length_ne msg hl] at h
    simp at h

set_option maxRecDepth 8192 in
theorem DecodeBurnMessage_amount_range_witness :
    DecodeBurnMessage (List.replicate 68 (0 : Byte) ++ List.replicate 32 0xFF ++
        List.replicate 32 0) = some (some
        { Version := 0
          BurnToken := List.replicate 32 0
          MintRecipient := List.replicate 32 0
          Amount := 2 ^ 256 - 1
          MessageSender := List.replicate 32 0 }, none) ∧
      (0 : Int) ≤ 2 ^ 256 - 1 ∧ (2 ^ 256 - 1 : Int) < 2 ^ 256 :=
  have h : DecodeBurnMessage (List.replicate 68 (0 : Byte) ++ List.replicate 32 0xFF ++
        List.replicate 32 0) = some (some
        { Version := 0
          BurnToken := List.replicate 32 0
          MintRecipient := List.replicate 32 0
          Amount := 2 ^ 256 - 1
          MessageSender := List.replicate 32 0 }, none) :=
    (DecodeBurnMessage_eq_raw _ (by decide)).trans (by decide)
  ⟨h, DecodeBurnMessage_amount_range _ _ _ h⟩

theorem encode_DecodeBurnMessage (x : List Byte) (h : x.length = 132) :
    encodeBurnMessage
      { Version := bigIntSetBytes ((x.drop 0).take 4)
        BurnToken := (x.drop 4).take 32
        MintRecipient := (x.drop 36).take 32
        Amount := (bigIntSetBytes ((x.drop 68).take 32) : Int)
        MessageSender := (x.drop 100).take 32 } = x := by
  have l0 : ((x.drop 0).take 4).length = 4 := by simp; omega
  have l1 : ((x.drop 4).take 32).length = 32 := by simp; omega
  have l2 : ((x.drop 36).take 32).length = 32 := by simp; omega
  have l3 : ((x.drop 68).take 32).length = 32 := by simp; omega
  have l4 : ((x.drop 100).take 32).length = 32 := by simp; omega
  have e0 : bigEndianBytes 4 (bigIntSetBytes ((x.drop 0).take 4)) = (x.drop 0).take 4 := by
    have := bigEndianBytes_setBytes ((x.drop 0).take 4)
    rwa [l0] at this
  have e3 : bigEndianBytes 32 (bigIntSetBytes ((x.drop 68).take 32)) = (x.drop 68).take 32 := by
    have := bigEndianBytes_setBytes ((x.drop 68).take 32)
    rwa [l3] at this
  have e5 : x.drop 132 = [] := List.drop_of_length_le (by omega)
  simp only [encodeBurnMessage, VersionLen, BurnTokenLen, MintRecipientLen, AmountLen, MsgSenderLen,
    Int.toNat_ofNat, e0, e3, fixedWidth_of_length _ _ l1, fixedWidth_of_length _ _ l2,
    fixedWidth_of_length _ _ l4]
  conv_rhs =>
    rw [← List.drop_zero x, drop_split x 0 4, drop_split x (0 + 4) 32, drop_split x (0 + 4 + 32) 32,
      drop_split x (0 + 4 + 32 + 32) 32, drop_split x (0 + 4 + 32 + 32 + 32) 32]
  simp [e5]

/-- C6: for every 132-byte buffer `x`, `DecodeBurnMessage x` returns a
`BurnMessage` whose fixed-width encoding (Version on 4 big-endian bytes,
BurnToken, MintRecipient on 32 bytes, Amount on 32 big-endian bytes,
MessageSender on 32 bytes) is `x` byte for byte; hence two 132-byte buffers
with the same decoding are equal. -/
theorem DecodeBurnMessage_roundtrip (x : List Byte) (h : x.length = 132) :
    (∃ bm, DecodeBurnMessage x = some (some bm, none) ∧ encodeBurnMessage bm = x) ∧
      ∀ y : List Byte, y.length = 132 → DecodeBurnMessage y = DecodeBurnMessage x → y = x := by
  refine ⟨⟨_, DecodeBurnMessage_eq_raw x h, encode_DecodeBurnMessage x h⟩, ?_⟩
  intro y hy hxy
  rw [DecodeBurnMessage_eq_raw x h, DecodeBurnMessage_eq_raw y hy] at hxy
  simp only [Option.some.injEq, Prod.mk.injEq, and_true] at hxy
  rw [← encode_DecodeBurnMessage x h, ← encode_DecodeBurnMessage y hy, hxy]


theorem DecodeBurnMessage_roundtrip_witness :
    (List.replicate 36 (0 : Byte) ++ List.replicate 32 0xAB ++ List.replicate 31 0 ++ [0x64] ++
        List.replicate 32 0).length = 132 ∧
      ((∃ bm, DecodeBurnMessage (List.replicate 36 (0 : Byte) ++ List.replicate 32 0xAB ++
            List.replicate 31 0 ++ [0x64] ++ List.replicate 32 0) = some (some bm, none) ∧
          encodeBurnMessage bm = List.replicate 36 (0 : Byte) ++ List.replicate 32 0xAB ++
            List.replicate 31 0 ++ [0x64] ++ List.replicate 32 0) ∧
        ∀ y : List Byte, y.length = 132 →
          DecodeBurnMessage y = DecodeBurnMessage (List.replicate 36 (0 : Byte) ++
            List.replicate 32 0xAB ++ List.replicate 31 0 ++ [0x64] ++ List.replicate 32 0) →
          y = List.replicate 36 (0 : Byte) ++ List.replicate 32 0xAB ++ List.replicate 31 0 ++
            [0x64] ++ List.replicate 32 0) :=
  ⟨by simp, DecodeBurnMessage_roundtrip _ (by simp)⟩

theorem DecodeMessage_eq_raw (msg : List Byte) (h : 116 ≤ msg.length) :
    DecodeMessage msg = some (some
      { Version := bigIntSetBytes ((msg.drop 0).take 4)
        SourceDomain := bigIntSetBytes ((msg.drop 4).take 4)
        DestinationDomain := bigIntSetBytes ((msg.drop 8).take 4)
        Nonce := bigIntSetBytes ((msg.drop 12).take 8)
        Sender := (msg.drop 20).take 32
        Recipient := (msg.drop 52).take 32
        DestinationCaller := (msg.drop 84).take 32
        MessageBody := msg.drop 116 }, none) := by
  unfold DecodeMessage
  rw [DecodeMessage_malformed_of_long msg h]
  unfold DecodeMessage.build sliceFrom
  simp only [VersionIndex, SourceDomainIndex, DestinationDomainIndex, NonceIndex, SenderIndex,
    RecipientIndex, DestinationCallerIndex, MessageBodyIndex]
  rw [slice_eq _ 0 4 (by omega) (by omega), slice_eq _ 4 8 (by omega) (by omega),
    slice_eq _ 8 12 (by omega) (by omega), slice_eq _ 12 20 (by omega) (by omega),
    slice_eq _ 20 52 (by omega) (by omega), slice_eq _ 52 84 (by omega) (by omega),
    slice_eq _ 84 116 (by omega) (by omega), slice_eq _ 116 _ (by omega) (by omega)]
  simp only [Option.some_bind]
  rw [BigEndian_Uint32_eq_setBytes _ (by simp; omega),
    BigEndian_Uint32_eq_setBytes _ (by simp; omega),
    BigEndian_Uint32_eq_setBytes _ (by simp; omega),
    BigEndian_Uint64_eq_setBytes _ (by simp; omega)]
  simp

theorem encode_DecodeMessage (x : List Byte) (h : 116 ≤ x.length) :
    encodeMessage
      { Version := bigIntSetBytes ((x.drop 0).take 4)
        SourceDomain := bigIntSetBytes ((x.drop 4).take 4)
        DestinationDomain := bigIntSetBytes ((x.drop 8).take 4)
        Nonce := bigIntSetBytes ((x.drop 12).take 8)
        Sender := (x.drop 20).take 32
        Recipient := (x.drop 52).take 32
        DestinationCaller := (x.drop 84).take 32
        MessageBody := x.drop 116 } = x := by
  have l0 : ((x.drop 0).take 4).length = 4 := by simp; omega
  have l1 : ((x.drop 4).take 4).length = 4 := by simp; omega
  have l2 : ((x.drop 8).take 4).length = 4 := by simp; omega
  have l3 : ((x.drop 12).take 8).length = 8 := by simp; omega
  have l4 : ((x.drop 20).take 32).length = 32 := by simp; omega
  have l5 : ((x.drop 52).take 32).length = 32 := by simp; omega
  have l6 : ((x.drop 84).take 32).length = 32 := by simp; omega
  have e0 : bigEndianBytes 4 (bigIntSetBytes ((x.drop 0).take 4)) = (x.drop 0).take 4 := by
    have := bigEndianBytes_setBytes ((x.drop 0).take 4)
    rwa [l0] at this
  have e1 : bigEndianBytes 4 (bigIntSetBytes ((x.drop 4).take 4)) = (x.drop 4).take 4 := by
    have := bigEndianBytes_setBytes ((x.drop 4).take 4)
    rwa [l1] at this
  have e2 : bigEndianBytes 4 (bigIntSetBytes ((x.drop 8).take 4)) = (x.drop 8).take 4 := by
    have := bigEndianBytes_setBytes ((x.drop 8).take 4)
    rwa [l2] at this
  have e3 : bigEndianBytes 8 (bigIntSetBytes ((x.drop 12).take 8)) = (x.drop 12).take 8 := by
    have := bigEndianBytes_setBytes ((x.drop 12).take 8)
    rwa [l3] at this
  simp only [encodeMessage, e0, e1, e2, e3, fixedWidth_of_length _ _ l4,
    fixedWidth_of_length _ _ l5, fixedWidth_of_length _ _ l6]
  conv_rhs =>
    rw [← List.drop_zero x, drop_split x 0 4, drop_split x (0 + 4) 4, drop_split x (0 + 4 + 4) 4,
      drop_split x (0 + 4 + 4 + 4) 8, drop_split x (0 + 4 + 4 + 4 + 8) 32,
      drop_split x (0 + 4 + 4 + 4 + 8 + 32) 32, drop_split x (0 + 4 + 4 + 4 + 8 + 32 + 32) 32]
  simp

/-- C7: for every buffer `x` of at least 116 bytes, `DecodeMessage x` returns
a `Message` whose fields concatenated at their fixed widths (Version,
SourceDomain, DestinationDomain on 4 big-endian bytes each, Nonce on 8,
Sender, Recipient, DestinationCaller on 32 bytes each, then MessageBody) give
`x` byte for byte; the body is empty exactly at the minimum length 116. -/
theorem DecodeMessage_roundtrip (x : List Byte) (h : 116 ≤ x.length) :
    ∃ m, DecodeMessage x = some (some m, none) ∧ encodeMessage m = x ∧
      m.MessageBody.length = x.length - 116 :=
  ⟨_, DecodeMessage_eq_raw x h, encode_DecodeMessage x h, by simp⟩

theorem DecodeMessage_roundtrip_witness :
    (116 ≤ (List.replicate 116 (0xFF : Byte)).length ∧
      ∃ m, DecodeMessage (List.replicate 116 0xFF) = some (some m, none) ∧
        encodeMessage m = List.replicate 116 0xFF ∧
        m.MessageBody.length = (List.replicate 116 (0xFF : Byte)).length - 116) ∧
    (116 ≤ (List.replicate 115 (1 : Byte) ++ [100, 7, 7]).length ∧
      ∃ m, DecodeMessage (List.replicate 115 (1 : Byte) ++ [100, 7, 7]) = some (some m, none) ∧
        encodeMessage m = List.replicate 115 (1 : Byte) ++ [100, 7, 7] ∧
        m.MessageBody.length = (List.replicate 115 (1 : Byte) ++ [100, 7, 7]).length - 116) :=
  ⟨⟨by simp, DecodeMessage_roundtrip _ (by simp)⟩, ⟨by simp, DecodeMessage_roundtrip _ (by simp)⟩⟩


/-! ## Varints -/

theorem or_one_eq (v : Nat) : v ||| 1 = 2 * (v / 2) + 1 := by
  have key : ∀ a : Nat, 2 * a ||| 1 = 2 * a + 1 := fun a => by
    have := @Nat.mul_add_lt_is_or 1 1 (by decide) a
    simpa using this.symm
  rcases Nat.mod_two_eq_zero_or_one v with h | h
  · have hv : v = 2 * (v / 2) := by omega
    rw [← key, ← hv]
  · have hv : v = 2 * (v / 2) + 1 := by omega
    rw [← key] at hv
    conv_lhs => rw [hv]
    rw [Nat.lor_assoc, Nat.or_self, key]

theorem countP_range_eq_min_size (x n : Nat) :
    (List.range n).countP (fun k => decide (2 ^ k ≤ x)) = min n (Nat.size x) := by
  induction n with
  | zero => simp
  | succ n ih =>
    rw [List.range_succ, List.countP_append, ih]
    by_cases h : 2 ^ n ≤ x
    · have := Nat.lt_size.mpr h
      simp [List.countP_cons, h]
      omega
    · have : ¬ n < Nat.size x := fun hh => h (Nat.lt_size.mp hh)
      simp [List.countP_cons, h]
      omega

theorem bitsLen64_eq_size (x : Nat) (h : x < 2 ^ 64) : bitsLen64 x = Nat.size x := by
  unfold bitsLen64
  rw [countP_range_eq_min_size]
  have := Nat.size_le.mpr h
  omega

theorem size_or_one (v : Nat) (h : v ≠ 0) : Nat.size (v ||| 1) = Nat.size v := by
  have key : ∀ n, v ||| 1 < 2 ^ n ↔ v < 2 ^ n := by
    intro n
    rw [or_one_eq]
    cases n with
    | zero => simp; omega
    | succ n => rw [pow_succ]; omega
  apply le_antisymm
  · exact Nat.size_le.mpr ((key _).mpr (Nat.lt_size_self v))
  · exact Nat.size_le.mpr ((key _).mp (Nat.lt_size_self _))

theorem size_of_ge_128 (v : Nat) (h : 128 ≤ v) : Nat.size v = Nat.size (v / 128) + 7 := by
  apply le_antisymm
  · rw [Nat.size_le, pow_add]
    have := Nat.lt_size_self (v / 128)
    have h2 : (2 : Nat) ^ 7 = 128 := by norm_num
    rw [h2]
    exact (Nat.div_lt_iff_lt_mul (by decide)).mp this
  · have h1 : v < 2 ^ Nat.size v := Nat.lt_size_self v
    have h7 : 7 < Nat.size v := Nat.lt_size.mpr (by norm_num; omega)
    obtain ⟨k, hk⟩ : ∃ k, Nat.size v = k + 7 := ⟨Nat.size v - 7, by omega⟩
    rw [hk] at h1 ⊢
    have : Nat.size (v / 128) ≤ k := by
      rw [Nat.size_le]
      rw [pow_add] at h1
      have h2 : (2 : Nat) ^ 7 = 128 := by norm_num
      rw [h2] at h1
      exact (Nat.div_lt_iff_lt_mul (by decide)).mpr h1
    omega

theorem sov_of_lt_128 (v : Nat) (h : v < 128) : sovIbcForwardMetadata v = 1 := by
  unfold sovIbcForwardMetadata
  have hb : v ||| 1 < 2 ^ 7 := Nat.or_lt_two_pow (by norm_num; omega) (by norm_num)
  rw [bitsLen64_eq_size _ (lt_trans hb (by norm_num))]
  have h1 : Nat.size (v ||| 1) ≤ 7 := Nat.size_le.mpr hb
  have h2 : 0 < Nat.size (v ||| 1) := Nat.size_pos.mpr (by rw [or_one_eq]; omega)
  omega

theorem sov_of_ge_128 (v : Nat) (h : 128 ≤ v) (hv : v < 2 ^ 64) :
    sovIbcForwardMetadata v = sovIbcForwardMetadata (v / 128) + 1 := by
  unfold sovIbcForwardMetadata
  have hd : v / 128 < 2 ^ 64 := lt_of_le_of_lt (Nat.div_le_self _ _) hv
  rw [bitsLen64_eq_size _ (Nat.or_lt_two_pow hv (by norm_num)),
    bitsLen64_eq_size _ (Nat.or_lt_two_pow hd (by norm_num)),
    size_or_one v (by omega), size_or_one (v / 128) (by omega), size_of_ge_128 v h]
  omega

theorem and_127_or_128 (v : Nat) : v &&& 0x7f ||| 0x80 = v % 128 + 128 := by
  have h1 : v &&& 0x7f = v % 128 := Nat.and_pow_two_sub_one_eq_mod v 7
  have h2 := or_shiftLeft_eq 1 (v % 128) 7 (by norm_num; omega)
  rw [h1]
  simpa [Nat.add_comm] using h2

theorem varintBytesAux_of_lt (fuel v : Nat) (h : v < 128) :
    varintBytesAux (fuel + 1) v = [uint8 v] := by
  have : ¬ v ≥ 1 <<< 7 := by simp; omega
  rw [varintBytesAux, if_neg this]

theorem varintBytesAux_of_ge (fuel v : Nat) (h : 128 ≤ v) :
    varintBytesAux (fuel + 1) v = uint8 (v % 128 + 128) :: varintBytesAux fuel (v / 128) := by
  have : v ≥ 1 <<< 7 := by simpa using h
  rw [varintBytesAux, if_pos this, and_127_or_128, Nat.shiftRight_eq_div_pow]

theorem length_varintBytesAux (fuel v : Nat) (h : v < 128 ^ (fuel + 1)) (hv : v < 2 ^ 64) :
    (varintBytesAux (fuel + 1) v).length = sovIbcForwardMetadata v := by
  induction fuel generalizing v with
  | zero =>
    have h' : v < 128 := by simpa using h
    rw [varintBytesAux_of_lt _ _ h', sov_of_lt_128 v h']
    rfl
  | succ n ih =>
    by_cases hc : 128 ≤ v
    · rw [varintBytesAux_of_ge _ _ hc, List.length_cons]
      have hd : v / 128 < 128 ^ (n + 1) := by
        rw [Nat.div_lt_iff_lt_mul (by norm_num)]
        rw [pow_succ] at h
        exact h
      have hd2 : v / 128 < 2 ^ 64 := lt_of_le_of_lt (Nat.div_le_self _ _) hv
      rw [ih _ hd hd2, sov_of_ge_128 v hc hv]
    · have h' : v < 128 := by omega
      rw [varintBytesAux_of_lt _ _ h', sov_of_lt_128 v h']
      rfl

theorem length_varintBytes (v : Nat) (hv : v < 2 ^ 64) :
    (varintBytes v).length = sovIbcForwardMetadata v :=
  length_varintBytesAux 9 v (lt_of_lt_of_le hv (by norm_num)) hv

theorem sov_pos (v : Nat) (hv : v < 2 ^ 64) : 1 ≤ sovIbcForwardMetadata v := by
  rw [← length_varintBytes v hv]
  unfold varintBytes varintBytesAux
  split <;> simp


/-! ## The encoder writes `wireBytes` -/

theorem uint64_lt (x : Nat) : uint64 x < 2 ^ 64 := Nat.mod_lt _ (by norm_num)

theorem uint64_of_lt (x : Nat) (h : x < 2 ^ 64) : uint64 x = x := Nat.mod_eq_of_lt h

theorem setIndex_append (junk rest : List Byte) (c b : Byte) :
    setIndex (junk ++ c :: rest) (junk.length : Int) b = some (junk ++ b :: rest) := by
  unfold setIndex
  have h : (0 : Int) ≤ (junk.length : Int) ∧
      (junk.length : Int) < ((junk ++ c :: rest).length : Int) := by
    refine ⟨Int.natCast_nonneg _, ?_⟩
    simp only [List.length_append, List.length_cons]
    omega
  rw [if_pos h, Int.toNat_natCast]
  simp

theorem encodeVarintLoop_spec (fuel v : Nat) (junk mid rest : List Byte)
    (h : v < 128 ^ (fuel + 1)) (hm : mid.length = (varintBytesAux (fuel + 1) v).length) :
    encodeVarintLoop (fuel + 1) (junk ++ mid ++ rest) (junk.length : Int) v =
      some (junk ++ varintBytesAux (fuel + 1) v ++ rest) := by
  induction fuel generalizing v junk mid with
  | zero =>
    have h' : v < 128 := by simpa using h
    have hc : ¬ v ≥ 1 <<< 7 := by simp; omega
    rw [varintBytesAux_of_lt _ _ h'] at hm ⊢
    match mid, hm with
    | [c], _ =>
      rw [encodeVarintLoop, if_neg hc, List.append_assoc, List.singleton_append, setIndex_append]
      simp
  | succ n ih =>
    by_cases hc : 128 ≤ v
    · have hc' : v ≥ 1 <<< 7 := by simpa using hc
      rw [varintBytesAux_of_ge _ _ hc] at hm ⊢
      match mid, hm with
      | c :: mid', hm' =>
        have hd : v / 128 < 128 ^ (n + 1) := by
          rw [Nat.div_lt_iff_lt_mul (by norm_num)]
          rw [pow_succ] at h
          exact h
        rw [encodeVarintLoop, if_pos hc', List.append_assoc, List.cons_append, setIndex_append,
          Option.some_bind, and_127_or_128, Nat.shiftRight_eq_div_pow]
        have hj : ((junk.length : Int) + 1) = ((junk ++ [uint8 (v % 128 + 128)]).length : Int) := by
          simp
        have hl : junk ++ uint8 (v % 128 + 128) :: (mid' ++ rest) =
            (junk ++ [uint8 (v % 128 + 128)]) ++ mid' ++ rest := by simp
        rw [hj, hl, ih (v / 128) _ mid' hd (by simpa using hm')]
        simp
    · have h' : v < 128 := by omega
      have hc' : ¬ v ≥ 1 <<< 7 := by simp; omega
      rw [varintBytesAux_of_lt _ _ h'] at hm ⊢
      match mid, hm with
      | [c], _ =>
        rw [encodeVarintLoop, if_neg hc', List.append_assoc, List.singleton_append, setIndex_append]
        simp

theorem encodeVarint_spec (junk written : List Byte) (v : Nat) (hv : v < 2 ^ 64)
    (hs : sovIbcForwardMetadata v ≤ junk.length) :
    encodeVarintIbcForwardMetadata (junk ++ written) (junk.length : Int) v =
      some (junk.take (junk.length - sovIbcForwardMetadata v) ++ (varintBytes v ++ written),
        ((junk.length - sovIbcForwardMetadata v : Nat) : Int)) := by
  unfold encodeVarintIbcForwardMetadata
  have hlen : (varintBytesAux (9 + 1) v).length = sovIbcForwardMetadata v :=
    length_varintBytes v hv
  have hsplit : junk ++ written =
      junk.take (junk.length - sovIbcForwardMetadata v) ++
        junk.drop (junk.length - sovIbcForwardMetadata v) ++ written := by
    rw [List.take_append_drop]
  have hoff : (junk.length : Int) - (sovIbcForwardMetadata v : Int) =
      ((junk.take (junk.length - sovIbcForwardMetadata v)).length : Int) := by
    rw [List.length_take]
    omega
  simp only []
  rw [hoff]
  conv_lhs => rw [hsplit]
  rw [encodeVarintLoop_spec 9 v _ _ _ (lt_of_lt_of_le hv (by norm_num))
    (by rw [List.length_drop]; omega)]
  simp [varintBytes]

theorem copyAt_spec (junk written src : List Byte) (hs : src.length ≤ junk.length) :
    copyAt (junk ++ written) (((junk.length - src.length : Nat) : Int)) src =
      some (junk.take (junk.length - src.length) ++ (src ++ written)) := by
  unfold copyAt
  have h : (0 : Int) ≤ ((junk.length - src.length : Nat) : Int) ∧
      ((junk.length - src.length : Nat) : Int) ≤ ((junk ++ written).length : Int) := by
    refine ⟨Int.natCast_nonneg _, ?_⟩
    simp only [List.length_append]
    omega
  rw [if_pos h, Int.toNat_natCast]
  simp only [Option.some.injEq, List.length_append]
  have h1 : List.take (junk.length - src.length) (junk ++ written) =
      List.take (junk.length - src.length) junk :=
    List.take_append_of_le_length (by omega)
  have h2 : List.take (junk.length + written.length - (junk.length - src.length)) src = src :=
    List.take_of_length_le (by omega)
  have h3 : junk.length - src.length +
      min (junk.length + written.length - (junk.length - src.length)) src.length = junk.length := by
    omega
  rw [h1, h2, h3, List.drop_left, List.append_assoc]


theorem setIndex_last (junk rest : List Byte) (b : Byte) (h : 1 ≤ junk.length) :
    setIndex (junk ++ rest) ((junk.length : Int) - 1) b =
      some (junk.take (junk.length - 1) ++ b :: rest) := by
  rcases List.eq_nil_or_concat junk with hnil | ⟨J, c, hJ⟩
  · subst hnil
    simp at h
  · rw [List.concat_eq_append] at hJ
    subst hJ
    have e1 : ((J ++ [c]).length : Int) - 1 = (J.length : Int) := by simp
    have e2 : J ++ [c] ++ rest = J ++ c :: rest := by simp
    rw [e1, e2, setIndex_append]
    simp

theorem length_uint64FieldBytes (tag : Byte) (x : Nat) :
    (uint64FieldBytes tag x).length =
      if x ≠ 0 then 1 + sovIbcForwardMetadata (uint64 x) else 0 := by
  unfold uint64FieldBytes
  split
  · rw [List.length_cons, length_varintBytes _ (uint64_lt x)]
    omega
  · rfl

theorem length_stringFieldBytes (tag : Byte) (x : List Byte) :
    (stringFieldBytes tag x).length =
      if x.length > 0 then 1 + x.length + sovIbcForwardMetadata (uint64 x.length) else 0 := by
  unfold stringFieldBytes
  split
  · rw [List.length_cons, List.length_append, length_varintBytes _ (uint64_lt _)]
    omega
  · rfl

theorem marshalUint64Field_spec (tag : Byte) (x : Nat) (junk written : List Byte)
    (h : (uint64FieldBytes tag x).length ≤ junk.length) :
    marshalUint64Field tag x (junk ++ written, (junk.length : Int)) =
      some (junk.take (junk.length - (uint64FieldBytes tag x).length) ++
          (uint64FieldBytes tag x ++ written),
        ((junk.length - (uint64FieldBytes tag x).length : Nat) : Int)) := by
  rw [length_uint64FieldBytes] at h ⊢
  unfold marshalUint64Field uint64FieldBytes
  by_cases hx : x ≠ 0
  · rw [if_pos hx] at h
    simp only [if_pos hx]
    have hpos := sov_pos _ (uint64_lt x)
    rw [encodeVarint_spec junk written _ (uint64_lt x) (by omega), Option.some_bind]
    simp only []
    have hl : (List.take (junk.length - sovIbcForwardMetadata (uint64 x)) junk).length =
        junk.length - sovIbcForwardMetadata (uint64 x) := by
      rw [List.length_take]; omega
    have hcast : (((junk.length - sovIbcForwardMetadata (uint64 x) : Nat) : Int) - 1) =
        ((junk.length - (1 + sovIbcForwardMetadata (uint64 x)) : Nat) : Int) := by omega
    have hset := setIndex_last (List.take (junk.length - sovIbcForwardMetadata (uint64 x)) junk)
      (varintBytes (uint64 x) ++ written) tag (by omega)
    rw [hl] at hset
    rw [hset, Option.map_some', List.take_take, hcast]
    congr 3
    · congr 1
      omega
  · rw [if_neg hx] at h
    simp only [if_neg hx]
    simp

theorem marshalStringField_spec (tag : Byte) (x junk written : List Byte)
    (h : (stringFieldBytes tag x).length ≤ junk.length) :
    marshalStringField tag x (junk ++ written, (junk.length : Int)) =
      some (junk.take (junk.length - (stringFieldBytes tag x).length) ++
          (stringFieldBytes tag x ++ written),
        ((junk.length - (stringFieldBytes tag x).length : Nat) : Int)) := by
  rw [length_stringFieldBytes] at h ⊢
  unfold marshalStringField stringFieldBytes
  by_cases hx : x.length > 0
  · rw [if_pos hx] at h
    simp only [if_pos hx]
    have hpos := sov_pos _ (uint64_lt x.length)
    have hc0 : (junk.length : Int) - (x.length : Int) = ((junk.length - x.length : Nat) : Int) := by
      omega
    rw [hc0, copyAt_spec junk written x (by omega), Option.some_bind]
    have hl0 : (List.take (junk.length - x.length) junk).length = junk.length - x.length := by
      rw [List.length_take]; omega
    have henc := encodeVarint_spec (List.take (junk.length - x.length) junk) (x ++ written)
      (uint64 x.length) (uint64_lt _) (by rw [hl0]; omega)
    rw [hl0] at henc
    rw [henc, Option.some_bind]
    simp only []
    have hl : (List.take (junk.length - x.length - sovIbcForwardMetadata (uint64 x.length))
        (List.take (junk.length - x.length) junk)).length =
        junk.length - x.length - sovIbcForwardMetadata (uint64 x.length) := by
      rw [List.length_take, List.length_take]; omega
    have hcast : (((junk.length - x.length - sovIbcForwardMetadata (uint64 x.length) : Nat) : Int)
        - 1) = ((junk.length - (1 + x.length + sovIbcForwardMetadata (uint64 x.length)) : Nat) : Int)
        := by omega
    have hset := setIndex_last
      (List.take (junk.length - x.length - sovIbcForwardMetadata (uint64 x.length))
        (List.take (junk.length - x.length) junk))
      (varintBytes (uint64 x.length) ++ (x ++ written)) tag (by rw [hl]; omega)
    rw [hl] at hset
    rw [hset, Option.map_some', List.take_take, List.take_take, hcast]
    congr 3
    · congr 1
      omega
    · simp
  · rw [if_neg hx] at h
    simp only [if_neg hx]
    simp


theorem marshalUint64Field_take (tag : Byte) (x : Nat) (buf written : List Byte) (k : Nat)
    (hk : k ≤ buf.length) (h : (uint64FieldBytes tag x).length ≤ k) :
    marshalUint64Field tag x (buf.take k ++ written, (k : Int)) =
      some (buf.take (k - (uint64FieldBytes tag x).length) ++ (uint64FieldBytes tag x ++ written),
        ((k - (uint64FieldBytes tag x).length : Nat) : Int)) := by
  have hl : (buf.take k).length = k := by rw [List.length_take]; omega
  have := marshalUint64Field_spec tag x (buf.take k) written (by rw [hl]; exact h)
  rw [hl, List.take_take] at this
  rw [this]
  congr 4
  omega

theorem marshalStringField_take (tag : Byte) (x buf written : List Byte) (k : Nat)
    (hk : k ≤ buf.length) (h : (stringFieldBytes tag x).length ≤ k) :
    marshalStringField tag x (buf.take k ++ written, (k : Int)) =
      some (buf.take (k - (stringFieldBytes tag x).length) ++ (stringFieldBytes tag x ++ written),
        ((k - (stringFieldBytes tag x).length : Nat) : Int)) := by
  have hl : (buf.take k).length = k := by rw [List.length_take]; omega
  have := marshalStringField_spec tag x (buf.take k) written (by rw [hl]; exact h)
  rw [hl, List.take_take] at this
  rw [this]
  congr 4
  omega

theorem length_wireBytes (m : IBCForwardMetadata) : m.wireBytes.length = m.Size := by
  unfold IBCForwardMetadata.wireBytes IBCForwardMetadata.Size
  simp only [List.length_append, length_uint64FieldBytes, length_stringFieldBytes]
  split_ifs <;> omega

/-- What `MarshalToSizedBuffer` leaves in a buffer that is long enough: the
last `Size()` bytes are `wireBytes`, the bytes before them are untouched, and
the returned count is `Size()`. -/
theorem MarshalToSizedBuffer_eq (m : IBCForwardMetadata) (buf : List Byte)
    (h : m.wireBytes.length ≤ buf.length) :
    m.MarshalToSizedBuffer buf =
      some (buf.take (buf.length - m.wireBytes.length) ++ m.wireBytes,
        (m.wireBytes.length : Int), none) := by
  have hw : m.wireBytes.length = (uint64FieldBytes 0x8 m.Nonce).length +
      ((stringFieldBytes 0x12 m.Port).length + ((stringFieldBytes 0x1a m.Channel).length +
        ((stringFieldBytes 0x22 m.DestinationReceiver).length +
          ((stringFieldBytes 0x2a m.Memo).length +
            (uint64FieldBytes 0x30 m.TimeoutInNanoseconds).length)))) := by
    simp [IBCForwardMetadata.wireBytes]
  rw [hw] at h ⊢
  unfold IBCForwardMetadata.MarshalToSizedBuffer
  have h0 : ((buf, (buf.length : Int)) : List Byte × Int) =
      (buf.take buf.length ++ [], (buf.length : Int)) := by simp
  simp only []
  rw [h0, marshalUint64Field_take _ _ _ _ _ le_rfl (by omega), Option.some_bind,
    marshalStringField_take _ _ _ _ _ (by omega) (by omega), Option.some_bind,
    marshalStringField_take _ _ _ _ _ (by omega) (by omega), Option.some_bind,
    marshalStringField_take _ _ _ _ _ (by omega) (by omega), Option.some_bind,
    marshalStringField_take _ _ _ _ _ (by omega) (by omega), Option.some_bind,
    marshalUint64Field_take _ _ _ _ _ (by omega) (by omega), Option.some_bind]
  simp only [Option.some.injEq, Prod.mk.injEq, and_true, List.append_nil]
  refine ⟨?_, by omega⟩
  unfold IBCForwardMetadata.wireBytes
  congr 2
  omega

/-- `Marshal` returns `wireBytes` and no error. -/
theorem Marshal_eq (m : IBCForwardMetadata) : m.Marshal = some (some m.wireBytes, none) := by
  unfold IBCForwardMetadata.Marshal
  simp only []
  have hs : slice (List.replicate m.Size (0 : Byte)) 0 m.Size = some (List.replicate m.Size 0) := by
    rw [slice_eq _ _ _ (by omega) (by simp)]
    simp
  rw [hs, Option.some_bind, MarshalToSizedBuffer_eq m _ (by simp [length_wireBytes]),
    Option.some_bind]
  simp [length_wireBytes]


/-! ## The decoder reads back what the encoder writes -/

theorem wrapInt64_of_nonneg_lt (x : Int) (h0 : 0 ≤ x) (h1 : x < 2 ^ 63) : wrapInt64 x = x := by
  unfold wrapInt64
  omega

theorem uint8_val_of_lt (x : Nat) (h : x < 256) : (uint8 x).val = x := by
  simp only [uint8]
  omega

theorem varint_step_value (acc b shift : Nat) (hacc : acc < 2 ^ shift)
    (hb : b % 128 * 2 ^ shift < 2 ^ 64) :
    acc ||| uint64 ((b &&& 0x7F) <<< shift) = acc + b % 128 * 2 ^ shift := by
  have h1 : b &&& 0x7F = b % 128 := Nat.and_pow_two_sub_one_eq_mod b 7
  have h2 : uint64 ((b % 128) <<< shift) = (b % 128) <<< shift := by
    rw [Nat.shiftLeft_eq]
    exact uint64_of_lt _ hb
  rw [h1, h2, or_shiftLeft_eq _ _ _ hacc, Nat.add_comm]

theorem getElem?_append_cons (pre rest : List Byte) (b : Byte) :
    (pre ++ b :: rest)[pre.length]? = some b := by
  rw [List.getElem?_append_right (le_refl _)]
  simp

theorem decodeVarintLoop_last (fuel : Nat) (pre rest : List Byte) (b : Byte) (shift acc : Nat)
    (hb : b.val < 128) (hs : shift < 64) (hacc : acc < 2 ^ shift)
    (hv : b.val * 2 ^ shift < 2 ^ 64) :
    decodeVarintLoop (fuel + 1) (pre ++ b :: rest) pre.length shift acc =
      some ⟨acc + b.val * 2 ^ shift, pre.length + 1, none⟩ := by
  have hmod : b.val % 128 = b.val := Nat.mod_eq_of_lt hb
  rw [decodeVarintLoop, if_neg (by omega), if_neg (by simp), getElem?_append_cons,
    Option.some_bind]
  simp only []
  rw [varint_step_value _ _ _ hacc (by rw [hmod]; exact hv), hmod, if_pos (by simpa using hb)]

theorem decodeVarintLoop_more (fuel : Nat) (pre rest : List Byte) (b : Byte) (shift acc : Nat)
    (hb : 128 ≤ b.val) (hs : shift < 64) (hacc : acc < 2 ^ shift)
    (hv : b.val % 128 * 2 ^ shift < 2 ^ 64) :
    decodeVarintLoop (fuel + 1) (pre ++ b :: rest) pre.length shift acc =
      decodeVarintLoop fuel (pre ++ b :: rest) (pre.length + 1) (shift + 7)
        (acc + b.val % 128 * 2 ^ shift) := by
  rw [decodeVarintLoop, if_neg (by omega), if_neg (by simp), getElem?_append_cons,
    Option.some_bind]
  simp only []
  rw [varint_step_value _ _ _ hacc hv, if_neg (by simp; omega)]

theorem decodeVarintLoop_varintBytesAux (k : Nat) :
    ∀ (fuel v shift acc : Nat) (pre post : List Byte), v < 128 ^ (k + 1) → k + 1 ≤ fuel →
      shift < 64 → acc < 2 ^ shift → v * 2 ^ shift < 2 ^ 64 →
      decodeVarintLoop fuel (pre ++ (varintBytesAux (k + 1) v ++ post)) pre.length shift acc =
        some ⟨acc + v * 2 ^ shift, pre.length + (varintBytesAux (k + 1) v).length, none⟩ := by
  induction k with
  | zero =>
    intro fuel v shift acc pre post hv hfuel hs hacc hvs
    have h' : v < 128 := by simpa using hv
    obtain ⟨f, rfl⟩ : ∃ f, fuel = f + 1 := ⟨fuel - 1, by omega⟩
    rw [varintBytesAux_of_lt _ _ h', List.singleton_append,
      decodeVarintLoop_last f pre post (uint8 v) shift acc
        (by rw [uint8_val_of_lt _ (by omega)]; exact h') hs hacc
        (by rw [uint8_val_of_lt _ (by omega)]; exact hvs),
      uint8_val_of_lt _ (by omega)]
    rfl
  | succ n ih =>
    intro fuel v shift acc pre post hv hfuel hs hacc hvs
    obtain ⟨f, rfl⟩ : ∃ f, fuel = f + 1 := ⟨fuel - 1, by omega⟩
    by_cases hc : 128 ≤ v
    · have hbv : (uint8 (v % 128 + 128)).val = v % 128 + 128 := uint8_val_of_lt _ (by omega)
      have hle : v % 128 * 2 ^ shift ≤ v * 2 ^ shift :=
        Nat.mul_le_mul_right _ (Nat.mod_le _ _)
      have hq : v / 128 * 2 ^ (shift + 7) ≤ v * 2 ^ shift := by
        rw [pow_add, Nat.mul_comm (2 ^ shift), ← Nat.mul_assoc]
        exact Nat.mul_le_mul_right _ (Nat.div_mul_le_self _ _)
      have hs7 : shift + 7 < 64 := by
        by_contra hcon
        have h57 : 57 ≤ shift := by omega
        have : 2 ^ 57 ≤ 2 ^ shift := Nat.pow_le_pow_right (by norm_num) h57
        have : 128 * 2 ^ 57 ≤ v * 2 ^ shift := Nat.mul_le_mul hc this
        norm_num at this hvs
        omega
      have hd : v / 128 < 128 ^ (n + 1) := by
        rw [Nat.div_lt_iff_lt_mul (by norm_num)]
        rw [pow_succ] at hv
        exact hv
      have hacc' : acc + v % 128 * 2 ^ shift < 2 ^ (shift + 7) := by
        rw [pow_add]
        have : v % 128 < 128 := Nat.mod_lt _ (by norm_num)
        have : (v % 128 + 1) * 2 ^ shift ≤ 128 * 2 ^ shift := Nat.mul_le_mul_right _ (by omega)
        rw [Nat.add_mul] at this
        norm_num
        omega
      rw [varintBytesAux_of_ge _ _ hc, List.cons_append,
        decodeVarintLoop_more f pre _ (uint8 (v % 128 + 128)) shift acc (by omega) hs hacc
          (by rw [hbv]; norm_num; omega)]
      have hpre : pre.length + 1 = (pre ++ [uint8 (v % 128 + 128)]).length := by simp
      have hlist : pre ++ uint8 (v % 128 + 128) :: (varintBytesAux (n + 1) (v / 128) ++ post) =
          (pre ++ [uint8 (v % 128 + 128)]) ++ (varintBytesAux (n + 1) (v / 128) ++ post) := by
        simp
      rw [hbv, hpre, hlist, ih f (v / 128) (shift + 7) _ _ post hd (by omega) hs7
        (by simpa using hacc') (lt_of_le_of_lt hq hvs)]
      simp only [Option.some.injEq, VarintResult.mk.injEq, and_true]
      refine ⟨?_, by simp; omega⟩
      have hmod : (v % 128 + 128) % 128 = v % 128 := by omega
      rw [hmod, pow_add]
      have hv' := Nat.div_add_mod v 128
      generalize v / 128 = q at *
      generalize v % 128 = r at *
      rw [← hv']
      ring
    · have h' : v < 128 := by omega
      rw [varintBytesAux_of_lt _ _ h', List.singleton_append,
        decodeVarintLoop_last f pre post (uint8 v) shift acc
          (by rw [uint8_val_of_lt _ (by omega)]; exact h') hs hacc
          (by rw [uint8_val_of_lt _ (by omega)]; exact hvs),
        uint8_val_of_lt _ (by omega)]
      rfl

theorem decodeVarint_varintBytes (v : Nat) (pre post : List Byte) (hv : v < 2 ^ 64) :
    decodeVarint (pre ++ (varintBytes v ++ post)) pre.length =
      some ⟨v, pre.length + sovIbcForwardMetadata v, none⟩ := by
  unfold decodeVarint varintBytes
  rw [decodeVarintLoop_varintBytesAux 9 11 v 0 0 pre post (lt_of_lt_of_le hv (by norm_num))
    (by norm_num) (by norm_num) (by norm_num) (by simpa using hv)]
  have := length_varintBytes v hv
  unfold varintBytes at this
  simp [this]

theorem decodeVarint_single (b : Byte) (pre rest : List Byte) (hb : b.val < 128) :
    decodeVarint (pre ++ b :: rest) pre.length = some ⟨b.val, pre.length + 1, none⟩ := by
  unfold decodeVarint
  rw [decodeVarintLoop_last 10 pre rest b 0 0 hb (by norm_num) (by norm_num) (by simp; omega)]
  simp


theorem unmarshalUint64Field_varintBytes (field : String)
    (set : IBCForwardMetadata → Nat → IBCForwardMetadata) (m : IBCForwardMetadata) (v : Nat)
    (pre post : List Byte) (hv : v < 2 ^ 64) :
    unmarshalUint64Field field set m 0 (pre ++ (varintBytes v ++ post)) pre.length =
      some ⟨set m v, pre.length + sovIbcForwardMetadata v, none⟩ := by
  unfold unmarshalUint64Field
  rw [if_neg (by simp), decodeVarint_varintBytes v pre post hv]
  rfl

theorem unmarshalStringField_varintBytes (field : String)
    (set : IBCForwardMetadata → List Byte → IBCForwardMetadata) (m : IBCForwardMetadata)
    (s pre post : List Byte)
    (hd : (pre ++ (varintBytes (uint64 s.length) ++ (s ++ post))).length < 2 ^ 63) :
    unmarshalStringField field set m 2 (pre ++ (varintBytes (uint64 s.length) ++ (s ++ post)))
        pre.length =
      some ⟨set m s, pre.length + sovIbcForwardMetadata (uint64 s.length) + s.length, none⟩ := by
  have hlen := length_varintBytes (uint64 s.length) (uint64_lt _)
  have hs : s.length < 2 ^ 63 := by
    simp only [List.length_append] at hd
    omega
  have hu : uint64 s.length = s.length := uint64_of_lt _ (by omega)
  unfold unmarshalStringField
  simp only []
  rw [if_neg (by simp), decodeVarint_varintBytes _ pre _ (uint64_lt _), Option.some_bind]
  simp only []
  have hw1 : wrapInt64 ((uint64 s.length : Nat) : Int) = (s.length : Int) := by
    rw [hu]
    exact wrapInt64_of_nonneg_lt _ (Int.natCast_nonneg _) (by omega)
  have hw2 : wrapInt64 (((pre.length + sovIbcForwardMetadata (uint64 s.length) : Nat) : Int) +
      (s.length : Int)) =
      ((pre.length + sovIbcForwardMetadata (uint64 s.length) + s.length : Nat) : Int) := by
    simp only [List.length_append] at hd
    rw [wrapInt64_of_nonneg_lt _ (by omega) (by omega)]
    omega
  rw [hw1, if_neg (by omega), hw2, if_neg (by omega),
    if_neg (by simp only [List.length_append]; omega), Int.toNat_natCast,
    slice_eq _ _ _ (by omega) (by simp only [List.length_append]; omega)]
  have e1 : pre ++ (varintBytes (uint64 s.length) ++ (s ++ post)) =
      (pre ++ varintBytes (uint64 s.length)) ++ (s ++ post) := by simp
  have e2 : pre.length + sovIbcForwardMetadata (uint64 s.length) + s.length -
      (pre.length + sovIbcForwardMetadata (uint64 s.length)) = s.length := by omega
  rw [e2, e1, List.drop_left' (by simp only [List.length_append]; omega), List.take_left' rfl]
  rfl

/-- The dispatch of `unmarshalField` on a one-byte tag. -/
theorem unmarshalField_tag (m : IBCForwardMetadata) (pre rest : List Byte) (tag : Byte)
    (h : tag.val < 128) :
    m.unmarshalField (pre ++ tag :: rest) pre.length =
      (let dAtA := pre ++ tag :: rest
       let wire := tag.val
       let iNdEx := pre.length + 1
       let fieldNum := wrapInt32 (wire >>> 3)
       let wireType := wire &&& 0x7
       if wireType = 4 then some ⟨m, iNdEx, some (.ErrorfEndGroup "IBCForwardMetadata")⟩
       else if fieldNum ≤ 0 then
         some ⟨m, iNdEx, some (.ErrorfIllegalTag "IBCForwardMetadata" fieldNum wire)⟩
       else if fieldNum = 1 then
         unmarshalUint64Field "Nonce" (fun m v => { m with Nonce := v }) m wireType dAtA iNdEx
       else if fieldNum = 2 then
         unmarshalStringField "Port" (fun m s => { m with Port := s }) m wireType dAtA iNdEx
       else if fieldNum = 3 then
         unmarshalStringField "Channel" (fun m s => { m with Channel := s }) m wireType dAtA iNdEx
       else if fieldNum = 4 then
         unmarshalStringField "DestinationReceiver"
           (fun m s => { m with DestinationReceiver := s }) m wireType dAtA iNdEx
       else if fieldNum = 5 then
         unmarshalStringField "Memo" (fun m s => { m with Memo := s }) m wireType dAtA iNdEx
       else if fieldNum = 6 then
         unmarshalUint64Field "TimeoutInNanoseconds"
           (fun m v => { m with TimeoutInNanoseconds := v }) m wireType dAtA iNdEx
       else unmarshalUnknownField m dAtA pre.length) := by
  unfold IBCForwardMetadata.unmarshalField
  rw [decodeVarint_single tag pre rest h]
  rfl

theorem unmarshalField_Nonce (m : IBCForwardMetadata) (pre post : List Byte) (v : Nat)
    (hv : v < 2 ^ 64) :
    m.unmarshalField (pre ++ 0x8 :: (varintBytes v ++ post)) pre.length =
      some ⟨{ m with Nonce := v }, pre.length + 1 + sovIbcForwardMetadata v, none⟩ := by
  rw [unmarshalField_tag m pre _ 0x8 (by decide)]
  have e : pre ++ (0x8 : Byte) :: (varintBytes v ++ post) =
      (pre ++ [0x8]) ++ (varintBytes v ++ post) := by simp
  have hl : pre.length + 1 = (pre ++ [(0x8 : Byte)]).length := by simp
  simp only []
  rw [if_neg (by decide), if_neg (by decide), if_pos (by decide), e, hl]
  exact unmarshalUint64Field_varintBytes _ _ m v _ post hv


theorem unmarshalField_TimeoutInNanoseconds (m : IBCForwardMetadata) (pre post : List Byte)
    (v : Nat) (hv : v < 2 ^ 64) :
    m.unmarshalField (pre ++ 0x30 :: (varintBytes v ++ post)) pre.length =
      some ⟨{ m with TimeoutInNanoseconds := v }, pre.length + 1 + sovIbcForwardMetadata v,
        none⟩ := by
  rw [unmarshalField_tag m pre _ 0x30 (by decide)]
  have e : pre ++ (0x30 : Byte) :: (varintBytes v ++ post) =
      (pre ++ [0x30]) ++ (varintBytes v ++ post) := by simp
  have hl : pre.length + 1 = (pre ++ [(0x30 : Byte)]).length := by simp
  simp only []
  rw [if_neg (by decide), if_neg (by decide), if_neg (by decide), if_neg (by decide),
    if_neg (by decide), if_neg (by decide), if_neg (by decide), if_pos (by decide), e, hl]
  exact unmarshalUint64Field_varintBytes _ _ m v _ post hv

theorem unmarshalField_Port (m : IBCForwardMetadata) (pre post s : List Byte)
    (hd : (pre ++ 0x12 :: (varintBytes (uint64 s.length) ++ (s ++ post))).length < 2 ^ 63) :
    m.unmarshalField (pre ++ 0x12 :: (varintBytes (uint64 s.length) ++ (s ++ post))) pre.length =
      some ⟨{ m with Port := s },
        pre.length + 1 + sovIbcForwardMetadata (uint64 s.length) + s.length, none⟩ := by
  rw [unmarshalField_tag m pre _ 0x12 (by decide)]
  have e : pre ++ (0x12 : Byte) :: (varintBytes (uint64 s.length) ++ (s ++ post)) =
      (pre ++ [0x12]) ++ (varintBytes (uint64 s.length) ++ (s ++ post)) := by simp
  have hl : pre.length + 1 = (pre ++ [(0x12 : Byte)]).length := by simp
  simp only []
  rw [e] at hd
  rw [if_neg (by decide), if_neg (by decide), if_neg (by decide), if_pos (by decide), e, hl]
  exact unmarshalStringField_varintBytes _ _ m s _ post hd

theorem unmarshalField_Channel (m : IBCForwardMetadata) (pre post s : List Byte)
    (hd : (pre ++ 0x1a :: (varintBytes (uint64 s.length) ++ (s ++ post))).length < 2 ^ 63) :
    m.unmarshalField (pre ++ 0x1a :: (varintBytes (uint64 s.length) ++ (s ++ post))) pre.length =
      some ⟨{ m with Channel := s },
        pre.length + 1 + sovIbcForwardMetadata (uint64 s.length) + s.length, none⟩ := by
  rw [unmarshalField_tag m pre _ 0x1a (by decide)]
  have e : pre ++ (0x1a : Byte) :: (varintBytes (uint64 s.length) ++ (s ++ post)) =
      (pre ++ [0x1a]) ++ (varintBytes (uint64 s.length) ++ (s ++ post)) := by simp
  have hl : pre.length + 1 = (pre ++ [(0x1a : Byte)]).length := by simp
  simp only []
  rw [e] at hd
  rw [if_neg (by decide), if_neg (by decide), if_neg (by decide), if_neg (by decide),
    if_pos (by decide), e, hl]
  exact unmarshalStringField_varintBytes _ _ m s _ post hd

theorem unmarshalField_DestinationReceiver (m : IBCForwardMetadata) (pre post s : List Byte)
    (hd : (pre ++ 0x22 :: (varintBytes (uint64 s.length) ++ (s ++ post))).length < 2 ^ 63) :
    m.unmarshalField (pre ++ 0x22 :: (varintBytes (uint64 s.length) ++ (s ++ post))) pre.length =
      some ⟨{ m with DestinationReceiver := s },
        pre.length + 1 + sovIbcForwardMetadata (uint64 s.length) + s.length, none⟩ := by
  rw [unmarshalField_tag m pre _ 0x22 (by decide)]
  have e : pre ++ (0x22 : Byte) :: (varintBytes (uint64 s.length) ++ (s ++ post)) =
      (pre ++ [0x22]) ++ (varintBytes (uint64 s.length) ++ (s ++ post)) := by simp
  have hl : pre.length + 1 = (pre ++ [(0x22 : Byte)]).length := by simp
  simp only []
  rw [e] at hd
  rw [if_neg (by decide), if_neg (by decide), if_neg (by decide), if_neg (by decide),
    if_neg (by decide), if_pos (by decide), e, hl]
  exact unmarshalStringField_varintBytes _ _ m s _ post hd

theorem unmarshalField_Memo (m : IBCForwardMetadata) (pre post s : List Byte)
    (hd : (pre ++ 0x2a :: (varintBytes (uint64 s.length) ++ (s ++ post))).length < 2 ^ 63) :
    m.unmarshalField (pre ++ 0x2a :: (varintBytes (uint64 s.length) ++ (s ++ post))) pre.length =
      some ⟨{ m with Memo := s },
        pre.length + 1 + sovIbcForwardMetadata (uint64 s.length) + s.length, none⟩ := by
  rw [unmarshalField_tag m pre _ 0x2a (by decide)]
  have e : pre ++ (0x2a : Byte) :: (varintBytes (uint64 s.length) ++ (s ++ post)) =
      (pre ++ [0x2a]) ++ (varintBytes (uint64 s.length) ++ (s ++ post)) := by simp
  have hl : pre.length + 1 = (pre ++ [(0x2a : Byte)]).length := by simp
  simp only []
  rw [e] at hd
  rw [if_neg (by decide), if_neg (by decide), if_neg (by decide), if_neg (by decide),
    if_neg (by decide), if_neg (by decide), if_pos (by decide), e, hl]
  exact unmarshalStringField_varintBytes _ _ m s _ post hd


theorem unmarshalLoop_step (fuel : Nat) (m m' : IBCForwardMetadata) (d : List Byte) (i j : Nat)
    (hi : i < d.length) (h : m.unmarshalField d i = some ⟨m', j, none⟩) :
    IBCForwardMetadata.unmarshalLoop (fuel + 1) m d i =
      IBCForwardMetadata.unmarshalLoop fuel m' d j := by
  rw [IBCForwardMetadata.unmarshalLoop]
  simp only [if_pos hi, h, Option.some_bind]

theorem unmarshalLoop_end (fuel : Nat) (m : IBCForwardMetadata) (d : List Byte) :
    IBCForwardMetadata.unmarshalLoop (fuel + 1) m d d.length = some (m, none) := by
  rw [IBCForwardMetadata.unmarshalLoop]
  simp

/-- A `uint64` field block in the buffer, present or omitted, is consumed by
one iteration of the decoder loop (or none). -/
theorem unmarshalLoop_uint64Field (tag : Byte) (set : IBCForwardMetadata → Nat → IBCForwardMetadata)
    (hfield : ∀ (m : IBCForwardMetadata) (pre post : List Byte) (v : Nat), v < 2 ^ 64 →
      m.unmarshalField (pre ++ tag :: (varintBytes v ++ post)) pre.length =
        some ⟨set m v, pre.length + 1 + sovIbcForwardMetadata v, none⟩)
    (m : IBCForwardMetadata) (d pre post : List Byte) (x : Nat) (r : IBCForwardMetadata × Option GoError)
    (hd : d = pre ++ (uint64FieldBytes tag x ++ post)) (hx : x < 2 ^ 64)
    (hzero : x = 0 → set m x = m)
    (hrest : ∀ fuel, post.length + 1 ≤ fuel →
      IBCForwardMetadata.unmarshalLoop fuel (set m x) d
        (pre.length + (uint64FieldBytes tag x).length) = some r) :
    ∀ fuel, (uint64FieldBytes tag x).length + post.length + 1 ≤ fuel →
      IBCForwardMetadata.unmarshalLoop fuel m d pre.length = some r := by
  intro fuel hfuel
  by_cases h0 : x = 0
  · have hb : uint64FieldBytes tag x = [] := by simp [uint64FieldBytes, h0]
    rw [hb] at hrest hfuel
    rw [hzero h0] at hrest
    simpa using hrest fuel (by simpa using hfuel)
  · have hb : uint64FieldBytes tag x = tag :: varintBytes x := by
      simp [uint64FieldBytes, h0, uint64_of_lt x hx]
    have hl : (uint64FieldBytes tag x).length = 1 + sovIbcForwardMetadata x := by
      rw [hb, List.length_cons, length_varintBytes x hx]; omega
    rw [hl] at hrest hfuel
    obtain ⟨f, rfl⟩ : ∃ f, fuel = f + 1 := ⟨fuel - 1, by omega⟩
    have hd' : d = pre ++ tag :: (varintBytes x ++ post) := by rw [hd, hb]; simp
    have hstep := hfield m pre post x hx
    rw [← hd'] at hstep
    rw [unmarshalLoop_step f m _ d _ _ (by rw [hd']; simp) hstep]
    have := hrest f (by omega)
    rw [← this]
    congr 1
    omega

/-- A string field block in the buffer, present or omitted, is consumed by
one iteration of the decoder loop (or none). -/
theorem unmarshalLoop_stringField (tag : Byte)
    (set : IBCForwardMetadata → List Byte → IBCForwardMetadata)
    (hfield : ∀ (m : IBCForwardMetadata) (pre post s : List Byte),
      (pre ++ tag :: (varintBytes (uint64 s.length) ++ (s ++ post))).length < 2 ^ 63 →
      m.unmarshalField (pre ++ tag :: (varintBytes (uint64 s.length) ++ (s ++ post))) pre.length =
        some ⟨set m s, pre.length + 1 + sovIbcForwardMetadata (uint64 s.length) + s.length,
          none⟩)
    (m : IBCForwardMetadata) (d pre post s : List Byte) (r : IBCForwardMetadata × Option GoError)
    (hd : d = pre ++ (stringFieldBytes tag s ++ post)) (hlen : d.length < 2 ^ 63)
    (hzero : s = [] → set m s = m)
    (hrest : ∀ fuel, post.length + 1 ≤ fuel →
      IBCForwardMetadata.unmarshalLoop fuel (set m s) d
        (pre.length + (stringFieldBytes tag s).length) = some r) :
    ∀ fuel, (stringFieldBytes tag s).length + post.length + 1 ≤ fuel →
      IBCForwardMetadata.unmarshalLoop fuel m d pre.length = some r := by
  intro fuel hfuel
  by_cases h0 : s = []
  · have hb : stringFieldBytes tag s = [] := by simp [stringFieldBytes, h0]
    rw [hb] at hrest hfuel
    rw [hzero h0] at hrest
    simpa using hrest fuel (by simpa using hfuel)
  · have hpos : s.length > 0 := List.length_pos.mpr h0
    have hb : stringFieldBytes tag s = tag :: (varintBytes (uint64 s.length) ++ s) := by
      simp [stringFieldBytes, hpos]
    have hl : (stringFieldBytes tag s).length =
        1 + sovIbcForwardMetadata (uint64 s.length) + s.length := by
      rw [hb, List.length_cons, List.length_append, length_varintBytes _ (uint64_lt _)]; omega
    rw [hl] at hrest hfuel
    obtain ⟨f, rfl⟩ : ∃ f, fuel = f + 1 := ⟨fuel - 1, by omega⟩
    have hd' : d = pre ++ tag :: (varintBytes (uint64 s.length) ++ (s ++ post)) := by
      rw [hd, hb]; simp
    have hstep := hfield m pre post s (by rw [← hd']; exact hlen)
    rw [← hd'] at hstep
    rw [unmarshalLoop_step f m _ d _ _ (by rw [hd']; simp) hstep]
    have := hrest f (by omega)
    rw [← this]
    congr 1
    omega


/-- Decoding `wireBytes m` into a fresh record gives back `m`. -/
theorem Unmarshal_wireBytes (m : IBCForwardMetadata) (h : m.Representable) :
    IBCForwardMetadata.Reset.Unmarshal m.wireBytes = some (m, none) := by
  obtain ⟨hn, ht, hs⟩ := h
  have hlen : m.wireBytes.length < 2 ^ 63 := by rw [length_wireBytes]; exact hs
  have hd : m.wireBytes = uint64FieldBytes 0x8 m.Nonce ++ (stringFieldBytes 0x12 m.Port ++
      (stringFieldBytes 0x1a m.Channel ++ (stringFieldBytes 0x22 m.DestinationReceiver ++
        (stringFieldBytes 0x2a m.Memo ++ uint64FieldBytes 0x30 m.TimeoutInNanoseconds)))) := rfl
  generalize h1 : uint64FieldBytes 0x8 m.Nonce = f1 at hd
  generalize h2 : stringFieldBytes 0x12 m.Port = f2 at hd
  generalize h3 : stringFieldBytes 0x1a m.Channel = f3 at hd
  generalize h4 : stringFieldBytes 0x22 m.DestinationReceiver = f4 at hd
  generalize h5 : stringFieldBytes 0x2a m.Memo = f5 at hd
  generalize h6 : uint64FieldBytes 0x30 m.TimeoutInNanoseconds = f6 at hd
  unfold IBCForwardMetadata.Unmarshal
  generalize m.wireBytes = d at hd hlen ⊢
  -- the record after the last field is `m`
  have s6 : ∀ fuel, ([] : List Byte).length + 1 ≤ fuel →
      IBCForwardMetadata.unmarshalLoop fuel
        ((fun (m : IBCForwardMetadata) v => { m with TimeoutInNanoseconds := v })
          { Nonce := m.Nonce, Port := m.Port, Channel := m.Channel,
            DestinationReceiver := m.DestinationReceiver, Memo := m.Memo,
            TimeoutInNanoseconds := 0 } m.TimeoutInNanoseconds) d
        ((f1 ++ f2 ++ f3 ++ f4 ++ f5).length + (uint64FieldBytes 0x30 m.TimeoutInNanoseconds).length)
        = some (m, none) := by
    intro fuel hf
    obtain ⟨f, rfl⟩ : ∃ f, fuel = f + 1 := ⟨fuel - 1, by simp at hf; omega⟩
    have hl : (f1 ++ f2 ++ f3 ++ f4 ++ f5).length +
        (uint64FieldBytes 0x30 m.TimeoutInNanoseconds).length = d.length := by
      rw [h6, hd]; simp only [List.length_append]; omega
    rw [hl]
    exact unmarshalLoop_end f _ d
  have s5 := unmarshalLoop_uint64Field 0x30 _ unmarshalField_TimeoutInNanoseconds
    { Nonce := m.Nonce, Port := m.Port, Channel := m.Channel,
      DestinationReceiver := m.DestinationReceiver, Memo := m.Memo, TimeoutInNanoseconds := 0 }
    d (f1 ++ f2 ++ f3 ++ f4 ++ f5) [] m.TimeoutInNanoseconds (m, none)
    (by rw [h6, hd]; simp) ht (by intro hz; simp [hz]) s6
  have s4 := unmarshalLoop_stringField 0x2a _ unmarshalField_Memo
    { Nonce := m.Nonce, Port := m.Port, Channel := m.Channel,
      DestinationReceiver := m.DestinationReceiver, Memo := [], TimeoutInNanoseconds := 0 }
    d (f1 ++ f2 ++ f3 ++ f4) f6 m.Memo (m, none)
    (by rw [h5, hd]; simp) hlen (by intro hz; simp [hz])
    (by
      intro fuel hf
      have := s5 fuel (by rw [h6]; simpa using hf)
      rw [h5]
      simpa [List.length_append, Nat.add_assoc] using this)
  have s3 := unmarshalLoop_stringField 0x22 _ unmarshalField_DestinationReceiver
    { Nonce := m.Nonce, Port := m.Port, Channel := m.Channel,
      DestinationReceiver := [], Memo := [], TimeoutInNanoseconds := 0 }
    d (f1 ++ f2 ++ f3) (f5 ++ f6) m.DestinationReceiver (m, none)
    (by rw [h4, hd]; simp) hlen (by intro hz; simp [hz])
    (by
      intro fuel hf
      have := s4 fuel (by rw [h5]; simpa [Nat.add_assoc] using hf)
      rw [h4]
      simpa [List.length_append, Nat.add_assoc] using this)
  have s2 := unmarshalLoop_stringField 0x1a _ unmarshalField_Channel
    { Nonce := m.Nonce, Port := m.Port, Channel := [],
      DestinationReceiver := [], Memo := [], TimeoutInNanoseconds := 0 }
    d (f1 ++ f2) (f4 ++ (f5 ++ f6)) m.Channel (m, none)
    (by rw [h3, hd]; simp) hlen (by intro hz; simp [hz])
    (by
      intro fuel hf
      have := s3 fuel (by rw [h4]; simpa [Nat.add_assoc] using hf)
      rw [h3]
      simpa [List.length_append, Nat.add_assoc] using this)
  have s1 := unmarshalLoop_stringField 0x12 _ unmarshalField_Port
    { Nonce := m.Nonce, Port := [], Channel := [],
      DestinationReceiver := [], Memo := [], TimeoutInNanoseconds := 0 }
    d f1 (f3 ++ (f4 ++ (f5 ++ f6))) m.Port (m, none)
    (by rw [h2, hd]) hlen (by intro hz; simp [hz])
    (by
      intro fuel hf
      have := s2 fuel (by rw [h3]; simpa [Nat.add_assoc] using hf)
      rw [h2]
      simpa [List.length_append, Nat.add_assoc] using this)
  have s0 := unmarshalLoop_uint64Field 0x8 _ unmarshalField_Nonce
    IBCForwardMetadata.Reset
    d [] (f2 ++ (f3 ++ (f4 ++ (f5 ++ f6)))) m.Nonce (m, none)
    (by rw [h1, hd]; simp) hn (by intro hz; simp [hz, IBCForwardMetadata.Reset])
    (by
      intro fuel hf
      have := s1 fuel (by rw [h2]; simpa [Nat.add_assoc] using hf)
      rw [h1]
      simpa [IBCForwardMetadata.Reset] using this)
  have := s0 (d.length + 1) (by rw [h1, hd]; simp only [List.length_append]; omega)
  simpa using this


/-! ## Progress of the decoder loops -/

theorem decodeVarintLoop_progress (fuel : Nat) :
    ∀ (d : List Byte) (i shift acc : Nat) (r : VarintResult),
      decodeVarintLoop fuel d i shift acc = some r → r.err = none →
      i < r.iNdEx ∧ r.iNdEx ≤ d.length := by
  induction fuel with
  | zero => intro d i shift acc r h; simp [decodeVarintLoop] at h
  | succ n ih =>
    intro d i shift acc r h he
    rw [decodeVarintLoop] at h
    split_ifs at h with h1 h2
    · simp only [Option.some.injEq] at h; subst h; simp at he
    · simp only [Option.some.injEq] at h; subst h; simp at he
    · have hi : i < d.length := by omega
      rw [List.getElem?_eq_getElem hi, Option.some_bind] at h
      simp only [] at h
      split_ifs at h with h3
      · simp only [Option.some.injEq] at h; subst h
        exact ⟨by simp, by simp; omega⟩
      · have := ih d (i + 1) _ _ r h he
        omega

theorem decodeVarintLoop_value_lt (fuel : Nat) :
    ∀ (d : List Byte) (i shift acc : Nat) (r : VarintResult),
      decodeVarintLoop fuel d i shift acc = some r → acc < 2 ^ 64 → r.value < 2 ^ 64 := by
  induction fuel with
  | zero => intro d i shift acc r h; simp [decodeVarintLoop] at h
  | succ n ih =>
    intro d i shift acc r h hacc
    rw [decodeVarintLoop] at h
    split_ifs at h with h1 h2
    · simp only [Option.some.injEq] at h; subst h; exact hacc
    · simp only [Option.some.injEq] at h; subst h; exact hacc
    · have hi : i < d.length := by omega
      rw [List.getElem?_eq_getElem hi, Option.some_bind] at h
      simp only [] at h
      have hv : acc ||| uint64 ((d[i].val &&& 0x7F) <<< shift) < 2 ^ 64 :=
        Nat.or_lt_two_pow hacc (uint64_lt _)
      split_ifs at h with h3
      · simp only [Option.some.injEq] at h; subst h
        exact hv
      · exact ih d (i + 1) _ _ r h hv

theorem decodeVarint_progress (d : List Byte) (i : Nat) (r : VarintResult)
    (h : decodeVarint d i = some r) (he : r.err = none) : i < r.iNdEx ∧ r.iNdEx ≤ d.length :=
  decodeVarintLoop_progress 11 d i 0 0 r h he

theorem decodeVarint_value_lt (d : List Byte) (i : Nat) (r : VarintResult)
    (h : decodeVarint d i = some r) : r.value < 2 ^ 64 :=
  decodeVarintLoop_value_lt 11 d i 0 0 r h (by norm_num)

theorem wrapInt64_lt (x : Int) : wrapInt64 x < 2 ^ 63 := by
  unfold wrapInt64
  omega

theorem wrapInt64_nonneg_imp (x : Int) (h0 : 0 ≤ x) (h1 : x < 2 ^ 64) (h : 0 ≤ wrapInt64 x) :
    wrapInt64 x = x := by
  unfold wrapInt64 at h ⊢
  omega


theorem skipSwitch_progress (d : List Byte) (i : Nat) (depth : Int) (wireType : Nat)
    (s : Int × Int × Option GoError) (hl : d.length < 2 ^ 63) (hi : i ≤ d.length)
    (h : skipSwitch d i depth wireType = some s) (he : s.2.2 = none) (h0 : 0 ≤ s.1) :
    (i : Int) ≤ s.1 ∧ s.1 < 2 ^ 63 := by
  unfold skipSwitch at h
  split_ifs at h with w0 w1 w2 w3 w4 w5 w6
  · cases hr : decodeVarint d i with
    | none => rw [hr] at h; simp at h
    | some r =>
      rw [hr, Option.some_bind] at h
      simp only [Option.some.injEq] at h; subst h
      have := decodeVarint_progress d i r hr he
      simp only
      omega
  · simp only [Option.some.injEq] at h; subst h
    simp only at h0 ⊢
    have := wrapInt64_nonneg_imp ((i : Int) + 8) (by omega) (by omega) h0
    have := wrapInt64_lt ((i : Int) + 8)
    omega
  · cases hr : decodeVarint d i with
    | none => rw [hr] at h; simp at h
    | some r =>
      rw [hr, Option.some_bind] at h
      cases hre : r.err with
      | some e => rw [hre] at h; simp only [Option.some.injEq] at h; subst h; simp at he
      | none =>
        rw [hre] at h
        simp only at h
        have hp := decodeVarint_progress d i r hr hre
        split_ifs at h with hneg
        · simp only [Option.some.injEq] at h; subst h; simp at he
        · simp only [Option.some.injEq] at h; subst h
          simp only at h0 ⊢
          have h1 := wrapInt64_lt (r.value : Int)
          have h2 := wrapInt64_nonneg_imp ((r.iNdEx : Int) + wrapInt64 r.value) (by omega)
            (by omega) h0
          have h3 := wrapInt64_lt ((r.iNdEx : Int) + wrapInt64 r.value)
          omega
  · simp only [Option.some.injEq] at h; subst h
    simp only
    omega
  · simp only [Option.some.injEq] at h; subst h; simp at he
  · simp only [Option.some.injEq] at h; subst h
    simp only
    omega
  · simp only [Option.some.injEq] at h; subst h
    simp only at h0 ⊢
    have := wrapInt64_nonneg_imp ((i : Int) + 4) (by omega) (by omega) h0
    have := wrapInt64_lt ((i : Int) + 4)
    omega
  · simp only [Option.some.injEq] at h; subst h; simp at he

theorem skipLoop_progress (fuel : Nat) :
    ∀ (d : List Byte) (i : Nat) (depth n : Int), d.length < 2 ^ 63 →
      skipLoop fuel d i depth = some (n, none) → (i : Int) < n ∧ n < 2 ^ 63 := by
  induction fuel with
  | zero => intro d i depth n _ h; simp [skipLoop] at h
  | succ f ih =>
    intro d i depth n hl h
    rw [skipLoop] at h
    simp only at h
    split_ifs at h with hi
    swap
    · simp at h
    cases ht : decodeVarint d i with
    | none => rw [ht] at h; simp at h
    | some t =>
      rw [ht, Option.some_bind] at h
      cases hte : t.err with
      | some e => rw [hte] at h; simp at h
      | none =>
        rw [hte] at h
        simp only at h
        have hp := decodeVarint_progress d i t ht hte
        cases hs : skipSwitch d t.iNdEx depth (t.value &&& 0x7) with
        | none => rw [hs] at h; simp at h
        | some s =>
          rw [hs, Option.some_bind] at h
          cases hse : s.2.2 with
          | some e => rw [hse] at h; simp at h
          | none =>
            rw [hse] at h
            simp only at h
            split_ifs at h with hneg hdep
            · simp at h
            · have hsp := skipSwitch_progress d t.iNdEx depth _ s hl hp.2 hs hse (by omega)
              simp only [Option.some.injEq, Prod.mk.injEq, and_true] at h
              omega
            · have hsp := skipSwitch_progress d t.iNdEx depth _ s hl hp.2 hs hse (by omega)
              have := ih d s.1.toNat s.2.1 n hl h
              omega

theorem skipIbcForwardMetadata_progress (d : List Byte) (n : Int) (hl : d.length < 2 ^ 63)
    (h : skipIbcForwardMetadata d = some (n, none)) : 0 < n ∧ n < 2 ^ 63 := by
  have := skipLoop_progress _ d 0 0 n hl h
  simpa using this

theorem unmarshalUint64Field_progress (field : String)
    (set : IBCForwardMetadata → Nat → IBCForwardMetadata) (m : IBCForwardMetadata)
    (wireType : Nat) (d : List Byte) (i : Nat) (r : FieldResult)
    (h : unmarshalUint64Field field set m wireType d i = some r) (he : r.err = none) :
    i < r.iNdEx := by
  unfold unmarshalUint64Field at h
  split_ifs at h with hw
  · simp only [Option.some.injEq] at h; subst h; simp at he
  · cases hr : decodeVarint d i with
    | none => rw [hr] at h; simp at h
    | some v =>
      rw [hr, Option.some_bind] at h
      simp only [Option.some.injEq] at h; subst h
      exact (decodeVarint_progress d i v hr he).1

theorem unmarshalStringField_progress (field : String)
    (set : IBCForwardMetadata → List Byte → IBCForwardMetadata) (m : IBCForwardMetadata)
    (wireType : Nat) (d : List Byte) (i : Nat) (r : FieldResult) (hl : d.length < 2 ^ 63)
    (h : unmarshalStringField field set m wireType d i = some r) (he : r.err = none) :
    i < r.iNdEx := by
  unfold unmarshalStringField at h
  simp only at h
  split_ifs at h with hw
  · simp only [Option.some.injEq] at h; subst h; simp at he
  · cases hr : decodeVarint d i with
    | none => rw [hr] at h; simp at h
    | some v =>
      rw [hr, Option.some_bind] at h
      cases hve : v.err with
      | some e => rw [hve] at h; simp only [Option.some.injEq] at h; subst h; simp at he
      | none =>
        rw [hve] at h
        simp only at h
        have hp := decodeVarint_progress d i v hr hve
        split_ifs at h with h1 h2 h3
        · simp only [Option.some.injEq] at h; subst h; simp at he
        · simp only [Option.some.injEq] at h; subst h; simp at he
        · simp only [Option.some.injEq] at h; subst h; simp at he
        · cases hsl : slice d v.iNdEx (wrapInt64 ((v.iNdEx : Int) + wrapInt64 v.value)).toNat with
          | none => rw [hsl] at h; simp at h
          | some s =>
            rw [hsl, Option.some_bind] at h
            simp only [Option.some.injEq] at h; subst h
            simp only
            have hb := wrapInt64_lt (v.value : Int)
            have := wrapInt64_nonneg_imp ((v.iNdEx : Int) + wrapInt64 v.value) (by omega)
              (by omega) (by omega)
            omega

theorem unmarshalUnknownField_progress (m : IBCForwardMetadata) (d : List Byte) (i : Nat)
    (r : FieldResult) (hl : d.length < 2 ^ 63) (hi : i < d.length)
    (h : unmarshalUnknownField m d i = some r) (he : r.err = none) : i < r.iNdEx := by
  unfold unmarshalUnknownField sliceFrom at h
  simp only at h
  rw [slice_eq _ _ _ (by omega) (le_refl _), Option.some_bind] at h
  cases hs : skipIbcForwardMetadata (List.take (d.length - i) (List.drop i d)) with
  | none => rw [hs] at h; simp at h
  | some sk =>
    rw [hs, Option.some_bind] at h
    obtain ⟨skippy, err⟩ := sk
    cases err with
    | some e => simp only [Option.some.injEq] at h; subst h; simp at he
    | none =>
      simp only at h
      have hp := skipIbcForwardMetadata_progress _ skippy
        (by simp only [List.length_take, List.length_drop]; omega) hs
      split_ifs at h with h1 h2
      · simp only [Option.some.injEq] at h; subst h; simp at he
      · simp only [Option.some.injEq] at h; subst h; simp at he
      · simp only [Option.some.injEq] at h; subst h
        simp only
        have := wrapInt64_nonneg_imp ((i : Int) + skippy) (by omega) (by omega) (by omega)
        omega

/-- Every iteration of the outer loop of `Unmarshal` that returns no error
moves the read index forward. -/
theorem unmarshalField_progress (m : IBCForwardMetadata) (d : List Byte) (i : Nat)
    (r : FieldResult) (hl : d.length < 2 ^ 63) (hi : i < d.length)
    (h : m.unmarshalField d i = some r) (he : r.err = none) : i < r.iNdEx := by
  unfold IBCForwardMetadata.unmarshalField at h
  simp only at h
  cases ht : decodeVarint d i with
  | none => rw [ht] at h; simp at h
  | some t =>
    rw [ht, Option.some_bind] at h
    cases hte : t.err with
    | some e => rw [hte] at h; simp only [Option.some.injEq] at h; subst h; simp at he
    | none =>
      rw [hte] at h
      simp only at h
      have hp := decodeVarint_progress d i t ht hte
      split_ifs at h
      · simp only [Option.some.injEq] at h; subst h; simp at he
      · simp only [Option.some.injEq] at h; subst h; simp at he
      · have := unmarshalUint64Field_progress _ _ _ _ _ _ _ h he; omega
      · have := unmarshalStringField_progress _ _ _ _ _ _ _ hl h he; omega
      · have := unmarshalStringField_progress _ _ _ _ _ _ _ hl h he; omega
      · have := unmarshalStringField_progress _ _ _ _ _ _ _ hl h he; omega
      · have := unmarshalStringField_progress _ _ _ _ _ _ _ hl h he; omega
      · have := unmarshalUint64Field_progress _ _ _ _ _ _ _ h he; omega
      · exact unmarshalUnknownField_progress m d i r hl hi h he


/-- A loop head of `Unmarshal` is a state of the fuelled loop: the loop
started at index 0 continues from there, having used at most one unit of fuel
per byte read. -/
theorem unmarshalLoop_of_AtLoopHead (m₀ m : IBCForwardMetadata) (d : List Byte) (i : Nat)
    (hl : d.length < 2 ^ 63) (h : IBCForwardMetadata.AtLoopHead m₀ d i m) :
    ∃ k, k ≤ i ∧ ∀ fuel, IBCForwardMetadata.unmarshalLoop (fuel + k) m₀ d 0 =
      IBCForwardMetadata.unmarshalLoop fuel m d i := by
  induction h with
  | start => exact ⟨0, le_refl _, fun _ => rfl⟩
  | @step i m r _ hi hstep herr ih =>
    obtain ⟨k, hk, hloop⟩ := ih
    have hp := unmarshalField_progress m d i r hl hi hstep herr
    refine ⟨k + 1, by omega, fun fuel => ?_⟩
    have hr : r = ⟨r.m, r.iNdEx, none⟩ := by
      cases r
      simp only at herr
      simp [herr]
    rw [hr] at hstep
    have := hloop (fuel + 1)
    rw [show fuel + (k + 1) = fuel + 1 + k by omega, this]
    exact unmarshalLoop_step fuel m r.m d i r.iNdEx hi hstep

theorem unmarshalStringField_overlong (field : String)
    (set : IBCForwardMetadata → List Byte → IBCForwardMetadata) (m : IBCForwardMetadata)
    (d : List Byte) (j : Nat) (r : VarintResult) (hl : d.length < 2 ^ 63)
    (hlen : decodeVarint d j = some r) (hre : r.err = none)
    (hover : d.length - r.iNdEx < r.value) :
    ∃ e, unmarshalStringField field set m 2 d j = some ⟨m, r.iNdEx, some e⟩ := by
  have hp := decodeVarint_progress d j r hlen hre
  have hv := decodeVarint_value_lt d j r hlen
  unfold unmarshalStringField
  simp only
  rw [if_neg (by simp), hlen, Option.some_bind, hre]
  simp only
  by_cases h1 : wrapInt64 (r.value : Int) < 0
  · exact ⟨_, by rw [if_pos h1]⟩
  · rw [if_neg h1]
    have e1 := wrapInt64_nonneg_imp (r.value : Int) (by omega) (by omega) (by omega)
    have b1 := wrapInt64_lt (r.value : Int)
    by_cases h2 : wrapInt64 ((r.iNdEx : Int) + wrapInt64 (r.value : Int)) < 0
    · exact ⟨_, by rw [if_pos h2]⟩
    · rw [if_neg h2]
      have e2 := wrapInt64_nonneg_imp ((r.iNdEx : Int) + wrapInt64 (r.value : Int)) (by omega)
        (by omega) (by omega)
      exact ⟨_, by rw [if_pos (by omega)]⟩

theorem unmarshalField_overlong (m : IBCForwardMetadata) (d : List Byte) (i : Nat)
    (t r : VarintResult) (hl : d.length < 2 ^ 63)
    (htag : decodeVarint d i = some t) (hte : t.err = none) (hwt : t.value &&& 0x7 = 2)
    (hfn : 2 ≤ wrapInt32 (t.value >>> 3) ∧ wrapInt32 (t.value >>> 3) ≤ 5)
    (hlen : decodeVarint d t.iNdEx = some r) (hre : r.err = none)
    (hover : d.length - r.iNdEx < r.value) :
    ∃ e, m.unmarshalField d i = some ⟨m, r.iNdEx, some e⟩ := by
  unfold IBCForwardMetadata.unmarshalField
  simp only
  rw [htag, Option.some_bind, hte]
  simp only
  rw [hwt, if_neg (by decide), if_neg (by omega), if_neg (by omega)]
  have hcases : wrapInt32 (t.value >>> 3) = 2 ∨ wrapInt32 (t.value >>> 3) = 3 ∨
      wrapInt32 (t.value >>> 3) = 4 ∨ wrapInt32 (t.value >>> 3) = 5 := by omega
  rcases hcases with h | h | h | h
  · rw [if_pos h]
    exact unmarshalStringField_overlong _ _ m d _ r hl hlen hre hover
  · rw [if_neg (by omega), if_pos h]
    exact unmarshalStringField_overlong _ _ m d _ r hl hlen hre hover
  · rw [if_neg (by omega), if_neg (by omega), if_pos h]
    exact unmarshalStringField_overlong _ _ m d _ r hl hlen hre hover
  · rw [if_neg (by omega), if_neg (by omega), if_neg (by omega), if_pos h]
    exact unmarshalStringField_overlong _ _ m d _ r hl hlen hre hover

/-! ## Claims on the tagged-field codec -/

/-- C8 (as stated, refuted): the two-byte buffer `08 00` (field 1 written
with its zero value) is accepted by `Unmarshal` and by `DecodeIBCForward`,
and `Marshal` of the decoded record is the empty buffer, not `08 00`. -/
theorem Marshal_Unmarshal_not_identity :
    IBCForwardMetadata.Reset.Unmarshal [0x08, 0x00] = some (IBCForwardMetadata.Reset, none) ∧
      DecodeIBCForward [0x08, 0x00] = some (IBCForwardMetadata.Reset, none) ∧
      IBCForwardMetadata.Reset.Marshal = some (some [], none) ∧
      ([] : List Byte) ≠ [0x08, 0x00] := by
  decide

/-- C8 (amended): for every byte buffer `x` that `Marshal` returns for a
representable record, `Unmarshal` into a fresh record and `DecodeIBCForward`
accept `x`, and `Marshal` of the decoded record returns exactly `x`. -/
theorem Marshal_Unmarshal_roundtrip (m : IBCForwardMetadata) (x : List Byte)
    (h : m.Representable) (hx : m.Marshal = some (some x, none)) :
    ∃ m', IBCForwardMetadata.Reset.Unmarshal x = some (m', none) ∧
      DecodeIBCForward x = some (m', none) ∧ m'.Marshal = some (some x, none) := by
  rw [Marshal_eq] at hx
  simp only [Option.some.injEq, Prod.mk.injEq, and_true] at hx
  subst hx
  refine ⟨m, Unmarshal_wireBytes m h, ?_, Marshal_eq m⟩
  unfold DecodeIBCForward proto_Unmarshal
  simp only
  rw [Unmarshal_wireBytes m h]
  rfl

theorem Marshal_Unmarshal_roundtrip_witness :
    (⟨300, [0x74], [0x63, 0x68], [], [0x6d], 2 ^ 64 - 1⟩ : IBCForwardMetadata).Representable ∧
      (⟨300, [0x74], [0x63, 0x68], [], [0x6d], 2 ^ 64 - 1⟩ : IBCForwardMetadata).Marshal =
        some (some [0x08, 0xac, 0x02, 0x12, 0x01, 0x74, 0x1a, 0x02, 0x63, 0x68, 0x2a, 0x01, 0x6d,
          0x30, 0xff, 0xff, 0xff, 0xff, 0xff, 0xff, 0xff, 0xff, 0xff, 0x01], none) ∧
      ∃ m', IBCForwardMetadata.Reset.Unmarshal
          [0x08, 0xac, 0x02, 0x12, 0x01, 0x74, 0x1a, 0x02, 0x63, 0x68, 0x2a, 0x01, 0x6d,
            0x30, 0xff, 0xff, 0xff, 0xff, 0xff, 0xff, 0xff, 0xff, 0xff, 0x01] = some (m', none) ∧
        DecodeIBCForward
          [0x08, 0xac, 0x02, 0x12, 0x01, 0x74, 0x1a, 0x02, 0x63, 0x68, 0x2a, 0x01, 0x6d,
            0x30, 0xff, 0xff, 0xff, 0xff, 0xff, 0xff, 0xff, 0xff, 0xff, 0x01] = some (m', none) ∧
        m'.Marshal = some (some
          [0x08, 0xac, 0x02, 0x12, 0x01, 0x74, 0x1a, 0x02, 0x63, 0x68, 0x2a, 0x01, 0x6d,
            0x30, 0xff, 0xff, 0xff, 0xff, 0xff, 0xff, 0xff, 0xff, 0xff, 0x01], none) :=
  ⟨by decide, by decide,
    Marshal_Unmarshal_roundtrip ⟨300, [0x74], [0x63, 0x68], [], [0x6d], 2 ^ 64 - 1⟩ _
      (by decide) (by decide)⟩

/-- C9: `Marshal` returns bytes and no error for every record, and for any two
representable records `m1` and `m2`, `Marshal m1 = Marshal m2` exactly when
`m1 = m2`: equal records give equal bytes and different records give
different bytes. -/
theorem Marshal_canonical (m1 m2 : IBCForwardMetadata) (h1 : m1.Representable)
    (h2 : m2.Representable) :
    (∃ b1 b2, m1.Marshal = some (some b1, none) ∧ m2.Marshal = some (some b2, none)) ∧
      (m1.Marshal = m2.Marshal ↔ m1 = m2) := by
  refine ⟨⟨_, _, Marshal_eq m1, Marshal_eq m2⟩, ⟨fun h => ?_, fun h => by rw [h]⟩⟩
  rw [Marshal_eq, Marshal_eq] at h
  simp only [Option.some.injEq, Prod.mk.injEq, and_true] at h
  have e1 := Unmarshal_wireBytes m1 h1
  have e2 := Unmarshal_wireBytes m2 h2
  rw [h, e2] at e1
  simp only [Option.some.injEq, Prod.mk.injEq, and_true] at e1
  exact e1.symm

theorem Marshal_canonical_witness :
    (⟨1, [], [], [], [], 0⟩ : IBCForwardMetadata).Representable ∧
      (⟨0, [0x01], [], [], [], 0⟩ : IBCForwardMetadata).Representable ∧
      ((∃ b1 b2, (⟨1, [], [], [], [], 0⟩ : IBCForwardMetadata).Marshal = some (some b1, none) ∧
          (⟨0, [0x01], [], [], [], 0⟩ : IBCForwardMetadata).Marshal = some (some b2, none)) ∧
        ((⟨1, [], [], [], [], 0⟩ : IBCForwardMetadata).Marshal =
            (⟨0, [0x01], [], [], [], 0⟩ : IBCForwardMetadata).Marshal ↔
          (⟨1, [], [], [], [], 0⟩ : IBCForwardMetadata) = ⟨0, [0x01], [], [], [], 0⟩)) :=
  ⟨by decide, by decide, Marshal_canonical _ _ (by decide) (by decide)⟩

/-- C10: let `Unmarshal`, called on `m₀` with a buffer `d` (of a length that
fits a Go `int`), stand at a loop head `(i, m)` where it reads a tag with wire
type 2 and a field number `fieldNum` from 2 to 5, then a length prefix whose
value exceeds the number of bytes left after the prefix. Then `Unmarshal`
returns an error (leaving the record as it was at that loop head), and
`DecodeIBCForward d` returns the empty record with `ErrDecodingMessage`
wrapped with "error decoding ibc forward". -/
theorem Unmarshal_rejects_overlong_field (m₀ m : IBCForwardMetadata) (d : List Byte) (i : Nat)
    (t r : VarintResult) (hl : d.length < 2 ^ 63)
    (hreach : IBCForwardMetadata.AtLoopHead m₀ d i m)
    (htag : decodeVarint d i = some t) (hte : t.err = none) (hwt : t.value &&& 0x7 = 2)
    (hfn : 2 ≤ wrapInt32 (t.value >>> 3) ∧ wrapInt32 (t.value >>> 3) ≤ 5)
    (hlen : decodeVarint d t.iNdEx = some r) (hre : r.err = none)
    (hover : d.length - r.iNdEx < r.value) :
    (∃ e, m₀.Unmarshal d = some (m, some e)) ∧
      (m₀ = IBCForwardMetadata.Reset → DecodeIBCForward d =
        some (IBCForwardMetadata.Reset,
          some (.Wrap .ErrDecodingMessage "error decoding ibc forward"))) := by
  have hi : i < d.length := by
    have := decodeVarint_progress d i t htag hte
    omega
  obtain ⟨e, he⟩ := unmarshalField_overlong m d i t r hl htag hte hwt hfn hlen hre hover
  obtain ⟨k, hk, hloop⟩ := unmarshalLoop_of_AtLoopHead m₀ m d i hl hreach
  have hU : m₀.Unmarshal d = some (m, some e) := by
    unfold IBCForwardMetadata.Unmarshal
    obtain ⟨f, hf⟩ : ∃ f, d.length + 1 = f + 1 + k := ⟨d.length - k, by omega⟩
    rw [hf, hloop (f + 1), IBCForwardMetadata.unmarshalLoop]
    simp only [if_pos hi, he, Option.some_bind]
  refine ⟨⟨e, hU⟩, fun h0 => ?_⟩
  subst h0
  unfold DecodeIBCForward proto_Unmarshal
  simp only
  rw [hU]
  rfl

theorem Unmarshal_rejects_overlong_field_witness :
    IBCForwardMetadata.AtLoopHead IBCForwardMetadata.Reset [0x08, 0x07, 0x1a, 0x03, 0x41] 2
        ⟨7, [], [], [], [], 0⟩ ∧
      decodeVarint [0x08, 0x07, 0x1a, 0x03, 0x41] 2 = some ⟨0x1a, 3, none⟩ ∧
      decodeVarint [0x08, 0x07, 0x1a, 0x03, 0x41] 3 = some ⟨3, 4, none⟩ ∧
      (∃ e, IBCForwardMetadata.Reset.Unmarshal [0x08, 0x07, 0x1a, 0x03, 0x41] =
        some (⟨7, [], [], [], [], 0⟩, some e)) ∧
      DecodeIBCForward [0x08, 0x07, 0x1a, 0x03, 0x41] =
        some (IBCForwardMetadata.Reset,
          some (.Wrap .ErrDecodingMessage "error decoding ibc forward")) :=
  have hreach : IBCForwardMetadata.AtLoopHead IBCForwardMetadata.Reset
      [0x08, 0x07, 0x1a, 0x03, 0x41] 2 ⟨7, [], [], [], [], 0⟩ :=
    IBCForwardMetadata.AtLoopHead.step (r := ⟨⟨7, [], [], [], [], 0⟩, 2, none⟩)
      IBCForwardMetadata.AtLoopHead.start (by decide) (by decide) rfl
  have h := Unmarshal_rejects_overlong_field IBCForwardMetadata.Reset ⟨7, [], [], [], [], 0⟩
    [0x08, 0x07, 0x1a, 0x03, 0x41] 2 ⟨0x1a, 3, none⟩ ⟨3, 4, none⟩ (by decide) hreach
    (by decide) rfl (by decide) (by decide) (by decide) rfl (by decide)
  ⟨hreach, by decide, by decide, h.1, h.2 rfl⟩



/-! ## The encoder of `StoreIBCForwardMetadata` writes its `wireBytes` -/

theorem uint64OfInt_natCast (n : Nat) : uint64OfInt (n : Int) = uint64 n := by
  unfold uint64OfInt uint64
  omega

theorem length_boolFieldBytes (tag : Byte) (x : Bool) :
    (boolFieldBytes tag x).length = if x then 2 else 0 := by
  cases x <;> rfl

theorem length_metadataFieldBytes (tag : Byte) (x : Option IBCForwardMetadata) :
    (metadataFieldBytes tag x).length =
      match x with
      | some md => 1 + md.Size + sovIbcForwardMetadata (uint64 md.Size)
      | none => 0 := by
  cases x with
  | none => rfl
  | some md =>
    simp only [metadataFieldBytes, List.length_cons, List.length_append,
      length_varintBytes _ (uint64_lt _), length_wireBytes]
    omega

theorem marshalBoolField_take (tag : Byte) (x : Bool) (buf written : List Byte) (k : Nat)
    (hk : k ≤ buf.length) (h : (boolFieldBytes tag x).length ≤ k) :
    marshalBoolField tag x (buf.take k ++ written, (k : Int)) =
      some (buf.take (k - (boolFieldBytes tag x).length) ++ (boolFieldBytes tag x ++ written),
        ((k - (boolFieldBytes tag x).length : Nat) : Int)) := by
  cases x with
  | false => simp [marshalBoolField, boolFieldBytes]
  | true =>
    have h2 : 2 ≤ k := by simpa [boolFieldBytes] using h
    have hl : (buf.take k).length = k := by rw [List.length_take]; omega
    have hl1 : (buf.take (k - 1)).length = k - 1 := by rw [List.length_take]; omega
    have s1 := setIndex_last (buf.take k) written 1 (by omega)
    rw [hl, List.take_take] at s1
    have s2 := setIndex_last (buf.take (k - 1)) (1 :: written) tag (by omega)
    rw [hl1, List.take_take] at s2
    have hm1 : min (k - 1) k = k - 1 := by omega
    have hm2 : min (k - 1 - 1) (k - 1) = k - 2 := by omega
    have hc : ((k : Int) - 1 - 1) = (((k - 1 : Nat) : Int) - 1) := by omega
    rw [hm1] at s1
    rw [hm2] at s2
    simp only [marshalBoolField, if_true, boolFieldBytes]
    rw [s1, Option.some_bind, hc, s2]
    simp only [Option.map_some', List.length_cons, List.length_nil, List.cons_append,
      List.nil_append, Option.some.injEq, Prod.mk.injEq, true_and]
    omega

theorem marshalMetadataField_take (tag : Byte) (x : Option IBCForwardMetadata)
    (buf written : List Byte) (k : Nat)
    (hk : k ≤ buf.length) (h : (metadataFieldBytes tag x).length ≤ k) :
    marshalMetadataField tag x (buf.take k ++ written, (k : Int)) =
      some (buf.take (k - (metadataFieldBytes tag x).length) ++
          (metadataFieldBytes tag x ++ written),
        ((k - (metadataFieldBytes tag x).length : Nat) : Int), none) := by
  cases x with
  | none => simp [marshalMetadataField, metadataFieldBytes]
  | some md =>
    rw [length_metadataFieldBytes] at h ⊢
    simp only at h ⊢
    have hpos := sov_pos _ (uint64_lt md.Size)
    have hl : (buf.take k).length = k := by rw [List.length_take]; omega
    have hcond : (0 : Int) ≤ (k : Int) ∧ (k : Int) ≤ ((buf.take k ++ written).length : Int) := by
      refine ⟨Int.natCast_nonneg _, ?_⟩
      rw [List.length_append, hl]
      omega
    have htake : (buf.take k ++ written).take k = buf.take k := by
      rw [List.take_append_of_le_length (by omega), List.take_take, Nat.min_self]
    have hdrop : (buf.take k ++ written).drop k = written := List.drop_left' hl
    have hnest := MarshalToSizedBuffer_eq md (buf.take k)
      (by rw [hl, length_wireBytes]; omega)
    rw [hl, List.take_take, length_wireBytes] at hnest
    have hm : min (k - md.Size) k = k - md.Size := by omega
    rw [hm] at hnest
    have hl2 : (buf.take (k - md.Size)).length = k - md.Size := by
      rw [List.length_take]; omega
    have henc := encodeVarint_spec (buf.take (k - md.Size)) (md.wireBytes ++ written)
      (uint64 md.Size) (uint64_lt _) (by rw [hl2]; omega)
    rw [hl2, List.take_take] at henc
    have hl3 : (buf.take (min (k - md.Size - sovIbcForwardMetadata (uint64 md.Size))
        (k - md.Size))).length = k - md.Size - sovIbcForwardMetadata (uint64 md.Size) := by
      rw [List.length_take]; omega
    have hset := setIndex_last
      (buf.take (min (k - md.Size - sovIbcForwardMetadata (uint64 md.Size)) (k - md.Size)))
      (varintBytes (uint64 md.Size) ++ (md.wireBytes ++ written)) tag (by rw [hl3]; omega)
    rw [hl3, List.take_take] at hset
    have hci : ((k : Int) - (md.Size : Int)) = ((k - md.Size : Nat) : Int) := by omega
    simp only [marshalMetadataField, Int.toNat_natCast]
    rw [if_pos hcond, htake, hdrop, hnest, Option.some_bind]
    simp only [uint64OfInt_natCast, List.append_assoc]
    rw [hci, henc, Option.some_bind]
    simp only []
    rw [hset, Option.map_some']
    simp only [metadataFieldBytes, List.cons_append, List.append_assoc, Option.some.injEq,
      Prod.mk.injEq, and_true]
    constructor
    · congr 2
      omega
    · omega

theorem length_storeWireBytes (s : StoreIBCForwardMetadata) : s.wireBytes.length = s.Size := by
  unfold StoreIBCForwardMetadata.wireBytes StoreIBCForwardMetadata.Size
  simp only [List.length_append, length_uint64FieldBytes, length_stringFieldBytes,
    length_metadataFieldBytes, length_boolFieldBytes]
  cases s.Metadata <;> simp only <;> split_ifs <;> omega

/-- What `(*StoreIBCForwardMetadata).MarshalToSizedBuffer` leaves in a buffer
that is long enough. -/
theorem StoreMarshalToSizedBuffer_eq (s : StoreIBCForwardMetadata) (buf : List Byte)
    (h : s.wireBytes.length ≤ buf.length) :
    s.MarshalToSizedBuffer buf =
      some (buf.take (buf.length - s.wireBytes.length) ++ s.wireBytes,
        (s.wireBytes.length : Int), none) := by
  have hw : s.wireBytes.length = (uint64FieldBytes 0x8 s.SourceDomain).length +
      ((stringFieldBytes 0x12 s.SourceDomainSender).length +
        ((metadataFieldBytes 0x1a s.Metadata).length +
          (boolFieldBytes 0x20 s.AckError).length)) := by
    simp [StoreIBCForwardMetadata.wireBytes]
  rw [hw] at h ⊢
  unfold StoreIBCForwardMetadata.MarshalToSizedBuffer
  have h0 : ((buf, (buf.length : Int)) : List Byte × Int) =
      (buf.take buf.length ++ [], (buf.length : Int)) := by simp
  simp only []
  rw [h0, marshalBoolField_take _ _ _ _ _ le_rfl (by omega), Option.some_bind,
    marshalMetadataField_take _ _ _ _ _ (by omega) (by omega), Option.some_bind]
  simp only []
  rw [marshalStringField_take _ _ _ _ _ (by omega) (by omega), Option.some_bind,
    marshalUint64Field_take _ _ _ _ _ (by omega) (by omega), Option.some_bind]
  simp only [Option.some.injEq, Prod.mk.injEq, and_true, List.append_nil]
  refine ⟨?_, by omega⟩
  unfold StoreIBCForwardMetadata.wireBytes
  congr 2
  omega

/-- `(*StoreIBCForwardMetadata).Marshal` returns `wireBytes` and no error. -/
theorem StoreMarshal_eq (s : StoreIBCForwardMetadata) :
    s.Marshal = some (some s.wireBytes, none) := by
  unfold StoreIBCForwardMetadata.Marshal
  simp only []
  have hs : slice (List.replicate s.Size (0 : Byte)) 0 s.Size = some (List.replicate s.Size 0) := by
    rw [slice_eq _ _ _ (by omega) (by simp)]
    simp
  rw [hs, Option.some_bind, StoreMarshalToSizedBuffer_eq s _ (by simp [length_storeWireBytes]),
    Option.some_bind]
  simp [length_storeWireBytes]


/-! ## Claims on `DecodeIBCForward`, the round trip and `Size` -/

/-- C13: whenever `Unmarshal` into a fresh record returns an error on a
buffer, `DecodeIBCForward` returns the empty record (not the record that
`Unmarshal` was filling) together with `ErrDecodingMessage` wrapped with
"error decoding ibc forward"; whenever `Unmarshal` returns no error,
`DecodeIBCForward` returns the record that `Unmarshal` produced and no error. -/
theorem DecodeIBCForward_fails_closed (msg : List Byte) (m : IBCForwardMetadata)
    (e : Option GoError) (h : IBCForwardMetadata.Reset.Unmarshal msg = some (m, e)) :
    (e ≠ none → DecodeIBCForward msg = some (IBCForwardMetadata.Reset,
        some (.Wrap .ErrDecodingMessage "error decoding ibc forward")) ∧
      (GoError.Wrap .ErrDecodingMessage "error decoding ibc forward").Is .ErrDecodingMessage
        = true) ∧
    (e = none → DecodeIBCForward msg = some (m, none)) := by
  unfold DecodeIBCForward proto_Unmarshal
  simp only
  rw [h, Option.some_bind]
  cases e with
  | none => simp
  | some err =>
    simp only [ne_eq, reduceCtorEq, not_false_eq_true, forall_const, false_implies, and_true]
    exact ⟨rfl, by decide⟩

theorem DecodeIBCForward_fails_closed_witness :
    (IBCForwardMetadata.Reset.Unmarshal [0x08, 0x07, 0x1a, 0x03, 0x41] =
        some (⟨7, [], [], [], [], 0⟩, some .ErrUnexpectedEOF) ∧
      DecodeIBCForward [0x08, 0x07, 0x1a, 0x03, 0x41] = some (IBCForwardMetadata.Reset,
        some (.Wrap .ErrDecodingMessage "error decoding ibc forward"))) ∧
    (IBCForwardMetadata.Reset.Unmarshal [0x08, 0x07, 0x1a, 0x01, 0x41] =
        some (⟨7, [], [0x41], [], [], 0⟩, none) ∧
      DecodeIBCForward [0x08, 0x07, 0x1a, 0x01, 0x41] =
        some (⟨7, [], [0x41], [], [], 0⟩, none)) :=
  have h1 : IBCForwardMetadata.Reset.Unmarshal [0x08, 0x07, 0x1a, 0x03, 0x41] =
      some (⟨7, [], [], [], [], 0⟩, some .ErrUnexpectedEOF) := by decide
  have h2 : IBCForwardMetadata.Reset.Unmarshal [0x08, 0x07, 0x1a, 0x01, 0x41] =
      some (⟨7, [], [0x41], [], [], 0⟩, none) := by decide
  ⟨⟨h1, ((DecodeIBCForward_fails_closed _ _ _ h1).1 (by simp)).1⟩,
    ⟨h2, (DecodeIBCForward_fails_closed _ _ _ h2).2 rfl⟩⟩

/-- C18: for every representable record `m` (both numbers below `2 ^ 64`, any
four strings whose encoding fits a Go slice), `Marshal` returns bytes and no
error, and `Unmarshal` of these bytes into a fresh record, as well as
`DecodeIBCForward`, returns `m` and no error. -/
theorem Unmarshal_Marshal (m : IBCForwardMetadata) (h : m.Representable) :
    ∃ x, m.Marshal = some (some x, none) ∧
      IBCForwardMetadata.Reset.Unmarshal x = some (m, none) ∧
      DecodeIBCForward x = some (m, none) := by
  refine ⟨m.wireBytes, Marshal_eq m, Unmarshal_wireBytes m h, ?_⟩
  unfold DecodeIBCForward proto_Unmarshal
  simp only
  rw [Unmarshal_wireBytes m h]
  rfl

theorem Unmarshal_Marshal_witness :
    (IBCForwardMetadata.Reset.Representable ∧
      ∃ x, IBCForwardMetadata.Reset.Marshal = some (some x, none) ∧
        IBCForwardMetadata.Reset.Unmarshal x = some (IBCForwardMetadata.Reset, none) ∧
        DecodeIBCForward x = some (IBCForwardMetadata.Reset, none)) ∧
    ((⟨2 ^ 64 - 1, [], [0x63, 0x68], [0x80, 0xff], [], 128⟩ : IBCForwardMetadata).Representable ∧
      ∃ x, (⟨2 ^ 64 - 1, [], [0x63, 0x68], [0x80, 0xff], [], 128⟩ : IBCForwardMetadata).Marshal =
          some (some x, none) ∧
        IBCForwardMetadata.Reset.Unmarshal x =
          some (⟨2 ^ 64 - 1, [], [0x63, 0x68], [0x80, 0xff], [], 128⟩, none) ∧
        DecodeIBCForward x =
          some (⟨2 ^ 64 - 1, [], [0x63, 0x68], [0x80, 0xff], [], 128⟩, none)) :=
  ⟨⟨by decide, Unmarshal_Marshal _ (by decide)⟩, ⟨by decide, Unmarshal_Marshal _ (by decide)⟩⟩

/-- C20: for every `IBCForwardMetadata` `m` and every
`StoreIBCForwardMetadata` `s`, `MarshalToSizedBuffer` run on any buffer of
exactly `Size()` bytes returns `n = Size()` and no error (so its write index
ends at 0) and leaves in the buffer the same `Size()` bytes whatever it held
before (every byte is written); `Marshal` returns exactly these bytes, of
length `Size()`, and no error. -/
theorem Size_agrees_with_encoder (m : IBCForwardMetadata) (s : StoreIBCForwardMetadata) :
    (∃ out : List Byte, out.length = m.Size ∧ m.Marshal = some (some out, none) ∧
      ∀ buf : List Byte, buf.length = m.Size →
        m.MarshalToSizedBuffer buf = some (out, (m.Size : Int), none)) ∧
    (∃ out : List Byte, out.length = s.Size ∧ s.Marshal = some (some out, none) ∧
      ∀ buf : List Byte, buf.length = s.Size →
        s.MarshalToSizedBuffer buf = some (out, (s.Size : Int), none)) := by
  constructor
  · refine ⟨m.wireBytes, length_wireBytes m, Marshal_eq m, fun buf hb => ?_⟩
    rw [MarshalToSizedBuffer_eq m buf (by rw [length_wireBytes, hb]), length_wireBytes, hb]
    simp
  · refine ⟨s.wireBytes, length_storeWireBytes s, StoreMarshal_eq s, fun buf hb => ?_⟩
    rw [StoreMarshalToSizedBuffer_eq s buf (by rw [length_storeWireBytes, hb]),
      length_storeWireBytes, hb]
    simp


/-! ## Decoding does not depend on the bytes after the part that is read -/

theorem decodeVarintLoop_append (fuel : Nat) :
    ∀ (p rest : List Byte) (i shift acc : Nat) (r : VarintResult),
      decodeVarintLoop fuel p i shift acc = some r → r.err = none →
      decodeVarintLoop fuel (p ++ rest) i shift acc = some r := by
  induction fuel with
  | zero => intro p rest i shift acc r h; simp [decodeVarintLoop] at h
  | succ n ih =>
    intro p rest i shift acc r h he
    rw [decodeVarintLoop] at h ⊢
    split_ifs at h with h1 h2
    · simp only [Option.some.injEq] at h; subst h; simp at he
    · simp only [Option.some.injEq] at h; subst h; simp at he
    · have hi : i < p.length := by omega
      rw [if_neg h1, if_neg (by rw [List.length_append]; omega),
        List.getElem?_append_left hi]
      rw [List.getElem?_eq_getElem hi, Option.some_bind] at h ⊢
      simp only [] at h ⊢
      split_ifs at h with h3
      · rw [if_pos h3]; exact h
      · rw [if_neg h3]; exact ih p rest (i + 1) _ _ r h he

theorem decodeVarint_append (p rest : List Byte) (i : Nat) (r : VarintResult)
    (h : decodeVarint p i = some r) (he : r.err = none) :
    decodeVarint (p ++ rest) i = some r :=
  decodeVarintLoop_append 11 p rest i 0 0 r h he

theorem decodeVarintLoop_shift (fuel : Nat) :
    ∀ (pre d : List Byte) (i shift acc : Nat),
      decodeVarintLoop fuel (pre ++ d) (pre.length + i) shift acc =
        (decodeVarintLoop fuel d i shift acc).map
          fun r => ⟨r.value, pre.length + r.iNdEx, r.err⟩ := by
  induction fuel with
  | zero => intro pre d i shift acc; simp [decodeVarintLoop]
  | succ n ih =>
    intro pre d i shift acc
    rw [decodeVarintLoop, decodeVarintLoop]
    by_cases h1 : shift ≥ 64
    · simp [h1]
    · rw [if_neg h1, if_neg h1]
      by_cases h2 : i ≥ d.length
      · rw [if_pos h2, if_pos (by rw [List.length_append]; omega)]
        simp
      · have hi : i < d.length := by omega
        rw [if_neg h2, if_neg (by rw [List.length_append]; omega),
          List.getElem?_append_right (by omega)]
        have e : pre.length + i - pre.length = i := by omega
        rw [e, List.getElem?_eq_getElem hi, Option.some_bind, Option.some_bind]
        simp only []
        by_cases h3 : d[i].val < 0x80
        · rw [if_pos h3, if_pos h3]
          simp [Nat.add_assoc]
        · rw [if_neg h3, if_neg h3, ← ih pre d (i + 1)]
          rfl

theorem decodeVarint_shift (pre d : List Byte) (i : Nat) (r : VarintResult)
    (h : decodeVarint d i = some r) :
    decodeVarint (pre ++ d) (pre.length + i) = some ⟨r.value, pre.length + r.iNdEx, r.err⟩ := by
  unfold decodeVarint at h ⊢
  rw [decodeVarintLoop_shift, h]
  rfl

theorem skipSwitch_append (q rest : List Byte) (i : Nat) (depth : Int) (wireType : Nat)
    (s : Int × Int × Option GoError) (h : skipSwitch q i depth wireType = some s)
    (he : s.2.2 = none) : skipSwitch (q ++ rest) i depth wireType = some s := by
  unfold skipSwitch at h ⊢
  split_ifs at h ⊢ with w0 w1 w2 w3 w4 w5 w6
  · cases hr : decodeVarint q i with
    | none => rw [hr] at h; simp at h
    | some r =>
      rw [hr, Option.some_bind] at h
      simp only [Option.some.injEq] at h; subst h
      rw [decodeVarint_append q rest i r hr he]
      rfl
  · exact h
  · cases hr : decodeVarint q i with
    | none => rw [hr] at h; simp at h
    | some r =>
      rw [hr, Option.some_bind] at h
      cases hre : r.err with
      | some e => rw [hre] at h; simp only [Option.some.injEq] at h; subst h; simp at he
      | none =>
        rw [decodeVarint_append q rest i r hr hre, Option.some_bind]
        exact h
  · exact h
  · exact h
  · exact h
  · exact h
  · exact h

theorem skipLoop_append (fuel : Nat) :
    ∀ (q rest : List Byte) (i : Nat) (depth n : Int) (k : Nat),
      skipLoop fuel q i depth = some (n, none) →
      skipLoop (fuel + k) (q ++ rest) i depth = some (n, none) := by
  induction fuel with
  | zero => intro q rest i depth n k h; simp [skipLoop] at h
  | succ f ih =>
    intro q rest i depth n k h
    rw [show f + 1 + k = (f + k) + 1 by omega]
    rw [skipLoop] at h ⊢
    simp only at h ⊢
    split_ifs at h with hi
    swap
    · simp at h
    rw [if_pos (by rw [List.length_append]; omega)]
    cases ht : decodeVarint q i with
    | none => rw [ht] at h; simp at h
    | some t =>
      rw [ht, Option.some_bind] at h
      cases hte : t.err with
      | some e => rw [hte] at h; simp at h
      | none =>
        rw [hte] at h
        simp only at h
        rw [decodeVarint_append q rest i t ht hte, Option.some_bind, hte]
        simp only
        cases hs : skipSwitch q t.iNdEx depth (t.value &&& 0x7) with
        | none => rw [hs] at h; simp at h
        | some s =>
          rw [hs, Option.some_bind] at h
          cases hse : s.2.2 with
          | some e => rw [hse] at h; simp at h
          | none =>
            rw [hse] at h
            simp only at h
            rw [skipSwitch_append q rest _ depth _ s hs hse, Option.some_bind, hse]
            simp only
            split_ifs at h ⊢ with hneg hdep
            · simp at h
            · exact h
            · exact ih q rest s.1.toNat s.2.1 n k h

theorem sliceFrom_eq (d : List Byte) (i : Nat) (h : i ≤ d.length) :
    sliceFrom d i = some (d.drop i) := by
  unfold sliceFrom
  rw [slice_eq _ _ _ h (le_refl _)]
  congr 1
  exact List.take_of_length_le (by rw [List.length_drop])

theorem unmarshalUint64Field_append (field : String)
    (set : IBCForwardMetadata → Nat → IBCForwardMetadata) (m : IBCForwardMetadata)
    (wireType : Nat) (p rest : List Byte) (i : Nat) (r : FieldResult)
    (h : unmarshalUint64Field field set m wireType p i = some r) (he : r.err = none) :
    unmarshalUint64Field field set m wireType (p ++ rest) i = some r := by
  unfold unmarshalUint64Field at h ⊢
  split_ifs at h ⊢ with hw
  · simp only [Option.some.injEq] at h; subst h; simp at he
  · cases hr : decodeVarint p i with
    | none => rw [hr] at h; simp at h
    | some v =>
      rw [hr, Option.some_bind] at h
      simp only [Option.some.injEq] at h; subst h
      rw [decodeVarint_append p rest i v hr he]
      rfl

theorem slice_append (p rest : List Byte) (lo hi : Nat) (h1 : lo ≤ hi) (h2 : hi ≤ p.length) :
    slice (p ++ rest) lo hi = slice p lo hi := by
  rw [slice_eq _ _ _ h1 (by rw [List.length_append]; omega), slice_eq _ _ _ h1 h2,
    List.drop_append_of_le_length (by omega),
    List.take_append_of_le_length (by rw [List.length_drop]; omega)]

theorem unmarshalStringField_append (field : String)
    (set : IBCForwardMetadata → List Byte → IBCForwardMetadata) (m : IBCForwardMetadata)
    (wireType : Nat) (p rest : List Byte) (i : Nat) (r : FieldResult)
    (h : unmarshalStringField field set m wireType p i = some r) (he : r.err = none) :
    unmarshalStringField field set m wireType (p ++ rest) i = some r := by
  unfold unmarshalStringField at h ⊢
  simp only at h ⊢
  split_ifs at h with hw
  · simp only [Option.some.injEq] at h; subst h; simp at he
  · rw [if_neg hw]
    cases hr : decodeVarint p i with
    | none => rw [hr] at h; simp at h
    | some v =>
      rw [hr, Option.some_bind] at h
      cases hve : v.err with
      | some e => rw [hve] at h; simp only [Option.some.injEq] at h; subst h; simp at he
      | none =>
        rw [hve] at h
        simp only at h
        rw [decodeVarint_append p rest i v hr hve, Option.some_bind, hve]
        simp only
        have hp := decodeVarint_progress p i v hr hve
        split_ifs at h with h1 h2 h3
        · simp only [Option.some.injEq] at h; subst h; simp at he
        · simp only [Option.some.injEq] at h; subst h; simp at he
        · simp only [Option.some.injEq] at h; subst h; simp at he
        · rw [if_neg h1, if_neg h2, if_neg (by rw [List.length_append]; push_cast; omega)]
          cases hsl : slice p v.iNdEx (wrapInt64 ((v.iNdEx : Int) + wrapInt64 v.value)).toNat with
          | none => rw [hsl] at h; simp at h
          | some s =>
            have hlo : v.iNdEx ≤ (wrapInt64 ((v.iNdEx : Int) + wrapInt64 v.value)).toNat := by
              unfold slice at hsl
              split_ifs at hsl with hc
              exact hc.1
            rw [slice_append p rest _ _ hlo (by omega), hsl]
            rw [hsl] at h
            exact h

theorem unmarshalUnknownField_append (m : IBCForwardMetadata) (p rest : List Byte) (i : Nat)
    (r : FieldResult) (hi : i ≤ p.length)
    (h : unmarshalUnknownField m p i = some r) (he : r.err = none) :
    unmarshalUnknownField m (p ++ rest) i = some r := by
  unfold unmarshalUnknownField at h ⊢
  simp only at h ⊢
  rw [sliceFrom_eq p i hi, Option.some_bind] at h
  rw [sliceFrom_eq _ i (by rw [List.length_append]; omega), Option.some_bind,
    List.drop_append_of_le_length hi]
  cases hs : skipIbcForwardMetadata (List.drop i p) with
  | none => rw [hs] at h; simp at h
  | some sk =>
    rw [hs, Option.some_bind] at h
    obtain ⟨skippy, err⟩ := sk
    cases err with
    | some e => simp only [Option.some.injEq] at h; subst h; simp at he
    | none =>
      simp only at h
      have hs' : skipIbcForwardMetadata (List.drop i p ++ rest) = some (skippy, none) := by
        unfold skipIbcForwardMetadata at hs ⊢
        have := skipLoop_append _ (List.drop i p) rest 0 0 skippy rest.length hs
        rw [List.length_append, show (List.drop i p).length + rest.length + 1 =
          (List.drop i p).length + 1 + rest.length by omega]
        exact this
      rw [hs', Option.some_bind]
      simp only
      split_ifs at h with h1 h2
      · simp only [Option.some.injEq] at h; subst h; simp at he
      · simp only [Option.some.injEq] at h; subst h; simp at he
      · rw [if_neg h1, if_neg (by rw [List.length_append]; push_cast; omega)]
        exact h

/-- An iteration of the outer loop of `Unmarshal` that returns no error does
the same on every extension of the buffer. -/
theorem unmarshalField_append (m : IBCForwardMetadata) (p rest : List Byte) (i : Nat)
    (r : FieldResult) (hi : i ≤ p.length)
    (h : m.unmarshalField p i = some r) (he : r.err = none) :
    m.unmarshalField (p ++ rest) i = some r := by
  unfold IBCForwardMetadata.unmarshalField at h ⊢
  simp only at h ⊢
  cases ht : decodeVarint p i with
  | none => rw [ht] at h; simp at h
  | some t =>
    rw [ht, Option.some_bind] at h
    cases hte : t.err with
    | some e => rw [hte] at h; simp only [Option.some.injEq] at h; subst h; simp at he
    | none =>
      rw [hte] at h
      simp only at h
      rw [decodeVarint_append p rest i t ht hte, Option.some_bind, hte]
      simp only
      split_ifs at h ⊢
      · simp only [Option.some.injEq] at h; subst h; simp at he
      · simp only [Option.some.injEq] at h; subst h; simp at he
      · exact unmarshalUint64Field_append _ _ _ _ _ _ _ _ h he
      · exact unmarshalStringField_append _ _ _ _ _ _ _ _ h he
      · exact unmarshalStringField_append _ _ _ _ _ _ _ _ h he
      · exact unmarshalStringField_append _ _ _ _ _ _ _ _ h he
      · exact unmarshalStringField_append _ _ _ _ _ _ _ _ h he
      · exact unmarshalUint64Field_append _ _ _ _ _ _ _ _ h he
      · exact unmarshalUnknownField_append m p rest i r hi h he


theorem AtLoopHead_of_unmarshalLoop_append (m₀ m : IBCForwardMetadata) (p rest : List Byte)
    (fuel : Nat) :
    ∀ (m₁ : IBCForwardMetadata) (i : Nat),
      IBCForwardMetadata.unmarshalLoop fuel m₁ p i = some (m, none) →
      IBCForwardMetadata.AtLoopHead m₀ (p ++ rest) i m₁ →
      IBCForwardMetadata.AtLoopHead m₀ (p ++ rest) p.length m := by
  induction fuel with
  | zero => intro m₁ i h; simp [IBCForwardMetadata.unmarshalLoop] at h
  | succ f ih =>
    intro m₁ i h hat
    rw [IBCForwardMetadata.unmarshalLoop] at h
    split_ifs at h with h1 h2
    · cases hr : m₁.unmarshalField p i with
      | none => rw [hr] at h; simp at h
      | some r =>
        rw [hr, Option.some_bind] at h
        cases hre : r.err with
        | some e => rw [hre] at h; simp at h
        | none =>
          rw [hre] at h
          simp only at h
          have hstep := unmarshalField_append m₁ p rest i r (by omega) hr hre
          exact ih r.m r.iNdEx h
            (IBCForwardMetadata.AtLoopHead.step hat (by rw [List.length_append]; omega) hstep hre)
    · simp at h
    · simp only [Option.some.injEq, Prod.mk.injEq, and_true] at h
      subst h
      have : i = p.length := by omega
      subst this
      exact hat

/-- When `Unmarshal` accepts a buffer `p`, then on every buffer that starts
with `p` it stands at a loop head after `p`, with the record decoded from `p`. -/
theorem AtLoopHead_of_Unmarshal_accepted (m₀ m : IBCForwardMetadata) (p rest : List Byte)
    (h : m₀.Unmarshal p = some (m, none)) :
    IBCForwardMetadata.AtLoopHead m₀ (p ++ rest) p.length m :=
  AtLoopHead_of_unmarshalLoop_append m₀ m p rest _ m₀ 0 h IBCForwardMetadata.AtLoopHead.start

theorem Unmarshal_of_AtLoopHead_error (m₀ m : IBCForwardMetadata) (d : List Byte) (i : Nat)
    (r : FieldResult) (e : GoError) (hl : d.length < 2 ^ 63)
    (hat : IBCForwardMetadata.AtLoopHead m₀ d i m) (hi : i < d.length)
    (hstep : m.unmarshalField d i = some r) (hre : r.err = some e) :
    m₀.Unmarshal d = some (r.m, some e) := by
  obtain ⟨k, hk, hloop⟩ := unmarshalLoop_of_AtLoopHead m₀ m d i hl hat
  unfold IBCForwardMetadata.Unmarshal
  obtain ⟨f, hf⟩ : ∃ f, d.length + 1 = f + 1 + k := ⟨d.length - k, by omega⟩
  rw [hf, hloop (f + 1), IBCForwardMetadata.unmarshalLoop]
  simp only [if_pos hi, hstep, Option.some_bind, hre]

theorem Unmarshal_of_AtLoopHead_end (m₀ m : IBCForwardMetadata) (d : List Byte)
    (hl : d.length < 2 ^ 63) (hat : IBCForwardMetadata.AtLoopHead m₀ d d.length m) :
    m₀.Unmarshal d = some (m, none) := by
  obtain ⟨k, hk, hloop⟩ := unmarshalLoop_of_AtLoopHead m₀ m d d.length hl hat
  unfold IBCForwardMetadata.Unmarshal
  obtain ⟨f, hf⟩ : ∃ f, d.length + 1 = f + 1 + k := ⟨d.length - k, by omega⟩
  rw [hf, hloop (f + 1)]
  exact unmarshalLoop_end f m d

/-- A varint loop that only meets bytes with the continuation bit up to the
end of the buffer returns an error. -/
theorem decodeVarintLoop_continuation (cont : List Byte) :
    ∀ (pre : List Byte) (fuel shift acc : Nat), (∀ b ∈ cont, 128 ≤ b.val) →
      1 ≤ fuel → 71 ≤ shift + 7 * fuel →
      ∃ r, decodeVarintLoop fuel (pre ++ cont) pre.length shift acc = some r ∧
        r.err ≠ none := by
  induction cont with
  | nil =>
    intro pre fuel shift acc _ hf hs
    obtain ⟨f, rfl⟩ : ∃ f, fuel = f + 1 := ⟨fuel - 1, by omega⟩
    rw [decodeVarintLoop]
    by_cases h1 : shift ≥ 64
    · rw [if_pos h1]; exact ⟨_, rfl, by simp⟩
    · rw [if_neg h1, if_pos (by simp)]; exact ⟨_, rfl, by simp⟩
  | cons b cs ih =>
    intro pre fuel shift acc hall hf hs
    obtain ⟨f, rfl⟩ : ∃ f, fuel = f + 1 := ⟨fuel - 1, by omega⟩
    rw [decodeVarintLoop]
    by_cases h1 : shift ≥ 64
    · rw [if_pos h1]; exact ⟨_, rfl, by simp⟩
    · have hb : 128 ≤ b.val := hall b (by simp)
      rw [if_neg h1, if_neg (by simp), getElem?_append_cons, Option.some_bind]
      simp only []
      rw [if_neg (by omega)]
      have hpre : pre.length + 1 = (pre ++ [b]).length := by simp
      have hlist : pre ++ b :: cs = (pre ++ [b]) ++ cs := by simp
      rw [hpre, hlist]
      exact ih (pre ++ [b]) f (shift + 7) _ (fun x hx => hall x (by simp [hx])) (by omega)
        (by omega)

theorem decodeVarint_continuation (pre cont : List Byte) (h : ∀ b ∈ cont, 128 ≤ b.val) :
    ∃ r, decodeVarint (pre ++ cont) pre.length = some r ∧ r.err ≠ none :=
  decodeVarintLoop_continuation cont pre 11 0 0 h (by norm_num) (by norm_num)

theorem unmarshalField_truncated_string (m : IBCForwardMetadata) (p cont : List Byte)
    (tag : Byte) (htag : tag = 0x12 ∨ tag = 0x1a ∨ tag = 0x22 ∨ tag = 0x2a)
    (hcont : ∀ b ∈ cont, 128 ≤ b.val) :
    ∃ r e, m.unmarshalField (p ++ tag :: cont) p.length = some r ∧ r.m = m ∧
      r.err = some e := by
  obtain ⟨v, hv, hve⟩ := decodeVarint_continuation (p ++ [tag]) cont hcont
  have hlist : (p ++ [tag]) ++ cont = p ++ tag :: cont := by simp
  have hlen : (p ++ [tag]).length = p.length + 1 := by simp
  rw [hlist, hlen] at hv
  obtain ⟨e, he⟩ : ∃ e, v.err = some e := by
    cases h : v.err with
    | none => exact absurd h hve
    | some e => exact ⟨e, rfl⟩
  have key : ∀ (field : String) (set : IBCForwardMetadata → List Byte → IBCForwardMetadata),
      unmarshalStringField field set m 2 (p ++ tag :: cont) (p.length + 1) =
        some ⟨m, v.iNdEx, some e⟩ := by
    intro field set
    unfold unmarshalStringField
    simp only
    rw [if_neg (by simp), hv, Option.some_bind, he]
  rcases htag with h | h | h | h <;> subst h
  · rw [unmarshalField_tag m p _ 0x12 (by decide)]
    simp only []
    rw [if_neg (by decide), if_neg (by decide), if_neg (by decide), if_pos (by decide)]
    exact ⟨_, e, key _ _, rfl, rfl⟩
  · rw [unmarshalField_tag m p _ 0x1a (by decide)]
    simp only []
    rw [if_neg (by decide), if_neg (by decide), if_neg (by decide), if_neg (by decide),
      if_pos (by decide)]
    exact ⟨_, e, key _ _, rfl, rfl⟩
  · rw [unmarshalField_tag m p _ 0x22 (by decide)]
    simp only []
    rw [if_neg (by decide), if_neg (by decide), if_neg (by decide), if_neg (by decide),
      if_neg (by decide), if_pos (by decide)]
    exact ⟨_, e, key _ _, rfl, rfl⟩
  · rw [unmarshalField_tag m p _ 0x2a (by decide)]
    simp only []
    rw [if_neg (by decide), if_neg (by decide), if_neg (by decide), if_neg (by decide),
      if_neg (by decide), if_neg (by decide), if_pos (by decide)]
    exact ⟨_, e, key _ _, rfl, rfl⟩

theorem unmarshalField_truncated_uint64 (m : IBCForwardMetadata) (p cont : List Byte)
    (tag : Byte) (htag : tag = 0x08 ∨ tag = 0x30) (hcont : ∀ b ∈ cont, 128 ≤ b.val) :
    ∃ r e, m.unmarshalField (p ++ tag :: cont) p.length = some r ∧ r.err = some e := by
  obtain ⟨v, hv, hve⟩ := decodeVarint_continuation (p ++ [tag]) cont hcont
  have hlist : (p ++ [tag]) ++ cont = p ++ tag :: cont := by simp
  have hlen : (p ++ [tag]).length = p.length + 1 := by simp
  rw [hlist, hlen] at hv
  obtain ⟨e, he⟩ : ∃ e, v.err = some e := by
    cases h : v.err with
    | none => exact absurd h hve
    | some e => exact ⟨e, rfl⟩
  have key : ∀ (field : String) (set : IBCForwardMetadata → Nat → IBCForwardMetadata),
      unmarshalUint64Field field set m 0 (p ++ tag :: cont) (p.length + 1) =
        some ⟨set m v.value, v.iNdEx, some e⟩ := by
    intro field set
    unfold unmarshalUint64Field
    rw [if_neg (by simp), hv, Option.some_bind, he]
  rcases htag with h | h <;> subst h
  · rw [unmarshalField_tag m p _ 0x08 (by decide)]
    simp only []
    rw [if_neg (by decide), if_neg (by decide), if_pos (by decide)]
    exact ⟨_, e, key _ _, rfl⟩
  · rw [unmarshalField_tag m p _ 0x30 (by decide)]
    simp only []
    rw [if_neg (by decide), if_neg (by decide), if_neg (by decide), if_neg (by decide),
      if_neg (by decide), if_neg (by decide), if_neg (by decide), if_pos (by decide)]
    exact ⟨_, e, key _ _, rfl⟩

theorem unmarshalField_truncated_tag (m : IBCForwardMetadata) (p cont : List Byte)
    (hcont : ∀ b ∈ cont, 128 ≤ b.val) :
    ∃ r e, m.unmarshalField (p ++ cont) p.length = some r ∧ r.m = m ∧ r.err = some e := by
  obtain ⟨v, hv, hve⟩ := decodeVarint_continuation p cont hcont
  obtain ⟨e, he⟩ : ∃ e, v.err = some e := by
    cases h : v.err with
    | none => exact absurd h hve
    | some e => exact ⟨e, rfl⟩
  refine ⟨⟨m, v.iNdEx, some e⟩, e, ?_, rfl, rfl⟩
  unfold IBCForwardMetadata.unmarshalField
  simp only
  rw [hv, Option.some_bind, he]

/-- C11: let `Unmarshal` accept the prefix `p` and decode it to `m`, and let
`cont` consist only of bytes with the continuation bit `0x80` (possibly no
byte at all). Then `Unmarshal` returns an error on `p` followed by a tag byte
of a length-delimited field and `cont` (a truncated length prefix), on `p`
followed by the tag byte of `Nonce` or `TimeoutInNanoseconds` and `cont` (the
buffer ends inside the value varint), and on `p` followed by a non-empty
`cont` (the buffer ends inside a tag varint). -/
theorem Unmarshal_rejects_truncated_varint (m₀ m : IBCForwardMetadata) (p cont : List Byte)
    (tag : Byte) (hp : m₀.Unmarshal p = some (m, none)) (hcont : ∀ b ∈ cont, 128 ≤ b.val)
    (hlen : p.length + 1 + cont.length < 2 ^ 63) :
    (tag = 0x12 ∨ tag = 0x1a ∨ tag = 0x22 ∨ tag = 0x2a →
      ∃ e, m₀.Unmarshal (p ++ tag :: cont) = some (m, some e)) ∧
    (tag = 0x08 ∨ tag = 0x30 →
      ∃ m' e, m₀.Unmarshal (p ++ tag :: cont) = some (m', some e)) ∧
    (cont ≠ [] → ∃ e, m₀.Unmarshal (p ++ cont) = some (m, some e)) := by
  refine ⟨fun htag => ?_, fun htag => ?_, fun hne => ?_⟩
  · obtain ⟨r, e, hr, hm, he⟩ := unmarshalField_truncated_string m p cont tag htag hcont
    have := Unmarshal_of_AtLoopHead_error m₀ m (p ++ tag :: cont) p.length r e
      (by simp only [List.length_append, List.length_cons]; omega)
      (AtLoopHead_of_Unmarshal_accepted m₀ m p _ hp) (by simp) hr he
    rw [hm] at this
    exact ⟨e, this⟩
  · obtain ⟨r, e, hr, he⟩ := unmarshalField_truncated_uint64 m p cont tag htag hcont
    exact ⟨r.m, e, Unmarshal_of_AtLoopHead_error m₀ m (p ++ tag :: cont) p.length r e
      (by simp only [List.length_append, List.length_cons]; omega)
      (AtLoopHead_of_Unmarshal_accepted m₀ m p _ hp) (by simp) hr he⟩
  · obtain ⟨r, e, hr, hm, he⟩ := unmarshalField_truncated_tag m p cont hcont
    have hpos : 0 < cont.length := List.length_pos.mpr hne
    have := Unmarshal_of_AtLoopHead_error m₀ m (p ++ cont) p.length r e
      (by simp only [List.length_append]; omega)
      (AtLoopHead_of_Unmarshal_accepted m₀ m p _ hp) (by simp; omega) hr he
    rw [hm] at this
    exact ⟨e, this⟩

theorem Unmarshal_rejects_truncated_varint_witness :
    IBCForwardMetadata.Reset.Unmarshal [0x08, 0x07] = some (⟨7, [], [], [], [], 0⟩, none) ∧
      (∃ e, IBCForwardMetadata.Reset.Unmarshal ([0x08, 0x07] ++ 0x12 :: [0x80, 0x81]) =
        some (⟨7, [], [], [], [], 0⟩, some e)) ∧
      (∃ e, IBCForwardMetadata.Reset.Unmarshal ([0x08, 0x07] ++ [0x80, 0x81]) =
        some (⟨7, [], [], [], [], 0⟩, some e)) :=
  have hp : IBCForwardMetadata.Reset.Unmarshal [0x08, 0x07] =
      some (⟨7, [], [], [], [], 0⟩, none) := by decide
  have h := Unmarshal_rejects_truncated_varint IBCForwardMetadata.Reset ⟨7, [], [], [], [], 0⟩
    [0x08, 0x07] [0x80, 0x81] 0x12 hp
    (by intro b hb; simp only [List.mem_cons, List.mem_nil_iff, or_false] at hb
        rcases hb with rfl | rfl <;> decide)
    (by norm_num)
  ⟨hp, h.1 (Or.inl rfl), h.2.2 (by decide)⟩


/-! ## Unknown fields -/

theorem skipSwitch_wellFormed (tag payload : List Byte) (wireType : Nat)
    (hpay : WellFormedPayload wireType payload) (hl : (tag ++ payload).length < 2 ^ 63) :
    skipSwitch (tag ++ payload) tag.length 0 wireType =
      some (((tag ++ payload).length : Int), 0, none) := by
  have hl' : tag.length + payload.length < 2 ^ 63 := by
    simpa [List.length_append] using hl
  unfold skipSwitch
  rcases hpay with ⟨hw, v, hv⟩ | ⟨hw, hp⟩ | ⟨hw, lp, body, hpb, hv⟩ | ⟨hw, hp⟩
  · subst hw
    have := decodeVarint_shift tag payload 0 _ hv
    rw [Nat.add_zero] at this
    rw [if_pos rfl, this, Option.some_bind]
    simp
  · subst hw
    rw [if_neg (by decide), if_pos rfl,
      wrapInt64_of_nonneg_lt _ (by omega) (by omega)]
    simp only [List.length_append, hp]
    push_cast
    rfl
  · subst hw hpb
    have h1 := decodeVarint_append lp body 0 _ hv rfl
    have h2 := decodeVarint_shift tag (lp ++ body) 0 _ h1
    rw [Nat.add_zero] at h2
    simp only [List.length_append] at hl'
    rw [if_neg (by decide), if_neg (by decide), if_pos rfl, h2, Option.some_bind]
    simp only
    rw [wrapInt64_of_nonneg_lt (body.length : Int) (by omega) (by omega),
      if_neg (by omega), wrapInt64_of_nonneg_lt _ (by omega) (by omega)]
    simp only [List.length_append]
    push_cast
    simp [Int.add_assoc]
  · subst hw
    rw [if_neg (by decide), if_neg (by decide), if_neg (by decide), if_neg (by decide),
      if_neg (by decide), if_pos rfl, wrapInt64_of_nonneg_lt _ (by omega) (by omega)]
    simp only [List.length_append, hp]
    push_cast
    rfl

theorem skipIbcForwardMetadata_wellFormed (tag payload : List Byte) (wire : Nat)
    (htag : IsVarint tag wire) (hpay : WellFormedPayload (wire &&& 0x7) payload)
    (hl : (tag ++ payload).length < 2 ^ 63) :
    skipIbcForwardMetadata (tag ++ payload) = some (((tag ++ payload).length : Int), none) := by
  have hpos : 0 < tag.length := by
    have := decodeVarint_progress tag 0 _ htag rfl
    simpa using this.1
  have ht := decodeVarint_append tag payload 0 _ htag rfl
  unfold skipIbcForwardMetadata
  rw [skipLoop]
  simp only
  rw [if_pos (by rw [List.length_append]; omega), ht, Option.some_bind]
  simp only
  rw [skipSwitch_wellFormed tag payload _ hpay hl, Option.some_bind]
  simp only
  rw [if_neg (by omega)]
  simp

/-- A well-formed field with an unknown field number is consumed by one
iteration of the outer loop of `Unmarshal`, which leaves the record as it is. -/
theorem unmarshalField_unknown (m : IBCForwardMetadata) (p tag payload : List Byte) (wire : Nat)
    (htag : IsVarint tag wire) (hfn : (7 : Int) ≤ wrapInt32 ((wire >>> 3 : Nat) : Int))
    (hpay : WellFormedPayload (wire &&& 0x7) payload)
    (hlen : (p ++ (tag ++ payload)).length < 2 ^ 63) :
    m.unmarshalField (p ++ (tag ++ payload)) p.length =
      some ⟨m, (p ++ (tag ++ payload)).length, none⟩ := by
  have hl' : p.length + (tag ++ payload).length < 2 ^ 63 := by
    simpa [List.length_append] using hlen
  have ht := decodeVarint_append tag payload 0 _ htag rfl
  have htd := decodeVarint_shift p (tag ++ payload) 0 _ ht
  rw [Nat.add_zero] at htd
  have hwt : wire &&& 0x7 ≠ 4 := by
    rcases hpay with ⟨hw, _⟩ | ⟨hw, _⟩ | ⟨hw, _⟩ | ⟨hw, _⟩ <;> rw [hw] <;> decide
  have hunk : unmarshalUnknownField m (p ++ (tag ++ payload)) p.length =
      some ⟨m, (p ++ (tag ++ payload)).length, none⟩ := by
    unfold unmarshalUnknownField
    simp only
    rw [sliceFrom_eq _ _ (by rw [List.length_append]; omega), Option.some_bind,
      List.drop_left, skipIbcForwardMetadata_wellFormed tag payload wire htag hpay (by omega),
      Option.some_bind]
    simp only
    have hw : wrapInt64 ((p.length : Int) + ((tag ++ payload).length : Int)) =
        ((p ++ (tag ++ payload)).length : Int) := by
      rw [wrapInt64_of_nonneg_lt _ (by omega) (by omega), List.length_append p]
      push_cast
      rfl
    rw [hw, if_neg (by omega), if_neg (by omega), Int.toNat_natCast]
  unfold IBCForwardMetadata.unmarshalField
  simp only
  rw [htd, Option.some_bind]
  simp only
  rw [if_neg hwt, if_neg (by omega), if_neg (by omega), if_neg (by omega),
    if_neg (by omega), if_neg (by omega), if_neg (by omega), if_neg (by omega)]
  exact hunk

/-- On the fields of protobuf, whose numbers are below `2 ^ 31`, the field
number the decoder reads, `int32(wire >> 3)`, is the field number itself. -/
theorem wrapInt32_fieldNum (wire : Nat) (h : wire >>> 3 < 2 ^ 31) :
    wrapInt32 ((wire >>> 3 : Nat) : Int) = ((wire >>> 3 : Nat) : Int) := by
  unfold wrapInt32
  omega

/-- C12 (counterexample): two fields of the shape the claim describes, with a
field number outside 1..6, that are not skipped. After the accepted buffer
`08 07`, the field `00 00` (field number 0, a complete varint payload) makes
`Unmarshal` return the illegal-tag error; the field `92 80 80 80 80 01 01 41`
(field number `2 ^ 32 + 2`, length-delimited, one byte) is read as field 2
after the conversion to `int32` and changes `Port`. -/
theorem Unmarshal_unknown_field_not_skipped :
    IBCForwardMetadata.Reset.Unmarshal [0x08, 0x07] = some (⟨7, [], [], [], [], 0⟩, none) ∧
      (IsVarint [0x00] 0 ∧ 0 >>> 3 = 0 ∧ WellFormedPayload (0 &&& 0x7) [0x00] ∧
        IBCForwardMetadata.Reset.Unmarshal ([0x08, 0x07] ++ ([0x00] ++ [0x00])) =
          some (⟨7, [], [], [], [], 0⟩,
            some (.ErrorfIllegalTag "IBCForwardMetadata" 0 0))) ∧
      (IsVarint [0x92, 0x80, 0x80, 0x80, 0x80, 0x01] (2 ^ 35 + 18) ∧
        (2 ^ 35 + 18) >>> 3 = 2 ^ 32 + 2 ∧
        WellFormedPayload ((2 ^ 35 + 18) &&& 0x7) [0x01, 0x41] ∧
        IBCForwardMetadata.Reset.Unmarshal
            ([0x08, 0x07] ++ ([0x92, 0x80, 0x80, 0x80, 0x80, 0x01] ++ [0x01, 0x41])) =
          some (⟨7, [0x41], [], [], [], 0⟩, none)) :=
  ⟨by decide,
    ⟨by decide, by decide, Or.inl ⟨by decide, 0, by decide⟩, by decide⟩,
    ⟨by decide, by decide,
      Or.inr (Or.inr (Or.inl ⟨by decide, [0x01], [0x41], rfl, by decide⟩)), by decide⟩⟩

/-- C12 (amended): let `Unmarshal` decode the buffer `p` to the record `m`, and
let `f` be a well-formed field whose field number, as the decoder reads it
(`int32(wire >> 3)`), is 7 or more: a tag that is one complete varint,
followed by a complete varint, 8 bytes, 4 bytes, or a length prefix with as
many bytes as it declares. Then `Unmarshal (p ++ f)` returns the same record
`m` and no error. This covers every field number from 7 to `2 ^ 31 - 1`. -/
theorem Unmarshal_skips_unknown_field (m₀ m : IBCForwardMetadata)
    (p tag payload : List Byte) (wire : Nat)
    (hp : m₀.Unmarshal p = some (m, none)) (htag : IsVarint tag wire)
    (hfn : (7 : Int) ≤ wrapInt32 ((wire >>> 3 : Nat) : Int))
    (hpay : WellFormedPayload (wire &&& 0x7) payload)
    (hlen : (p ++ (tag ++ payload)).length < 2 ^ 63) :
    m₀.Unmarshal (p ++ (tag ++ payload)) = some (m, none) := by
  have hat := AtLoopHead_of_Unmarshal_accepted m₀ m p (tag ++ payload) hp
  have hpos : 0 < tag.length := by
    have := decodeVarint_progress tag 0 _ htag rfl
    simpa using this.1
  have hstep := unmarshalField_unknown m p tag payload wire htag hfn hpay hlen
  have hat' := IBCForwardMetadata.AtLoopHead.step hat
    (by simp only [List.length_append]; omega) hstep rfl
  exact Unmarshal_of_AtLoopHead_end m₀ m _ hlen hat'

theorem Unmarshal_skips_unknown_field_witness :
    IBCForwardMetadata.Reset.Unmarshal [0x08, 0x07] = some (⟨7, [], [], [], [], 0⟩, none) ∧
      IsVarint [0x3a] 0x3a ∧ IsVarint [0xc0, 0x3e] 8000 ∧ IsVarint [0x3d] 0x3d ∧
      IBCForwardMetadata.Reset.Unmarshal ([0x08, 0x07] ++ ([0x3a] ++ [0x02, 0x41, 0x42])) =
        some (⟨7, [], [], [], [], 0⟩, none) ∧
      IBCForwardMetadata.Reset.Unmarshal ([0x08, 0x07] ++ ([0xc0, 0x3e] ++ [0x96, 0x01])) =
        some (⟨7, [], [], [], [], 0⟩, none) ∧
      IBCForwardMetadata.Reset.Unmarshal ([0x08, 0x07] ++ ([0x3d] ++ [0x01, 0x02, 0x03, 0x04])) =
        some (⟨7, [], [], [], [], 0⟩, none) :=
  have hp : IBCForwardMetadata.Reset.Unmarshal [0x08, 0x07] =
      some (⟨7, [], [], [], [], 0⟩, none) := by decide
  ⟨hp, by decide, by decide, by decide,
    Unmarshal_skips_unknown_field _ _ [0x08, 0x07] [0x3a] [0x02, 0x41, 0x42] 0x3a hp
      (by decide) (by decide)
      (Or.inr (Or.inr (Or.inl ⟨by decide, [0x02], [0x41, 0x42], rfl, by decide⟩)))
      (by norm_num),
    Unmarshal_skips_unknown_field _ _ [0x08, 0x07] [0xc0, 0x3e] [0x96, 0x01] 8000 hp
      (by decide) (by decide) (Or.inl ⟨by decide, 150, by decide⟩) (by norm_num),
    Unmarshal_skips_unknown_field _ _ [0x08, 0x07] [0x3d] [0x01, 0x02, 0x03, 0x04] 0x3d hp
      (by decide) (by decide) (Or.inr (Or.inr (Or.inr ⟨by decide, rfl⟩))) (by norm_num)⟩

/-! ## Decoding the bytes written for a stored record -/

theorem or_mod_two_pow_32 (a b : Nat) : (a ||| b) % 2 ^ 32 = a % 2 ^ 32 ||| b % 2 ^ 32 := by
  apply Nat.eq_of_testBit_eq
  intro i
  simp only [Nat.testBit_mod_two_pow, Nat.testBit_or]
  by_cases h : i < 32 <;> simp [h]

/-- The `uint32` varint loop computes the low 32 bits of what the `uint64`
loop computes: both read the same bytes and stop at the same place. -/
theorem decodeVarint32Loop_eq (fuel : Nat) :
    ∀ (d : List Byte) (i shift a : Nat),
      decodeVarint32Loop fuel d i shift (a % 2 ^ 32) =
        (decodeVarintLoop fuel d i shift a).map
          fun r => ⟨r.value % 2 ^ 32, r.iNdEx, r.err⟩ := by
  induction fuel with
  | zero => intro d i shift a; rfl
  | succ n ih =>
    intro d i shift a
    rw [decodeVarint32Loop, decodeVarintLoop]
    by_cases h1 : shift ≥ 64
    · rw [if_pos h1, if_pos h1]; rfl
    · rw [if_neg h1, if_neg h1]
      by_cases h2 : i ≥ d.length
      · rw [if_pos h2, if_pos h2]; rfl
      · rw [if_neg h2, if_neg h2]
        cases hb : d[i]? with
        | none => rfl
        | some b =>
          simp only [Option.some_bind]
          have hv : a % 2 ^ 32 ||| uint32 ((b.val &&& 0x7F) <<< shift) =
              (a ||| uint64 ((b.val &&& 0x7F) <<< shift)) % 2 ^ 32 := by
            rw [or_mod_two_pow_32]
            unfold uint32 uint64
            rw [Nat.mod_mod_of_dvd _ (by norm_num : 2 ^ 32 ∣ 2 ^ 64)]
          rw [hv]
          by_cases h3 : b.val < 0x80
          · rw [if_pos h3, if_pos h3]; rfl
          · rw [if_neg h3, if_neg h3]
            exact ih d (i + 1) (shift + 7) _

theorem decodeVarint32_varintBytes (v : Nat) (pre post : List Byte) (hv : v < 2 ^ 32) :
    decodeVarint32 (pre ++ (varintBytes v ++ post)) pre.length =
      some ⟨v, pre.length + sovIbcForwardMetadata v, none⟩ := by
  have h := decodeVarint32Loop_eq 11 (pre ++ (varintBytes v ++ post)) pre.length 0 0
  have hd := decodeVarint_varintBytes v pre post (lt_trans hv (by norm_num))
  unfold decodeVarint at hd
  unfold decodeVarint32
  rw [Nat.zero_mod] at h
  rw [h, hd]
  simp only [Option.map_some']
  rw [Nat.mod_eq_of_lt hv]

theorem readLengthDelimited_varintBytes (s pre post : List Byte)
    (hd : (pre ++ (varintBytes (uint64 s.length) ++ (s ++ post))).length < 2 ^ 63) :
    readLengthDelimited (pre ++ (varintBytes (uint64 s.length) ++ (s ++ post))) pre.length =
      some ⟨s, pre.length + sovIbcForwardMetadata (uint64 s.length) + s.length, none⟩ := by
  have hlen := length_varintBytes (uint64 s.length) (uint64_lt _)
  have hs : s.length < 2 ^ 63 := by
    simp only [List.length_append] at hd
    omega
  have hu : uint64 s.length = s.length := uint64_of_lt _ (by omega)
  unfold readLengthDelimited
  simp only []
  rw [decodeVarint_varintBytes _ pre _ (uint64_lt _), Option.some_bind]
  simp only []
  have hw1 : wrapInt64 ((uint64 s.length : Nat) : Int) = (s.length : Int) := by
    rw [hu]
    exact wrapInt64_of_nonneg_lt _ (Int.natCast_nonneg _) (by omega)
  have hw2 : wrapInt64 (((pre.length + sovIbcForwardMetadata (uint64 s.length) : Nat) : Int) +
      (s.length : Int)) =
      ((pre.length + sovIbcForwardMetadata (uint64 s.length) + s.length : Nat) : Int) := by
    simp only [List.length_append] at hd
    rw [wrapInt64_of_nonneg_lt _ (by omega) (by omega)]
    omega
  rw [hw1, if_neg (by omega), hw2, if_neg (by omega),
    if_neg (by simp only [List.length_append]; omega), Int.toNat_natCast,
    slice_eq _ _ _ (by omega) (by simp only [List.length_append]; omega)]
  have e1 : pre ++ (varintBytes (uint64 s.length) ++ (s ++ post)) =
      (pre ++ varintBytes (uint64 s.length)) ++ (s ++ post) := by simp
  have e2 : pre.length + sovIbcForwardMetadata (uint64 s.length) + s.length -
      (pre.length + sovIbcForwardMetadata (uint64 s.length)) = s.length := by omega
  rw [e2, e1, List.drop_left' (by simp only [List.length_append]; omega), List.take_left' rfl]
  rfl

/-- The dispatch of the stored record's `unmarshalField` on a one-byte tag. -/
theorem storeUnmarshalField_tag (m : StoreIBCForwardMetadata) (pre rest : List Byte) (tag : Byte)
    (h : tag.val < 128) :
    m.unmarshalField (pre ++ tag :: rest) pre.length =
      (let dAtA := pre ++ tag :: rest
       let wire := tag.val
       let iNdEx := pre.length + 1
       let fieldNum := wrapInt32 (wire >>> 3)
       let wireType := wire &&& 0x7
       if wireType = 4 then some ⟨m, iNdEx, some (.ErrorfEndGroup "StoreIBCForwardMetadata")⟩
       else if fieldNum ≤ 0 then
         some ⟨m, iNdEx, some (.ErrorfIllegalTag "StoreIBCForwardMetadata" fieldNum wire)⟩
       else if fieldNum = 1 then unmarshalSourceDomain m wireType dAtA iNdEx
       else if fieldNum = 2 then unmarshalSourceDomainSender m wireType dAtA iNdEx
       else if fieldNum = 3 then unmarshalMetadata m wireType dAtA iNdEx
       else if fieldNum = 4 then unmarshalAckError m wireType dAtA iNdEx
       else unmarshalStoreUnknownField m dAtA pre.length) := by
  unfold StoreIBCForwardMetadata.unmarshalField
  rw [decodeVarint_single tag pre rest h]
  rfl

theorem storeUnmarshalField_SourceDomain (m : StoreIBCForwardMetadata) (pre post : List Byte)
    (v : Nat) (hv : v < 2 ^ 32) :
    m.unmarshalField (pre ++ 0x8 :: (varintBytes v ++ post)) pre.length =
      some ⟨{ m with SourceDomain := v }, pre.length + 1 + sovIbcForwardMetadata v, none⟩ := by
  rw [storeUnmarshalField_tag m pre _ 0x8 (by decide)]
  have e : pre ++ (0x8 : Byte) :: (varintBytes v ++ post) =
      (pre ++ [0x8]) ++ (varintBytes v ++ post) := by simp
  have hl : pre.length + 1 = (pre ++ [(0x8 : Byte)]).length := by simp
  simp only []
  rw [if_neg (by decide), if_neg (by decide), if_pos (by decide), e, hl]
  unfold unmarshalSourceDomain
  rw [if_neg (by decide), decodeVarint32_varintBytes v _ post hv]
  rfl

theorem storeUnmarshalField_SourceDomainSender (m : StoreIBCForwardMetadata)
    (pre post s : List Byte)
    (hd : (pre ++ 0x12 :: (varintBytes (uint64 s.length) ++ (s ++ post))).length < 2 ^ 63) :
    m.unmarshalField (pre ++ 0x12 :: (varintBytes (uint64 s.length) ++ (s ++ post))) pre.length =
      some ⟨{ m with SourceDomainSender := s },
        pre.length + 1 + sovIbcForwardMetadata (uint64 s.length) + s.length, none⟩ := by
  rw [storeUnmarshalField_tag m pre _ 0x12 (by decide)]
  have e : pre ++ (0x12 : Byte) :: (varintBytes (uint64 s.length) ++ (s ++ post)) =
      (pre ++ [0x12]) ++ (varintBytes (uint64 s.length) ++ (s ++ post)) := by simp
  have hl : pre.length + 1 = (pre ++ [(0x12 : Byte)]).length := by simp
  simp only []
  rw [if_neg (by decide), if_neg (by decide), if_neg (by decide), if_pos (by decide), e, hl]
  unfold unmarshalSourceDomainSender
  rw [if_neg (by decide), readLengthDelimited_varintBytes s _ post (by rw [← e]; exact hd)]
  rfl

theorem storeUnmarshalField_Metadata (m : StoreIBCForwardMetadata) (pre post : List Byte)
    (md : IBCForwardMetadata) (hm : m.Metadata = none) (hr : md.Representable)
    (hd : (pre ++ 0x1a :: (varintBytes (uint64 md.Size) ++ (md.wireBytes ++ post))).length
      < 2 ^ 63) :
    m.unmarshalField (pre ++ 0x1a :: (varintBytes (uint64 md.Size) ++ (md.wireBytes ++ post)))
        pre.length =
      some ⟨{ m with Metadata := some md },
        pre.length + 1 + sovIbcForwardMetadata (uint64 md.Size) + md.Size, none⟩ := by
  rw [storeUnmarshalField_tag m pre _ 0x1a (by decide)]
  have e : pre ++ (0x1a : Byte) :: (varintBytes (uint64 md.Size) ++ (md.wireBytes ++ post)) =
      (pre ++ [0x1a]) ++ (varintBytes (uint64 md.Size) ++ (md.wireBytes ++ post)) := by simp
  have hl : pre.length + 1 = (pre ++ [(0x1a : Byte)]).length := by simp
  have hw := length_wireBytes md
  simp only []
  rw [if_neg (by decide), if_neg (by decide), if_neg (by decide), if_neg (by decide),
    if_pos (by decide), e, hl]
  unfold unmarshalMetadata
  have hrd := readLengthDelimited_varintBytes md.wireBytes (pre ++ [0x1a]) post
    (by rw [hw, ← e]; exact hd)
  rw [hw] at hrd
  rw [if_neg (by decide), hrd, Option.some_bind]
  simp only [hm]
  rw [Unmarshal_wireBytes md hr]
  rfl

theorem storeUnmarshalField_AckError (m : StoreIBCForwardMetadata) (pre post : List Byte) :
    m.unmarshalField (pre ++ 0x20 :: 1 :: post) pre.length =
      some ⟨{ m with AckError := true }, pre.length + 2, none⟩ := by
  rw [storeUnmarshalField_tag m pre _ 0x20 (by decide)]
  have e : pre ++ (0x20 : Byte) :: 1 :: post = (pre ++ [0x20]) ++ 1 :: post := by simp
  have hl : pre.length + 1 = (pre ++ [(0x20 : Byte)]).length := by simp
  simp only []
  rw [if_neg (by decide), if_neg (by decide), if_neg (by decide), if_neg (by decide),
    if_neg (by decide), if_pos (by decide), e, hl]
  unfold unmarshalAckError
  have hv : decide (wrapInt64 (((1 : Byte).val : Nat) : Int) ≠ 0) = true := by
    have h1 : wrapInt64 (((1 : Byte).val : Nat) : Int) = 1 := by
      rw [wrapInt64_of_nonneg_lt _ (by simp) (by simp)]
      rfl
    rw [h1]
    decide
  rw [if_neg (by decide), decodeVarint_single 1 _ post (by decide)]
  simp only [Option.some_bind, List.length_append, List.length_singleton, hv]

theorem storeUnmarshalLoop_step (fuel : Nat) (m m' : StoreIBCForwardMetadata) (d : List Byte)
    (i j : Nat) (hi : i < d.length) (h : m.unmarshalField d i = some ⟨m', j, none⟩) :
    StoreIBCForwardMetadata.unmarshalLoop (fuel + 1) m d i =
      StoreIBCForwardMetadata.unmarshalLoop fuel m' d j := by
  rw [StoreIBCForwardMetadata.unmarshalLoop]
  simp only [if_pos hi, h, Option.some_bind]

theorem storeUnmarshalLoop_end (fuel : Nat) (m : StoreIBCForwardMetadata) (d : List Byte) :
    StoreIBCForwardMetadata.unmarshalLoop (fuel + 1) m d d.length = some (m, none) := by
  rw [StoreIBCForwardMetadata.unmarshalLoop]
  simp

/-- A field block in the buffer, present or omitted, is consumed by one
iteration of the decoder loop (or none). -/
theorem storeUnmarshalLoop_block (m m' : StoreIBCForwardMetadata) (d pre block post : List Byte)
    (r : StoreIBCForwardMetadata × Option GoError)
    (hd : d = pre ++ (block ++ post))
    (hstep : block ≠ [] →
      m.unmarshalField d pre.length = some ⟨m', pre.length + block.length, none⟩)
    (hzero : block = [] → m' = m)
    (hrest : ∀ fuel, post.length + 1 ≤ fuel →
      StoreIBCForwardMetadata.unmarshalLoop fuel m' d (pre.length + block.length) = some r) :
    ∀ fuel, block.length + post.length + 1 ≤ fuel →
      StoreIBCForwardMetadata.unmarshalLoop fuel m d pre.length = some r := by
  intro fuel hfuel
  by_cases h0 : block = []
  · have := hrest fuel (by omega)
    rw [hzero h0, h0] at this
    simpa using this
  · have hpos : 0 < block.length := List.length_pos.mpr h0
    obtain ⟨f, rfl⟩ : ∃ f, fuel = f + 1 := ⟨fuel - 1, by omega⟩
    rw [storeUnmarshalLoop_step f m m' d _ _
      (by rw [hd]; simp only [List.length_append]; omega) (hstep h0)]
    exact hrest f (by omega)

/-- Decoding the bytes written for `s` into a fresh record gives back `s`. -/
theorem StoreUnmarshal_wireBytes (s : StoreIBCForwardMetadata) (h : s.Representable) :
    StoreIBCForwardMetadata.Reset.Unmarshal s.wireBytes = some (s, none) := by
  obtain ⟨hsd, hmd, hsz⟩ := h
  have hlen : s.wireBytes.length < 2 ^ 63 := by rw [length_storeWireBytes]; exact hsz
  obtain ⟨sd, sender, mdo, ack⟩ := s
  simp only at hsd hmd
  have hd : (⟨sd, sender, mdo, ack⟩ : StoreIBCForwardMetadata).wireBytes =
      uint64FieldBytes 0x8 sd ++ (stringFieldBytes 0x12 sender ++
        (metadataFieldBytes 0x1a mdo ++ boolFieldBytes 0x20 ack)) := rfl
  generalize h1 : uint64FieldBytes 0x8 sd = f1 at hd
  generalize h2 : stringFieldBytes 0x12 sender = f2 at hd
  generalize h3 : metadataFieldBytes 0x1a mdo = f3 at hd
  generalize h4 : boolFieldBytes 0x20 ack = f4 at hd
  unfold StoreIBCForwardMetadata.Unmarshal
  generalize (⟨sd, sender, mdo, ack⟩ : StoreIBCForwardMetadata).wireBytes = d at hd hlen ⊢
  have s4 : ∀ fuel, ([] : List Byte).length + 1 ≤ fuel →
      StoreIBCForwardMetadata.unmarshalLoop fuel ⟨sd, sender, mdo, ack⟩ d
        ((f1 ++ f2 ++ f3).length + f4.length) = some (⟨sd, sender, mdo, ack⟩, none) := by
    intro fuel hf
    obtain ⟨f, rfl⟩ : ∃ f, fuel = f + 1 := ⟨fuel - 1, by simp at hf; omega⟩
    have hl : (f1 ++ f2 ++ f3).length + f4.length = d.length := by
      rw [hd]; simp only [List.length_append]; omega
    rw [hl]
    exact storeUnmarshalLoop_end f _ d
  have s3 := storeUnmarshalLoop_block ⟨sd, sender, mdo, false⟩ ⟨sd, sender, mdo, ack⟩
    d (f1 ++ f2 ++ f3) f4 [] (⟨sd, sender, mdo, ack⟩, none)
    (by rw [hd]; simp)
    (by
      intro hne
      cases ack with
      | false => rw [← h4] at hne; exact absurd rfl hne
      | true =>
        have h4' : f4 = [0x20, 1] := by rw [← h4]; rfl
        have hd' : d = (f1 ++ f2 ++ f3) ++ 0x20 :: 1 :: [] := by rw [hd, h4']; simp
        rw [hd', storeUnmarshalField_AckError, h4']
        rfl)
    (by
      intro hz
      cases ack with
      | false => rfl
      | true => rw [← h4] at hz; exact absurd hz (by decide))
    s4
  have s2 := storeUnmarshalLoop_block ⟨sd, sender, none, false⟩ ⟨sd, sender, mdo, false⟩
    d (f1 ++ f2) f3 f4 (⟨sd, sender, mdo, ack⟩, none)
    (by rw [hd]; simp)
    (by
      intro hne
      cases mdo with
      | none => rw [← h3] at hne; exact absurd rfl hne
      | some md =>
        have h3' : f3 = 0x1a :: (varintBytes (uint64 md.Size) ++ md.wireBytes) := by
          rw [← h3]; rfl
        have hd' : d = (f1 ++ f2) ++ 0x1a :: (varintBytes (uint64 md.Size) ++
            (md.wireBytes ++ f4)) := by rw [hd, h3']; simp
        have hr : md.Representable := hmd md rfl
        have hstep := storeUnmarshalField_Metadata ⟨sd, sender, none, false⟩ (f1 ++ f2) f4 md
          rfl hr (by rw [← hd']; exact hlen)
        rw [← hd'] at hstep
        rw [hstep, h3']
        simp only [List.length_cons, List.length_append, length_wireBytes,
          length_varintBytes _ (uint64_lt _)]
        congr 2
        omega)
    (by
      intro hz
      cases mdo with
      | none => rfl
      | some md => rw [← h3] at hz; exact absurd hz (by simp [metadataFieldBytes]))
    (by
      intro fuel hf
      have := s3 fuel (by simpa using hf)
      simpa [List.length_append, Nat.add_assoc] using this)
  have s1 := storeUnmarshalLoop_block ⟨sd, [], none, false⟩ ⟨sd, sender, none, false⟩
    d f1 f2 (f3 ++ f4) (⟨sd, sender, mdo, ack⟩, none)
    (by rw [hd])
    (by
      intro hne
      have hpos : sender.length > 0 := by
        by_contra hc
        apply hne
        rw [← h2]
        simp [stringFieldBytes, hc]
      have h2' : f2 = 0x12 :: (varintBytes (uint64 sender.length) ++ sender) := by
        rw [← h2]; simp [stringFieldBytes, hpos]
      have hd' : d = f1 ++ 0x12 :: (varintBytes (uint64 sender.length) ++
          (sender ++ (f3 ++ f4))) := by rw [hd, h2']; simp
      have hstep := storeUnmarshalField_SourceDomainSender ⟨sd, [], none, false⟩ f1 (f3 ++ f4)
        sender (by rw [← hd']; exact hlen)
      rw [← hd'] at hstep
      rw [hstep, h2']
      simp only [List.length_cons, List.length_append, length_varintBytes _ (uint64_lt _)]
      congr 2
      omega)
    (by
      intro hz
      have : sender = [] := by
        by_contra hc
        have hpos : sender.length > 0 := List.length_pos.mpr hc
        rw [← h2] at hz
        simp [stringFieldBytes, hpos] at hz
      rw [this])
    (by
      intro fuel hf
      have := s2 fuel (by simpa [Nat.add_assoc] using hf)
      simpa [List.length_append, Nat.add_assoc] using this)
  have s0 := storeUnmarshalLoop_block StoreIBCForwardMetadata.Reset ⟨sd, [], none, false⟩
    d [] f1 (f2 ++ (f3 ++ f4)) (⟨sd, sender, mdo, ack⟩, none)
    (by rw [hd]; simp)
    (by
      intro hne
      have hnz : sd ≠ 0 := by
        intro hc
        apply hne
        rw [← h1]
        simp [uint64FieldBytes, hc]
      have hu : uint64 sd = sd := uint64_of_lt _ (lt_trans hsd (by norm_num))
      have h1' : f1 = 0x8 :: varintBytes sd := by
        rw [← h1]; simp [uint64FieldBytes, hnz, hu]
      have hd' : d = [] ++ 0x8 :: (varintBytes sd ++ (f2 ++ (f3 ++ f4))) := by
        rw [hd, h1']; simp
      have hstep := storeUnmarshalField_SourceDomain StoreIBCForwardMetadata.Reset []
        (f2 ++ (f3 ++ f4)) sd hsd
      rw [← hd'] at hstep
      rw [hstep, h1']
      simp only [List.length_cons, List.length_nil,
        length_varintBytes _ (lt_trans hsd (by norm_num : 2 ^ 32 < 2 ^ 64))]
      simp only [StoreIBCForwardMetadata.Reset]
      congr 2
      omega)
    (by
      intro hz
      have : sd = 0 := by
        by_contra hc
        rw [← h1] at hz
        simp [uint64FieldBytes, hc] at hz
      rw [this]
      rfl)
    (by
      intro fuel hf
      have := s1 fuel (by simpa [Nat.add_assoc] using hf)
      simpa using this)
  have := s0 (d.length + 1) (by rw [hd]; simp only [List.length_append]; omega)
  simpa using this

/-- C19: for every stored record `s` of the Go type (`SourceDomain` a `uint32`,
the nested `Metadata` absent or any record with `uint64` numbers, an encoding
that fits a Go slice), `Marshal` returns bytes `x` and no error, and `Unmarshal`
of `x` into a fresh record returns `s` and no error, so the nested `Metadata`
and `AckError` are preserved. The bytes of field 4 are the last two bytes
`20 01` of the encoding of a record with `AckError = true`, and the encoding
of the same record with `AckError = false` is the rest: it has no field-4
bytes, and it decodes back with `AckError = false`. -/
theorem StoreUnmarshal_Marshal (s : StoreIBCForwardMetadata) (h : s.Representable) :
    ∃ x, s.Marshal = some (some x, none) ∧
      StoreIBCForwardMetadata.Reset.Unmarshal x = some (s, none) ∧
      (s.AckError = false →
        ({ s with AckError := true } : StoreIBCForwardMetadata).Marshal =
          some (some (x ++ [0x20, 0x01]), none)) ∧
      (s.AckError = true → ∃ y, x = y ++ [0x20, 0x01] ∧
        ({ s with AckError := false } : StoreIBCForwardMetadata).Marshal =
          some (some y, none)) := by
  refine ⟨s.wireBytes, StoreMarshal_eq s, StoreUnmarshal_wireBytes s h, ?_, ?_⟩
  · intro hb
    rw [StoreMarshal_eq]
    simp [StoreIBCForwardMetadata.wireBytes, boolFieldBytes, hb]
  · intro hb
    refine ⟨({ s with AckError := false } : StoreIBCForwardMetadata).wireBytes, ?_,
      StoreMarshal_eq _⟩
    simp [StoreIBCForwardMetadata.wireBytes, boolFieldBytes, hb]

theorem StoreUnmarshal_Marshal_witness :
    ((⟨4, [0x41, 0x42], some ⟨7, [], [0x63, 0x68], [], [], 0⟩, true⟩ :
        StoreIBCForwardMetadata).Representable ∧
      (⟨4, [0x41, 0x42], some ⟨7, [], [0x63, 0x68], [], [], 0⟩, true⟩ :
        StoreIBCForwardMetadata).Marshal =
        some (some [0x08, 0x04, 0x12, 0x02, 0x41, 0x42, 0x1a, 0x06, 0x08, 0x07, 0x1a, 0x02,
          0x63, 0x68, 0x20, 0x01], none) ∧
      ∃ x, (⟨4, [0x41, 0x42], some ⟨7, [], [0x63, 0x68], [], [], 0⟩, true⟩ :
          StoreIBCForwardMetadata).Marshal = some (some x, none) ∧
        StoreIBCForwardMetadata.Reset.Unmarshal x =
          some (⟨4, [0x41, 0x42], some ⟨7, [], [0x63, 0x68], [], [], 0⟩, true⟩, none)) ∧
    ((⟨2 ^ 32 - 1, [], none, false⟩ : StoreIBCForwardMetadata).Representable ∧
      ∃ x, (⟨2 ^ 32 - 1, [], none, false⟩ : StoreIBCForwardMetadata).Marshal =
          some (some x, none) ∧
        StoreIBCForwardMetadata.Reset.Unmarshal x =
          some (⟨2 ^ 32 - 1, [], none, false⟩, none)) :=
  ⟨⟨by decide, by decide,
      (StoreUnmarshal_Marshal _ (by decide)).imp fun _ hx => ⟨hx.1, hx.2.1⟩⟩,
    ⟨by decide, (StoreUnmarshal_Marshal _ (by decide)).imp fun _ hx => ⟨hx.1, hx.2.1⟩⟩⟩

/-! ## The replay ledger and the orchestrator -/

theorem Record_of_not_mem (ledger : List Mint) (ds : List Byte) (nonce : Nat)
    (h : (⟨ds, nonce⟩ : Mint) ∉ ledger) :
    ReplayLedger.Record ledger ds nonce = (⟨ds, nonce⟩ :: ledger, .Ok) := by
  unfold ReplayLedger.Record
  rw [if_neg h]

theorem Record_of_mem (ledger : List Mint) (ds : List Byte) (nonce : Nat)
    (h : (⟨ds, nonce⟩ : Mint) ∈ ledger) :
    ReplayLedger.Record ledger ds nonce = (ledger, .AlreadyProcessed) := by
  unfold ReplayLedger.Record
  rw [if_pos h]

/-- After `Record` the ledger holds the key and what it held before, nothing
else. -/
theorem Record_mem_iff (ledger : List Mint) (ds : List Byte) (nonce : Nat) (k : Mint) :
    k ∈ (ReplayLedger.Record ledger ds nonce).1 ↔ k = ⟨ds, nonce⟩ ∨ k ∈ ledger := by
  by_cases h : (⟨ds, nonce⟩ : Mint) ∈ ledger
  · rw [Record_of_mem ledger ds nonce h]
    constructor
    · exact Or.inr
    · rintro (rfl | hk)
      · exact h
      · exact hk
  · rw [Record_of_not_mem ledger ds nonce h]
    exact List.mem_cons

/-- A key is recorded at most once: a second `Record` of the same key is
refused and changes nothing, whatever the first one returned. -/
theorem Record_twice (ledger : List Mint) (ds : List Byte) (nonce : Nat) :
    ReplayLedger.Record (ReplayLedger.Record ledger ds nonce).1 ds nonce =
      ((ReplayLedger.Record ledger ds nonce).1, .AlreadyProcessed) :=
  Record_of_mem _ ds nonce ((Record_mem_iff ledger ds nonce _).2 (Or.inl rfl))

theorem Record_nodup (ledger : List Mint) (ds : List Byte) (nonce : Nat) (h : ledger.Nodup) :
    (ReplayLedger.Record ledger ds nonce).1.Nodup := by
  by_cases hm : (⟨ds, nonce⟩ : Mint) ∈ ledger
  · rw [Record_of_mem ledger ds nonce hm]
    exact h
  · rw [Record_of_not_mem ledger ds nonce hm]
    exact List.nodup_cons.2 ⟨hm, h⟩

theorem Record_ok_iff (ledger : List Mint) (ds : List Byte) (nonce : Nat) :
    (ReplayLedger.Record ledger ds nonce).2 = .Ok ↔ (⟨ds, nonce⟩ : Mint) ∉ ledger := by
  by_cases hm : (⟨ds, nonce⟩ : Mint) ∈ ledger
  · rw [Record_of_mem ledger ds nonce hm]
    simp [hm]
  · rw [Record_of_not_mem ledger ds nonce hm]
    simp [hm]

/-- The forward of step 6 leaves unchanged whatever the transfer interface
leaves unchanged. -/
theorem forwardStep_preserves {H : Type} (host : HostInterface H) (st : RouterState H)
    (domainSender : List Byte) (amount : Int) (h : H) (bal : H → Int)
    (hfwd : ∀ h p c r a m t, bal (host.InitiateTransfer h p c r a m t) = bal h) :
    bal (forwardStep host st domainSender amount h).1 = bal h := by
  unfold forwardStep
  cases (ForwardIntentStore.TakeForMint st.intents domainSender).bind fun i => i.Metadata with
  | none => rfl
  | some md => exact hfwd _ _ _ _ _ _ _

/-- A call of steps 3 to 6 that mints has recorded a key that was absent, has
made the credit on the host it started from, and leaves a state on which the
same envelope is a replay. -/
theorem mintStep_minted {H : Type} (host : HostInterface H) (st st1 : RouterState H)
    (envelope : Message) (burn : BurnMessage) (amount : Int) (recipient : List Byte)
    (fwd : Bool)
    (h : mintStep host st envelope burn = (st1, .MintResult amount recipient fwd)) :
    amount = burn.Amount ∧ recipient = burn.MintRecipient ∧
      (⟨host.composite envelope.SourceDomain envelope.Sender, envelope.Nonce⟩ : Mint) ∉
        st.ledger ∧
      st1.ledger = ⟨host.composite envelope.SourceDomain envelope.Sender, envelope.Nonce⟩ ::
        st.ledger ∧
      st1.intents = st.intents ∧
      (∃ h1, host.Credit st.host recipient amount = some h1 ∧
        st1.host = (forwardStep host st
          (host.composite envelope.SourceDomain envelope.Sender) amount h1).1 ∧
        fwd = (forwardStep host st
          (host.composite envelope.SourceDomain envelope.Sender) amount h1).2) ∧
      mintStep host st1 envelope burn = (st1, .AlreadyProcessed) := by
  unfold mintStep at h
  simp only at h
  by_cases hm : (⟨host.composite envelope.SourceDomain envelope.Sender, envelope.Nonce⟩ : Mint) ∈
      st.ledger
  · rw [Record_of_mem _ _ _ hm] at h
    simp at h
  · rw [Record_of_not_mem _ _ _ hm] at h
    simp only at h
    cases hc : host.Credit st.host burn.MintRecipient burn.Amount with
    | none =>
      rw [hc] at h
      simp at h
    | some h1 =>
      rw [hc] at h
      simp only [Prod.mk.injEq, ProcessResult.MintResult.injEq] at h
      obtain ⟨hst, ha, hr, hf⟩ := h
      subst ha hr
      have hl : st1.ledger =
          ⟨host.composite envelope.SourceDomain envelope.Sender, envelope.Nonce⟩ ::
            st.ledger := by rw [← hst]
      refine ⟨rfl, rfl, hm, hl, by rw [← hst], ⟨h1, hc, by rw [← hst], hf.symm⟩, ?_⟩
      unfold mintStep
      simp only
      rw [Record_of_mem _ _ _ (by rw [hl]; exact List.mem_cons_self _ _)]

/-- What `ProcessInboundMessage` has decoded when it does not return a
decoding error. -/
theorem ProcessInboundMessage_decoded {H : Type} (host : HostInterface H)
    (st st1 : RouterState H) (bytes : List Byte) (res : ProcessResult)
    (h : ProcessInboundMessage host st bytes = some (st1, res)) (hres : res ≠ .DecodingError) :
    ∃ envelope burn, DecodeMessage bytes = some (some envelope, none) ∧
      DecodeBurnMessage envelope.MessageBody = some (some burn, none) ∧
      mintStep host st envelope burn = (st1, res) ∧
      ∀ st' : RouterState H, ProcessInboundMessage host st' bytes =
        some (mintStep host st' envelope burn) := by
  by_cases hlen : bytes.length < 116
  · unfold ProcessInboundMessage DecodeMessage at h
    rw [DecodeMessage_malformed_of_short bytes hlen] at h
    simp only [Option.some_bind, if_true, Option.some.injEq, Prod.mk.injEq] at h
    exact absurd h.2.symm hres
  · have hd := DecodeMessage_eq_raw bytes (by omega)
    generalize henv : ({ Version := bigIntSetBytes ((bytes.drop 0).take 4)
                         SourceDomain := bigIntSetBytes ((bytes.drop 4).take 4)
                         DestinationDomain := bigIntSetBytes ((bytes.drop 8).take 4)
                         Nonce := bigIntSetBytes ((bytes.drop 12).take 8)
                         Sender := (bytes.drop 20).take 32
                         Recipient := (bytes.drop 52).take 32
                         DestinationCaller := (bytes.drop 84).take 32
                         MessageBody := bytes.drop 116 } : Message) = envelope at hd
    by_cases hb : envelope.MessageBody.length = 132
    · have hdb := DecodeBurnMessage_eq_raw envelope.MessageBody hb
      generalize hburn : ({ Version := bigIntSetBytes ((envelope.MessageBody.drop 0).take 4)
                            BurnToken := (envelope.MessageBody.drop 4).take 32
                            MintRecipient := (envelope.MessageBody.drop 36).take 32
                            Amount := (bigIntSetBytes ((envelope.MessageBody.drop 68).take 32) : Int)
                            MessageSender := (envelope.MessageBody.drop 100).take 32 } :
                              BurnMessage) = burn at hdb
      have hall : ∀ st' : RouterState H, ProcessInboundMessage host st' bytes =
          some (mintStep host st' envelope burn) := by
        intro st'
        unfold ProcessInboundMessage
        rw [hd, Option.some_bind]
        simp only
        rw [hdb, Option.some_bind]
      rw [hall st] at h
      exact ⟨envelope, burn, hd, hdb, Option.some.inj h, hall⟩
    · unfold ProcessInboundMessage at h
      rw [hd, Option.some_bind] at h
      simp only at h
      unfold DecodeBurnMessage at h
      rw [DecodeBurnMessage_malformed_of_length_ne _ hb] at h
      simp only [Option.some_bind, if_true, Option.some.injEq, Prod.mk.injEq] at h
      exact absurd h.2.symm hres

/-- C14: replay protection. `Record` returns Ok exactly on an absent key;
afterwards the ledger holds that key and what it held before, nothing else;
on a present key it returns AlreadyProcessed and the same ledger; a second
`Record` of a key is always refused without change, and a ledger without
duplicates stays so. Consequently, when `ProcessInboundMessage` mints on some
bytes: the minted amount and recipient are those of the decoded burn, the key
of the envelope was absent and is now recorded, the host state is the result
of one `Credit` of that amount to that recipient on the host state before the
call, followed by the forward if one is attempted; and the same call on the
state it leaves returns AlreadyProcessed and changes nothing in ledger,
intents or host. So for every balance that a credit of the amount to the
recipient raises by the amount and that a transfer leaves alone, the balance
after the two calls is the balance before them plus the amount, once. -/
theorem ProcessInboundMessage_idempotent {H : Type} (host : HostInterface H)
    (st st1 : RouterState H) (bytes : List Byte) (amount : Int) (recipient : List Byte)
    (fwd : Bool)
    (h : ProcessInboundMessage host st bytes = some (st1, .MintResult amount recipient fwd)) :
    (∀ (ledger : List Mint) (ds : List Byte) (nonce : Nat),
      ((ReplayLedger.Record ledger ds nonce).2 = .Ok ↔ (⟨ds, nonce⟩ : Mint) ∉ ledger) ∧
      (∀ k, k ∈ (ReplayLedger.Record ledger ds nonce).1 ↔ k = ⟨ds, nonce⟩ ∨ k ∈ ledger) ∧
      ((⟨ds, nonce⟩ : Mint) ∈ ledger →
        ReplayLedger.Record ledger ds nonce = (ledger, .AlreadyProcessed)) ∧
      ReplayLedger.Record (ReplayLedger.Record ledger ds nonce).1 ds nonce =
        ((ReplayLedger.Record ledger ds nonce).1, .AlreadyProcessed) ∧
      (ledger.Nodup → (ReplayLedger.Record ledger ds nonce).1.Nodup)) ∧
    (∃ envelope burn h1, DecodeMessage bytes = some (some envelope, none) ∧
      DecodeBurnMessage envelope.MessageBody = some (some burn, none) ∧
      amount = burn.Amount ∧ recipient = burn.MintRecipient ∧
      (⟨host.composite envelope.SourceDomain envelope.Sender, envelope.Nonce⟩ : Mint) ∉
        st.ledger ∧
      st1.ledger = ⟨host.composite envelope.SourceDomain envelope.Sender, envelope.Nonce⟩ ::
        st.ledger ∧
      st1.intents = st.intents ∧
      host.Credit st.host recipient amount = some h1 ∧
      st1.host = (forwardStep host st
        (host.composite envelope.SourceDomain envelope.Sender) amount h1).1 ∧
      fwd = (forwardStep host st
        (host.composite envelope.SourceDomain envelope.Sender) amount h1).2) ∧
    ProcessInboundMessage host st1 bytes = some (st1, .AlreadyProcessed) ∧
    (∀ bal : H → Int,
      (∀ h0 h1, host.Credit h0 recipient amount = some h1 → bal h1 = bal h0 + amount) →
      (∀ h0 p c r a m t, bal (host.InitiateTransfer h0 p c r a m t) = bal h0) →
      ∀ st2 res, ProcessInboundMessage host st1 bytes = some (st2, res) →
        bal st2.host = bal st.host + amount) := by
  obtain ⟨envelope, burn, hd, hdb, hmint, hall⟩ :=
    ProcessInboundMessage_decoded host st st1 bytes _ h (by simp)
  obtain ⟨ha, hr, hm, hl, hi, ⟨h1, hc, hh, hf⟩, h2⟩ :=
    mintStep_minted host st st1 envelope burn amount recipient fwd hmint
  have hsecond : ProcessInboundMessage host st1 bytes = some (st1, .AlreadyProcessed) := by
    rw [hall st1, h2]
  refine ⟨fun ledger ds nonce => ⟨Record_ok_iff ledger ds nonce,
    Record_mem_iff ledger ds nonce, Record_of_mem ledger ds nonce, Record_twice ledger ds nonce,
    Record_nodup ledger ds nonce⟩,
    ⟨envelope, burn, h1, hd, hdb, ha, hr, hm, hl, hi, hc, hh, hf⟩, hsecond, ?_⟩
  intro bal hcredit hfwd st2 res h3
  rw [hsecond] at h3
  simp only [Option.some.injEq, Prod.mk.injEq] at h3
  rw [← h3.1, hh, forwardStep_preserves host st _ amount h1 bal hfwd]
  exact hcredit st.host h1 hc

set_option maxRecDepth 16384 in
theorem ProcessInboundMessage_idempotent_witness :
    ProcessInboundMessage exampleHost
        ⟨[], [(List.replicate 33 0, ⟨0, [], some ⟨7, [0x70], [0x63], [0x72], [], 0⟩, false⟩)],
          (0, 0)⟩ exampleBurnBytes =
      some (⟨[⟨List.replicate 33 0, 0⟩],
          [(List.replicate 33 0, ⟨0, [], some ⟨7, [0x70], [0x63], [0x72], [], 0⟩, false⟩)],
          (100, 1)⟩,
        .MintResult 100 (List.replicate 32 0) true) ∧
    ProcessInboundMessage exampleHost
        ⟨[⟨List.replicate 33 0, 0⟩],
          [(List.replicate 33 0, ⟨0, [], some ⟨7, [0x70], [0x63], [0x72], [], 0⟩, false⟩)],
          (100, 1)⟩ exampleBurnBytes =
      some (⟨[⟨List.replicate 33 0, 0⟩],
          [(List.replicate 33 0, ⟨0, [], some ⟨7, [0x70], [0x63], [0x72], [], 0⟩, false⟩)],
          (100, 1)⟩, .AlreadyProcessed) :=
  have h : ProcessInboundMessage exampleHost
      ⟨[], [(List.replicate 33 0, ⟨0, [], some ⟨7, [0x70], [0x63], [0x72], [], 0⟩, false⟩)],
        (0, 0)⟩ exampleBurnBytes =
      some (⟨[⟨List.replicate 33 0, 0⟩],
          [(List.replicate 33 0, ⟨0, [], some ⟨7, [0x70], [0x63], [0x72], [], 0⟩, false⟩)],
          (100, 1)⟩,
        .MintResult 100 (List.replicate 32 0) true) := by
    unfold ProcessInboundMessage
    rw [DecodeMessage_eq_raw _ (by decide)]
    simp only [Option.some_bind]
    rw [DecodeBurnMessage_eq_raw _ (by decide)]
    decide
  ⟨h, (ProcessInboundMessage_idempotent exampleHost _ _ _ _ _ _ h).2.2.1⟩

/-! ## The intent store -/

theorem TakeForMint_Put (store : List (List Byte × StoreIBCForwardMetadata)) (k : List Byte)
    (v : StoreIBCForwardMetadata) :
    ForwardIntentStore.TakeForMint (ForwardIntentStore.Put store k v) k = some v := by
  induction store with
  | nil => simp [ForwardIntentStore.Put, ForwardIntentStore.TakeForMint]
  | cons e es ih =>
    unfold ForwardIntentStore.Put
    by_cases he : e.1 = k
    · rw [if_pos he]
      simp [ForwardIntentStore.TakeForMint]
    · rw [if_neg he, ForwardIntentStore.TakeForMint, if_neg he]
      exact ih

theorem TakeForMint_Put_of_ne (store : List (List Byte × StoreIBCForwardMetadata))
    (k k' : List Byte) (v : StoreIBCForwardMetadata) (hk : k' ≠ k) :
    ForwardIntentStore.TakeForMint (ForwardIntentStore.Put store k v) k' =
      ForwardIntentStore.TakeForMint store k' := by
  induction store with
  | nil => simp [ForwardIntentStore.Put, ForwardIntentStore.TakeForMint, hk.symm]
  | cons e es ih =>
    unfold ForwardIntentStore.Put
    by_cases he : e.1 = k
    · rw [if_pos he]
      simp [ForwardIntentStore.TakeForMint, he, hk.symm]
    · rw [if_neg he]
      by_cases he' : e.1 = k'
      · simp [ForwardIntentStore.TakeForMint, he']
      · simp only [ForwardIntentStore.TakeForMint, if_neg he']
        exact ih

/-- Writing again the value the store already holds changes nothing. -/
theorem Put_of_TakeForMint (store : List (List Byte × StoreIBCForwardMetadata)) (k : List Byte)
    (v : StoreIBCForwardMetadata) (h : ForwardIntentStore.TakeForMint store k = some v) :
    ForwardIntentStore.Put store k v = store := by
  induction store with
  | nil => simp [ForwardIntentStore.TakeForMint] at h
  | cons e es ih =>
    unfold ForwardIntentStore.Put
    unfold ForwardIntentStore.TakeForMint at h
    by_cases he : e.1 = k
    · rw [if_pos he] at h
      rw [if_pos he]
      obtain ⟨e1, e2⟩ := e
      simp only [Option.some.injEq] at h he
      rw [h, he]
    · rw [if_neg he] at h
      rw [if_neg he, ih h]

/-- C15: `MarkAckError` never returns an error, on the first call or on a
second one. On a key with a stored intent, the intent found afterwards is the
stored one with `AckError = true`, a second call leaves the store as the first
one left it, and the intents under other keys stay as they are. On a key with
no stored intent the store is unchanged. -/
theorem MarkAckError_idempotent (store : List (List Byte × StoreIBCForwardMetadata))
    (domainSender : List Byte) :
    (ForwardIntentStore.MarkAckError store domainSender).2 = none ∧
    (ForwardIntentStore.MarkAckError
      (ForwardIntentStore.MarkAckError store domainSender).1 domainSender).2 = none ∧
    (∀ intent, ForwardIntentStore.TakeForMint store domainSender = some intent →
      ForwardIntentStore.TakeForMint
          (ForwardIntentStore.MarkAckError store domainSender).1 domainSender =
        some { intent with AckError := true } ∧
      (ForwardIntentStore.MarkAckError
          (ForwardIntentStore.MarkAckError store domainSender).1 domainSender).1 =
        (ForwardIntentStore.MarkAckError store domainSender).1 ∧
      ∀ other, other ≠ domainSender →
        ForwardIntentStore.TakeForMint
            (ForwardIntentStore.MarkAckError store domainSender).1 other =
          ForwardIntentStore.TakeForMint store other) ∧
    (ForwardIntentStore.TakeForMint store domainSender = none →
      (ForwardIntentStore.MarkAckError store domainSender).1 = store ∧
      (ForwardIntentStore.MarkAckError
          (ForwardIntentStore.MarkAckError store domainSender).1 domainSender).1 = store) := by
  have herr : ∀ s : List (List Byte × StoreIBCForwardMetadata),
      (ForwardIntentStore.MarkAckError s domainSender).2 = none := by
    intro s
    unfold ForwardIntentStore.MarkAckError
    cases ForwardIntentStore.TakeForMint s domainSender <;> rfl
  refine ⟨herr _, herr _, ?_, ?_⟩
  · intro intent hi
    have h1 : (ForwardIntentStore.MarkAckError store domainSender).1 =
        ForwardIntentStore.Put store domainSender { intent with AckError := true } := by
      unfold ForwardIntentStore.MarkAckError
      rw [hi]
    have h2 := TakeForMint_Put store domainSender { intent with AckError := true }
    refine ⟨by rw [h1, h2], ?_, ?_⟩
    · rw [h1]
      unfold ForwardIntentStore.MarkAckError
      rw [h2]
      exact Put_of_TakeForMint _ _ _ h2
    · intro other ho
      rw [h1]
      exact TakeForMint_Put_of_ne store domainSender other _ ho
  · intro hn
    have h1 : (ForwardIntentStore.MarkAckError store domainSender).1 = store := by
      unfold ForwardIntentStore.MarkAckError
      rw [hn]
    exact ⟨h1, by rw [h1, h1]⟩

theorem MarkAckError_idempotent_witness :
    ForwardIntentStore.TakeForMint
        (ForwardIntentStore.MarkAckError
          [([0x41], ⟨4, [0x41], some ⟨7, [], [0x63, 0x68], [], [], 0⟩, false⟩)] [0x41]).1 [0x41] =
      some ⟨4, [0x41], some ⟨7, [], [0x63, 0x68], [], [], 0⟩, true⟩ ∧
    (ForwardIntentStore.MarkAckError
        [([0x41], ⟨4, [0x41], some ⟨7, [], [0x63, 0x68], [], [], 0⟩, false⟩)] [0x42]).1 =
      [([0x41], ⟨4, [0x41], some ⟨7, [], [0x63, 0x68], [], [], 0⟩, false⟩)] :=
  ⟨((MarkAckError_idempotent
      [([0x41], ⟨4, [0x41], some ⟨7, [], [0x63, 0x68], [], [], 0⟩, false⟩)] [0x41]).2.2.1
      ⟨4, [0x41], some ⟨7, [], [0x63, 0x68], [], [], 0⟩, false⟩ (by decide)).1,
    ((MarkAckError_idempotent
      [([0x41], ⟨4, [0x41], some ⟨7, [], [0x63, 0x68], [], [], 0⟩, false⟩)] [0x42]).2.2.2
      (by decide)).1⟩

/-! ## The query surface -/

/-- C16: the show-mint query returns a stored Mint with exactly the key asked
for, and no error, when a Mint with that key is stored, and NotFound (and no
Mint) when none is; for example the key ("123", 456) against the records keyed
("0", 0) and ("1", 1) is not found, and the key ("0", 0) is. -/
theorem ShowMint_lookup (mints : List Mint) (sourceDomainSender : List Byte) (nonce : Nat) :
    ((∃ m ∈ mints, m.SourceDomainSender = sourceDomainSender ∧ m.Nonce = nonce) →
      ∃ m ∈ mints, m.SourceDomainSender = sourceDomainSender ∧ m.Nonce = nonce ∧
        ShowMint mints sourceDomainSender nonce = (some m, none)) ∧
    ((¬ ∃ m ∈ mints, m.SourceDomainSender = sourceDomainSender ∧ m.Nonce = nonce) →
      ShowMint mints sourceDomainSender nonce = (none, some .NotFound)) ∧
    ShowMint [⟨[0x30], 0⟩, ⟨[0x31], 1⟩] [0x31, 0x32, 0x33] 456 = (none, some .NotFound) ∧
    ShowMint [⟨[0x30], 0⟩, ⟨[0x31], 1⟩] [0x30] 0 = (some ⟨[0x30], 0⟩, none) := by
  refine ⟨?_, ?_, by decide, by decide⟩
  · rintro ⟨m, hm, hk⟩
    unfold ShowMint
    cases hf : mints.find? fun m =>
        decide (m.SourceDomainSender = sourceDomainSender ∧ m.Nonce = nonce) with
    | none =>
      rw [List.find?_eq_none] at hf
      exact absurd (by simpa using hk) (hf m hm)
    | some m' =>
      have hp := List.find?_some hf
      have hmem := List.mem_of_find?_eq_some hf
      simp only [decide_eq_true_eq] at hp
      exact ⟨m', hmem, hp.1, hp.2, rfl⟩
  · intro hn
    unfold ShowMint
    have hf : (mints.find? fun m =>
        decide (m.SourceDomainSender = sourceDomainSender ∧ m.Nonce = nonce)) = none := by
      rw [List.find?_eq_none]
      intro m hm hk
      exact hn ⟨m, hm, by simpa using hk⟩
    rw [hf]

/-! ## The validity helpers and the bounds of the fixed-offset decoders -/

theorem DecodeMessage_of_short (msg : List Byte) (h : msg.length < 116) :
    DecodeMessage msg = some (none, some errDecodingMessage) := by
  unfold DecodeMessage
  rw [DecodeMessage_malformed_of_short msg h]
  rfl

theorem DecodeBurnMessage_of_length_ne (msg : List Byte) (h : msg.length ≠ 132) :
    DecodeBurnMessage msg = some (none, some errDecodingBurnMessage) := by
  unfold DecodeBurnMessage
  rw [DecodeBurnMessage_malformed_of_length_ne msg h]
  rfl

/-- A byte that is not zero, `k` places before the end, makes the value at
least `256 ^ k`. -/
theorem bigIntSetBytes_ge (b : List Byte) (i : Nat) (hi : i < b.length)
    (hb : (b.getD i 0).val ≠ 0) : 256 ^ (b.length - 1 - i) ≤ bigIntSetBytes b := by
  rw [bigIntSetBytes_eq_sum]
  have hterm : 256 ^ (b.length - 1 - i) ≤ (b.getD i 0).val * 256 ^ (b.length - 1 - i) :=
    Nat.le_mul_of_pos_left _ (Nat.pos_of_ne_zero hb)
  refine le_trans hterm ?_
  exact Finset.single_le_sum (f := fun i => (b.getD i 0).val * 256 ^ (b.length - 1 - i))
    (fun _ _ => Nat.zero_le _) (Finset.mem_range.mpr hi)

/-- C21: for every byte buffer, the empty one and those shorter than 4 bytes
included, `DecodeMessage` and `DecodeBurnMessage` return: either the error (and
no value) or a value (and no error). In the embedding a slice expression out
of range makes the call return nothing, so no slice expression is evaluated
out of range: the condition of the `if` is decided by the length check alone
on a buffer that fails it, and on a buffer that passes it all the slice
expressions of the struct literal are in range. -/
theorem decoders_never_slice_out_of_range (msg : List Byte) :
    (DecodeMessage msg = some (none, some errDecodingMessage) ∨
      ∃ m, DecodeMessage msg = some (some m, none)) ∧
    (DecodeBurnMessage msg = some (none, some errDecodingBurnMessage) ∨
      ∃ m, DecodeBurnMessage msg = some (some m, none)) ∧
    DecodeMessage.malformed msg = some (decide (msg.length < 116)) ∧
    DecodeBurnMessage.malformed msg = some (decide (msg.length ≠ 132)) ∧
    (116 ≤ msg.length → ∃ m, DecodeMessage.build msg = some m) ∧
    (msg.length = 132 → ∃ m, DecodeBurnMessage.build msg = some m) ∧
    DecodeMessage [] = some (none, some errDecodingMessage) ∧
    DecodeBurnMessage [] = some (none, some errDecodingBurnMessage) := by
  refine ⟨?_, ?_, ?_, ?_, ?_, ?_, DecodeMessage_of_short [] (by simp),
    DecodeBurnMessage_of_length_ne [] (by simp)⟩
  · by_cases h : msg.length < 116
    · exact Or.inl (DecodeMessage_of_short msg h)
    · exact Or.inr ⟨_, DecodeMessage_eq_raw msg (by omega)⟩
  · by_cases h : msg.length = 132
    · exact Or.inr ⟨_, DecodeBurnMessage_eq_raw msg h⟩
    · exact Or.inl (DecodeBurnMessage_of_length_ne msg h)
  · by_cases h : msg.length < 116
    · rw [DecodeMessage_malformed_of_short msg h]; simp [h]
    · rw [DecodeMessage_malformed_of_long msg (by omega)]; simp [h]
  · by_cases h : msg.length = 132
    · rw [DecodeBurnMessage_malformed_of_length_eq msg h]; simp [h]
    · rw [DecodeBurnMessage_malformed_of_length_ne msg h]; simp [h]
  · intro h
    exact ⟨_, DecodeMessage_build_eq msg h⟩
  · intro h
    exact ⟨_, DecodeBurnMessage_build_eq msg h⟩

/-- C24: `isValidUint256 b` is true exactly when the unsigned big-endian value
of `b`, the sum of `b[i] * 256 ^ (len b - 1 - i)` that `SetBytes` computes, is
below `2 ^ 256`. It is true for every slice of at most 32 bytes, and false for
a longer slice with a non-zero byte before its last 32 bytes. -/
theorem isValidUint256_exact (b : List Byte) :
    (isValidUint256 b = true ↔
      ∑ i in Finset.range b.length, (b.getD i 0).val * 256 ^ (b.length - 1 - i) < 2 ^ 256) ∧
    bigIntSetBytes b =
      ∑ i in Finset.range b.length, (b.getD i 0).val * 256 ^ (b.length - 1 - i) ∧
    (b.length ≤ 32 → isValidUint256 b = true) ∧
    (∀ i, i + 32 < b.length → (b.getD i 0).val ≠ 0 → isValidUint256 b = false) := by
  refine ⟨?_, bigIntSetBytes_eq_sum b, isValidUint256_of_length_le b, ?_⟩
  · rw [isValidUint256_iff, bigIntSetBytes_eq_sum]
  · intro i hi hb
    have hge := bigIntSetBytes_ge b i (by omega) hb
    have hpow : (256 : Nat) ^ 32 ≤ 256 ^ (b.length - 1 - i) :=
      Nat.pow_le_pow_right (by norm_num) (by omega)
    have h256 : (256 : Nat) ^ 32 = 2 ^ 256 := by norm_num
    have hnot : ¬ bigIntSetBytes b < 2 ^ 256 := by omega
    rw [← isValidUint256_iff] at hnot
    simpa using hnot

/-- C25: `isValidUint32 b` is true exactly when `b` has at least 4 bytes and
`isValidUint64 b` exactly when it has at least 8, whatever the bytes are (two
slices of equal length get the same answer). So every in-range slice of width
4 (of width 8) is valid, and length is the only criterion of the decoders:
`DecodeMessage` rejects exactly the buffers shorter than 116 bytes and
`DecodeBurnMessage` exactly the buffers whose length is not 132. -/
theorem validity_helpers_check_length (b msg : List Byte) :
    (isValidUint32 b = true ↔ 4 ≤ b.length) ∧
    (isValidUint64 b = true ↔ 8 ≤ b.length) ∧
    (∀ c : List Byte, c.length = b.length →
      isValidUint32 c = isValidUint32 b ∧ isValidUint64 c = isValidUint64 b) ∧
    (∀ lo s, slice msg lo (lo + 4) = some s → isValidUint32 s = true) ∧
    (∀ lo s, slice msg lo (lo + 8) = some s → isValidUint64 s = true) ∧
    (DecodeMessage msg = some (none, some errDecodingMessage) ↔ msg.length < 116) ∧
    ((∃ m, DecodeMessage msg = some (some m, none)) ↔ 116 ≤ msg.length) ∧
    (DecodeBurnMessage msg = some (none, some errDecodingBurnMessage) ↔ msg.length ≠ 132) ∧
    ((∃ m, DecodeBurnMessage msg = some (some m, none)) ↔ msg.length = 132) := by
  have hslice : ∀ (lo w : Nat) (s : List Byte), slice msg lo (lo + w) = some s →
      s.length = w := by
    intro lo w s hs
    unfold slice at hs
    split_ifs at hs with h
    simp only [Option.some.injEq] at hs
    subst hs
    simp only [List.length_drop, List.length_take]
    omega
  refine ⟨by simp [isValidUint32], by simp [isValidUint64], ?_, ?_, ?_, ?_, ?_, ?_, ?_⟩
  · intro c hc
    simp [isValidUint32, isValidUint64, hc]
  · intro lo s hs
    simp [isValidUint32, hslice lo 4 s hs]
  · intro lo s hs
    simp [isValidUint64, hslice lo 8 s hs]
  · constructor
    · intro h
      by_contra hc
      rw [DecodeMessage_eq_raw msg (by omega)] at h
      simp at h
    · exact DecodeMessage_of_short msg
  · constructor
    · rintro ⟨m, h⟩
      by_contra hc
      rw [DecodeMessage_of_short msg (by omega)] at h
      simp at h
    · intro h
      exact ⟨_, DecodeMessage_eq_raw msg h⟩
  · constructor
    · intro h hc
      rw [DecodeBurnMessage_eq_raw msg hc] at h
      simp at h
    · exact DecodeBurnMessage_of_length_ne msg
  · constructor
    · rintro ⟨m, h⟩
      by_contra hc
      rw [DecodeBurnMessage_of_length_ne msg hc] at h
      simp at h
    · intro h
      exact ⟨_, DecodeBurnMessage_eq_raw msg h⟩

/-! ## The width of a varint -/

/-- The size computed by `sovIbcForwardMetadata` brackets the value between
two powers of 128. -/
theorem sov_bounds (v : Nat) (hv : v < 2 ^ 64) :
    v < 128 ^ sovIbcForwardMetadata v ∧
      (v ≠ 0 → 128 ^ (sovIbcForwardMetadata v - 1) ≤ v) := by
  induction v using Nat.strong_induction_on with
  | _ v ih =>
    by_cases hc : 128 ≤ v
    · have hd : v / 128 < v := Nat.div_lt_self (by omega) (by norm_num)
      obtain ⟨h1, h2⟩ := ih (v / 128) hd (lt_trans hd hv)
      have hne : v / 128 ≠ 0 := by
        have := Nat.div_pos hc (by norm_num : 0 < 128)
        omega
      have h2' := h2 hne
      have hpos := sov_pos (v / 128) (lt_trans hd hv)
      rw [sov_of_ge_128 v hc hv]
      constructor
      · rw [pow_succ]
        have := Nat.lt_mul_of_div_lt h1 (by norm_num : 0 < 128)
        omega
      · intro _
        have e : sovIbcForwardMetadata (v / 128) + 1 - 1 =
            sovIbcForwardMetadata (v / 128) - 1 + 1 := by omega
        rw [e, pow_succ]
        have := Nat.div_mul_le_self v 128
        have := Nat.mul_le_mul_right 128 h2'
        omega
    · have h' : v < 128 := by omega
      rw [sov_of_lt_128 v h']
      constructor
      · simpa using h'
      · intro h0
        simp
        omega

theorem sov_le_ten (v : Nat) (hv : v < 2 ^ 64) : sovIbcForwardMetadata v ≤ 10 := by
  by_contra hc
  by_cases h0 : v = 0
  · rw [h0, sov_of_lt_128 0 (by norm_num)] at hc
    omega
  · have h2 := (sov_bounds v hv).2 h0
    have : (128 : Nat) ^ 10 ≤ 128 ^ (sovIbcForwardMetadata v - 1) :=
      Nat.pow_le_pow_right (by norm_num) (by omega)
    norm_num at this hv
    omega

theorem sov_minimal (v k : Nat) (hv : v < 2 ^ 64) (hk : 1 ≤ k) (h : v < 128 ^ k) :
    sovIbcForwardMetadata v ≤ k := by
  by_contra hc
  by_cases h0 : v = 0
  · rw [h0, sov_of_lt_128 0 (by norm_num)] at hc
    omega
  · have h2 := (sov_bounds v hv).2 h0
    have : (128 : Nat) ^ k ≤ 128 ^ (sovIbcForwardMetadata v - 1) :=
      Nat.pow_le_pow_right (by norm_num) (by omega)
    omega

/-- The bytes of a varint are the base-128 digits of the value, least
significant first, with the continuation bit on all but the last. -/
theorem getD_varintBytesAux (fuel : Nat) :
    ∀ (v i : Nat), v < 128 ^ (fuel + 1) → i < (varintBytesAux (fuel + 1) v).length →
      ((varintBytesAux (fuel + 1) v).getD i 0).val =
        v / 128 ^ i % 128 + if i + 1 < (varintBytesAux (fuel + 1) v).length then 128 else 0 := by
  induction fuel with
  | zero =>
    intro v i hv hi
    have h' : v < 128 := by simpa using hv
    rw [varintBytesAux_of_lt _ _ h'] at hi ⊢
    simp only [List.length_singleton] at hi ⊢
    have hi0 : i = 0 := by omega
    subst hi0
    simp [uint8_val_of_lt v (by omega), Nat.mod_eq_of_lt h']
  | succ n ih =>
    intro v i hv hi
    by_cases hc : 128 ≤ v
    · have hd : v / 128 < 128 ^ (n + 1) := by
        rw [Nat.div_lt_iff_lt_mul (by norm_num)]
        rw [pow_succ] at hv
        exact hv
      rw [varintBytesAux_of_ge _ _ hc] at hi ⊢
      simp only [List.length_cons] at hi ⊢
      have hpos : 0 < (varintBytesAux (n + 1) (v / 128)).length := by
        unfold varintBytesAux
        split <;> simp
      cases i with
      | zero =>
        simp only [List.getD_cons_zero, pow_zero, Nat.div_one]
        rw [uint8_val_of_lt _ (by omega), if_pos (by omega)]
      | succ j =>
        simp only [List.getD_cons_succ]
        rw [ih (v / 128) j hd (by omega), Nat.div_div_eq_div_mul, pow_succ,
          Nat.mul_comm (128 ^ j) 128]
        congr 1
        by_cases hj : j + 1 < (varintBytesAux (n + 1) (v / 128)).length
        · rw [if_pos hj, if_pos (by omega)]
        · rw [if_neg hj, if_neg (by omega)]
    · have h' : v < 128 := by omega
      rw [varintBytesAux_of_lt _ _ h'] at hi ⊢
      simp only [List.length_singleton] at hi ⊢
      have hi0 : i = 0 := by omega
      subst hi0
      simp [uint8_val_of_lt v (by omega), Nat.mod_eq_of_lt h']

/-- C26: for every `v` in `[0, 2 ^ 64)`, `n = sovIbcForwardMetadata v` is the
least `n ≥ 1` with `v < 2 ^ (7 n)`, it lies between 1 and 10 and is 10 from
`2 ^ 63` on. `encodeVarintIbcForwardMetadata` called with the offset just
after a region of at least `n` bytes returns `offset - n` and changes exactly
the `n` bytes before the offset. The bytes written are the base-128 digits of
`v`, least significant first, with the bit `0x80` on all but the last; the
last byte is not zero unless `v = 0`; and the varint loop of the decoder reads
them back as `v`, stopping after them. -/
theorem varint_minimal_width (v : Nat) (hv : v < 2 ^ 64) :
    (1 ≤ sovIbcForwardMetadata v ∧ sovIbcForwardMetadata v ≤ 10 ∧
      v < 2 ^ (7 * sovIbcForwardMetadata v) ∧
      (∀ k, 1 ≤ k → v < 2 ^ (7 * k) → sovIbcForwardMetadata v ≤ k) ∧
      (2 ^ 63 ≤ v → sovIbcForwardMetadata v = 10)) ∧
    (∃ bytes : List Byte, bytes.length = sovIbcForwardMetadata v ∧
      (∀ junk written : List Byte, sovIbcForwardMetadata v ≤ junk.length →
        encodeVarintIbcForwardMetadata (junk ++ written) (junk.length : Int) v =
          some (junk.take (junk.length - sovIbcForwardMetadata v) ++ (bytes ++ written),
            (junk.length : Int) - (sovIbcForwardMetadata v : Int))) ∧
      (∀ i, i < sovIbcForwardMetadata v →
        (bytes.getD i 0).val =
          v / 128 ^ i % 128 + if i + 1 < sovIbcForwardMetadata v then 128 else 0) ∧
      (v ≠ 0 → (bytes.getD (sovIbcForwardMetadata v - 1) 0).val ≠ 0) ∧
      (∀ pre post : List Byte, decodeVarint (pre ++ (bytes ++ post)) pre.length =
        some ⟨v, pre.length + sovIbcForwardMetadata v, none⟩)) := by
  have hpow : ∀ k : Nat, (2 : Nat) ^ (7 * k) = 128 ^ k := by
    intro k
    rw [pow_mul]
    norm_num
  have hb := sov_bounds v hv
  have hpos := sov_pos v hv
  have hlen := length_varintBytes v hv
  have hdig : ∀ i, i < sovIbcForwardMetadata v →
      ((varintBytes v).getD i 0).val =
        v / 128 ^ i % 128 + if i + 1 < sovIbcForwardMetadata v then 128 else 0 := by
    intro i hi
    have := getD_varintBytesAux 9 v i (lt_of_lt_of_le hv (by norm_num))
      (by rw [← hlen] at hi; exact hi)
    have hl' : (varintBytesAux (9 + 1) v).length = sovIbcForwardMetadata v := hlen
    rw [hl'] at this
    exact this
  refine ⟨⟨hpos, sov_le_ten v hv, by rw [hpow]; exact hb.1, ?_, ?_⟩,
    varintBytes v, hlen, ?_, hdig, ?_, fun pre post => decodeVarint_varintBytes v pre post hv⟩
  · intro k hk hvk
    rw [hpow] at hvk
    exact sov_minimal v k hv hk hvk
  · intro h63
    have hle := sov_le_ten v hv
    by_contra hne
    have hlt : sovIbcForwardMetadata v ≤ 9 := by omega
    have : (128 : Nat) ^ sovIbcForwardMetadata v ≤ 128 ^ 9 :=
      Nat.pow_le_pow_right (by norm_num) hlt
    have h1 := hb.1
    norm_num at this h63
    omega
  · intro junk written hs
    rw [encodeVarint_spec junk written v hv hs]
    congr 2
    omega
  · intro h0
    rw [hdig _ (by omega), if_neg (by omega), Nat.add_zero]
    have h2 := hb.2 h0
    have hq : 0 < v / 128 ^ (sovIbcForwardMetadata v - 1) :=
      Nat.div_pos h2 (Nat.pow_pos (by norm_num))
    have hq2 : v / 128 ^ (sovIbcForwardMetadata v - 1) < 128 := by
      rw [Nat.div_lt_iff_lt_mul (Nat.pow_pos (by norm_num))]
      have e : 128 * 128 ^ (sovIbcForwardMetadata v - 1) = 128 ^ sovIbcForwardMetadata v := by
        rw [← pow_succ']
        congr 1
        omega
      rw [e]
      exact hb.1
    rw [Nat.mod_eq_of_lt hq2]
    omega

theorem varint_minimal_width_witness :
    sovIbcForwardMetadata 300 = 2 ∧
      encodeVarintIbcForwardMetadata ([0, 0, 0] ++ [0x2a]) 3 300 =
        some ([0, 0xac, 0x02, 0x2a], 1) ∧
      decodeVarint ([0x08] ++ ([0xac, 0x02] ++ [0x2a])) 1 = some ⟨300, 3, none⟩ ∧
      sovIbcForwardMetadata (2 ^ 64 - 1) = 10 :=
  ⟨by decide, by decide, by decide,
    (varint_minimal_width (2 ^ 64 - 1) (by norm_num)).1.2.2.2.2 (by norm_num)⟩

/-! ## Varints wider than the field -/

theorem or_mod_two_pow (a b n : Nat) : (a ||| b) % 2 ^ n = a % 2 ^ n ||| b % 2 ^ n := by
  apply Nat.eq_of_testBit_eq
  intro i
  simp only [Nat.testBit_mod_two_pow, Nat.testBit_or]
  by_cases h : i < n <;> simp [h]

/-- One group of 7 bits put below the groups that follow it. -/
theorem uint64_shiftLeft_group (d w shift : Nat) (hd : d < 128) :
    uint64 ((d + 128 * w) <<< shift) =
      uint64 (d <<< shift) ||| uint64 (w <<< (shift + 7)) := by
  have h1 : d + 128 * w = d ||| w <<< 7 := by
    rw [or_shiftLeft_eq w d 7 (by norm_num; omega)]
    ring
  unfold uint64
  rw [h1, ← or_mod_two_pow]
  congr 1
  apply Nat.eq_of_testBit_eq
  intro i
  simp only [Nat.testBit_shiftLeft, Nat.testBit_or]
  by_cases hi : shift ≤ i
  · by_cases hi7 : shift + 7 ≤ i
    · have e : i - (shift + 7) = i - shift - 7 := by omega
      simp [hi, hi7, e, show 7 ≤ i - shift by omega]
    · simp [hi, hi7, show ¬ 7 ≤ i - shift by omega]
  · simp [hi, show ¬ shift + 7 ≤ i by omega]

/-- The `uint64` varint loop on a well-terminated varint: it reads all its
bytes and ORs the value, shifted and reduced to 64 bits, into the accumulator. -/
theorem decodeVarintLoop_wellTerminated (bs : List Byte) :
    ∀ (fuel shift acc : Nat) (pre post : List Byte), WellTerminated bs →
      bs.length ≤ fuel → shift + 7 * (bs.length - 1) < 64 →
      decodeVarintLoop fuel (pre ++ (bs ++ post)) pre.length shift acc =
        some ⟨acc ||| uint64 (varintValue bs <<< shift), pre.length + bs.length, none⟩ := by
  induction bs with
  | nil => intro fuel shift acc pre post h; exact absurd h (by simp [WellTerminated])
  | cons b rest ih =>
    intro fuel shift acc pre post hw hf hs
    obtain ⟨f, rfl⟩ : ∃ f, fuel = f + 1 := ⟨fuel - 1, by simp at hf; omega⟩
    have hmask : b.val &&& 0x7F = b.val % 128 := Nat.and_pow_two_sub_one_eq_mod b.val 7
    rw [List.cons_append, decodeVarintLoop, if_neg (by omega), if_neg (by simp),
      getElem?_append_cons, Option.some_bind]
    simp only []
    rw [hmask]
    rcases hw with ⟨hnil, hb⟩ | ⟨hb, hrest⟩
    · subst hnil
      rw [if_pos (by simpa using hb)]
      simp [varintValue]
    · rw [if_neg (by simp; omega)]
      have hpos : 0 < rest.length := by
        cases rest with
        | nil => exact absurd hrest (by simp [WellTerminated])
        | cons _ _ => simp
      have hpre : pre.length + 1 = (pre ++ [b]).length := by simp
      have hlist : pre ++ b :: (rest ++ post) = (pre ++ [b]) ++ (rest ++ post) := by simp
      simp only [List.length_cons] at hf hs
      rw [hpre, hlist, ih f (shift + 7) _ (pre ++ [b]) post hrest (by omega) (by omega)]
      simp only [Option.some.injEq, VarintResult.mk.injEq, and_true]
      refine ⟨?_, by simp; omega⟩
      rw [varintValue, uint64_shiftLeft_group _ _ _ (Nat.mod_lt _ (by norm_num)),
        Nat.lor_assoc]

theorem decodeVarint_wellTerminated (bs pre post : List Byte) (hw : WellTerminated bs)
    (hlen : bs.length ≤ 10) :
    decodeVarint (pre ++ (bs ++ post)) pre.length =
      some ⟨varintValue bs % 2 ^ 64, pre.length + bs.length, none⟩ := by
  unfold decodeVarint
  rw [decodeVarintLoop_wellTerminated bs 11 0 0 pre post hw (by omega) (by omega)]
  simp [uint64]

theorem decodeVarint32_wellTerminated (bs pre post : List Byte) (hw : WellTerminated bs)
    (hlen : bs.length ≤ 10) :
    decodeVarint32 (pre ++ (bs ++ post)) pre.length =
      some ⟨varintValue bs % 2 ^ 32, pre.length + bs.length, none⟩ := by
  have h := decodeVarint32Loop_eq 11 (pre ++ (bs ++ post)) pre.length 0 0
  have hd := decodeVarint_wellTerminated bs pre post hw hlen
  unfold decodeVarint at hd
  unfold decodeVarint32
  rw [Nat.zero_mod] at h
  rw [h, hd]
  simp only [Option.map_some']
  rw [Nat.mod_mod_of_dvd _ (by norm_num : 2 ^ 32 ∣ 2 ^ 64)]

/-- The varint loop returns the integer overflow exactly when the bytes it
reads all carry the continuation bit up to the moment `shift` reaches 64. -/
theorem decodeVarintLoop_overflow_iff (fuel : Nat) :
    ∀ (d : List Byte) (i j acc : Nat) (r : VarintResult), fuel + j = 11 →
      decodeVarintLoop fuel d i (7 * j) acc = some r →
      (r.err = some .ErrIntOverflowIbcForwardMetadata ↔
        ∀ k, k < 10 - j → ∃ b, d[i + k]? = some b ∧ 128 ≤ b.val) := by
  induction fuel with
  | zero => intro d i j acc r _ h; simp [decodeVarintLoop] at h
  | succ n ih =>
    intro d i j acc r hj h
    rw [decodeVarintLoop] at h
    by_cases h1 : 7 * j ≥ 64
    · rw [if_pos h1] at h
      simp only [Option.some.injEq] at h
      subst h
      have : 10 - j = 0 := by omega
      simp [this]
    · rw [if_neg h1] at h
      have hj10 : 0 < 10 - j := by omega
      by_cases h2 : i ≥ d.length
      · rw [if_pos h2] at h
        simp only [Option.some.injEq] at h
        subst h
        constructor
        · intro he
          exact absurd he (by simp)
        · intro hall
          obtain ⟨b, hb, _⟩ := hall 0 hj10
          rw [Nat.add_zero, List.getElem?_eq_none (by omega)] at hb
          exact absurd hb (by simp)
      · rw [if_neg h2] at h
        have hi : i < d.length := by omega
        rw [List.getElem?_eq_getElem hi, Option.some_bind] at h
        simp only [] at h
        by_cases h3 : d[i].val < 0x80
        · rw [if_pos h3] at h
          simp only [Option.some.injEq] at h
          subst h
          constructor
          · intro he
            exact absurd he (by simp)
          · intro hall
            obtain ⟨b, hb, hb128⟩ := hall 0 hj10
            rw [Nat.add_zero, List.getElem?_eq_getElem hi] at hb
            simp only [Option.some.injEq] at hb
            subst hb
            omega
        · rw [if_neg h3] at h
          have hrec := ih d (i + 1) (j + 1) _ r (by omega)
            (by rw [show 7 * (j + 1) = 7 * j + 7 by ring]; exact h)
          rw [hrec]
          constructor
          · intro hall k hk
            cases k with
            | zero =>
              rw [Nat.add_zero, List.getElem?_eq_getElem hi]
              exact ⟨_, rfl, by omega⟩
            | succ k' =>
              have := hall k' (by omega)
              rw [show i + (k' + 1) = i + 1 + k' by omega]
              exact this
          · intro hall k hk
            have := hall (k + 1) (by omega)
            rw [show i + (k + 1) = i + 1 + k by omega] at this
            exact this

theorem decodeVarint_overflow_iff (d : List Byte) (i : Nat) (r : VarintResult)
    (h : decodeVarint d i = some r) :
    r.err = some .ErrIntOverflowIbcForwardMetadata ↔
      ∀ k, k < 10 → ∃ b, d[i + k]? = some b ∧ 128 ≤ b.val :=
  decodeVarintLoop_overflow_iff 11 d i 0 0 r rfl h

theorem decodeVarint32_overflow_iff (d : List Byte) (i : Nat) (r : VarintResult)
    (h : decodeVarint32 d i = some r) :
    r.err = some .ErrIntOverflowIbcForwardMetadata ↔
      ∀ k, k < 10 → ∃ b, d[i + k]? = some b ∧ 128 ≤ b.val := by
  have h32 := decodeVarint32Loop_eq 11 d i 0 0
  unfold decodeVarint32 at h
  rw [Nat.zero_mod, h] at h32
  cases h64 : decodeVarintLoop 11 d i 0 0 with
  | none => rw [h64] at h32; simp at h32
  | some r64 =>
    rw [h64] at h32
    simp only [Option.map_some', Option.some.injEq] at h32
    have he : r.err = r64.err := by rw [h32]
    rw [he]
    exact decodeVarint_overflow_iff d i r64 h64

/-- C23: a well-terminated varint of at most 10 bytes that carries the
base-128 value `v` is decoded without error, whatever `v` is: as
`StoreIBCForwardMetadata.SourceDomain` (tag `08`) it yields `v mod 2 ^ 32`, as
`IBCForwardMetadata.Nonce` (tag `08`) or `TimeoutInNanoseconds` (tag `30`) it
yields `v mod 2 ^ 64`. A varint loop, of 64 or of 32 bits, returns the integer
overflow exactly when ten bytes with the continuation bit stand at its start. -/
theorem varint_reduced_not_rejected (bs pre post : List Byte) (m : IBCForwardMetadata)
    (s : StoreIBCForwardMetadata) (hw : WellTerminated bs) (hlen : bs.length ≤ 10) :
    s.unmarshalField (pre ++ 0x8 :: (bs ++ post)) pre.length =
      some ⟨{ s with SourceDomain := varintValue bs % 2 ^ 32 },
        pre.length + 1 + bs.length, none⟩ ∧
    m.unmarshalField (pre ++ 0x8 :: (bs ++ post)) pre.length =
      some ⟨{ m with Nonce := varintValue bs % 2 ^ 64 }, pre.length + 1 + bs.length, none⟩ ∧
    m.unmarshalField (pre ++ 0x30 :: (bs ++ post)) pre.length =
      some ⟨{ m with TimeoutInNanoseconds := varintValue bs % 2 ^ 64 },
        pre.length + 1 + bs.length, none⟩ ∧
    (∀ (d : List Byte) (i : Nat) (r : VarintResult), decodeVarint d i = some r →
      (r.err = some .ErrIntOverflowIbcForwardMetadata ↔
        ∀ k, k < 10 → ∃ b, d[i + k]? = some b ∧ 128 ≤ b.val)) ∧
    (∀ (d : List Byte) (i : Nat) (r : VarintResult), decodeVarint32 d i = some r →
      (r.err = some .ErrIntOverflowIbcForwardMetadata ↔
        ∀ k, k < 10 → ∃ b, d[i + k]? = some b ∧ 128 ≤ b.val)) := by
  have e8 : pre ++ (0x8 : Byte) :: (bs ++ post) = (pre ++ [0x8]) ++ (bs ++ post) := by simp
  have e30 : pre ++ (0x30 : Byte) :: (bs ++ post) = (pre ++ [0x30]) ++ (bs ++ post) := by simp
  have hl8 : pre.length + 1 = (pre ++ [(0x8 : Byte)]).length := by simp
  have hl30 : pre.length + 1 = (pre ++ [(0x30 : Byte)]).length := by simp
  refine ⟨?_, ?_, ?_, decodeVarint_overflow_iff, decodeVarint32_overflow_iff⟩
  · rw [storeUnmarshalField_tag s pre _ 0x8 (by decide)]
    simp only []
    rw [if_neg (by decide), if_neg (by decide), if_pos (by decide), e8, hl8]
    unfold unmarshalSourceDomain
    rw [if_neg (by decide), decodeVarint32_wellTerminated bs _ post hw hlen]
    rfl
  · rw [unmarshalField_tag m pre _ 0x8 (by decide)]
    simp only []
    rw [if_neg (by decide), if_neg (by decide), if_pos (by decide), e8, hl8]
    unfold unmarshalUint64Field
    rw [if_neg (by decide), decodeVarint_wellTerminated bs _ post hw hlen]
    rfl
  · rw [unmarshalField_tag m pre _ 0x30 (by decide)]
    simp only []
    rw [if_neg (by decide), if_neg (by decide), if_neg (by decide), if_neg (by decide),
      if_neg (by decide), if_neg (by decide), if_neg (by decide), if_pos (by decide), e30, hl30]
    unfold unmarshalUint64Field
    rw [if_neg (by decide), decodeVarint_wellTerminated bs _ post hw hlen]
    rfl

theorem varint_reduced_not_rejected_witness :
    WellTerminated [0x84, 0x80, 0x80, 0x80, 0x10] ∧
      varintValue [0x84, 0x80, 0x80, 0x80, 0x10] = 2 ^ 32 + 4 ∧
      StoreIBCForwardMetadata.Reset.unmarshalField
          ([] ++ 0x8 :: ([0x84, 0x80, 0x80, 0x80, 0x10] ++ [])) 0 =
        some ⟨⟨4, [], none, false⟩, 6, none⟩ ∧
      StoreIBCForwardMetadata.Reset.Unmarshal [0x08, 0x84, 0x80, 0x80, 0x80, 0x10] =
        some (⟨4, [], none, false⟩, none) ∧
      IBCForwardMetadata.Reset.Unmarshal [0x08, 0x84, 0x80, 0x80, 0x80, 0x10] =
        some (⟨2 ^ 32 + 4, [], [], [], [], 0⟩, none) ∧
      IBCForwardMetadata.Reset.Unmarshal
          [0x08, 0x80, 0x80, 0x80, 0x80, 0x80, 0x80, 0x80, 0x80, 0x80, 0x80, 0x00] =
        some (IBCForwardMetadata.Reset, some .ErrIntOverflowIbcForwardMetadata) :=
  ⟨by decide, by decide,
    (varint_reduced_not_rejected [0x84, 0x80, 0x80, 0x80, 0x10] [] []
      IBCForwardMetadata.Reset StoreIBCForwardMetadata.Reset (by decide) (by decide)).1.trans
      (by decide),
    by decide, by decide, by decide⟩

/-! ## Totality of the tagged-field decoders -/

/-- A varint loop returns, having read at most one byte per unit of fuel but
the last, and no byte at or beyond the end of the buffer. -/
theorem decodeVarintLoop_total (fuel : Nat) :
    ∀ (d : List Byte) (i shift acc : Nat), 1 ≤ fuel → 64 ≤ shift + 7 * (fuel - 1) →
      ∃ r, decodeVarintLoop fuel d i shift acc = some r ∧ i ≤ r.iNdEx ∧
        r.iNdEx + 1 ≤ i + fuel ∧ r.iNdEx ≤ max i d.length := by
  induction fuel with
  | zero => intro d i shift acc h; omega
  | succ f ih =>
    intro d i shift acc _ hs
    rw [decodeVarintLoop]
    by_cases h1 : shift ≥ 64
    · rw [if_pos h1]
      exact ⟨_, rfl, le_refl _, by simp, by simp⟩
    · rw [if_neg h1]
      by_cases h2 : i ≥ d.length
      · rw [if_pos h2]
        exact ⟨_, rfl, le_refl _, by simp, by simp⟩
      · rw [if_neg h2]
        have hi : i < d.length := by omega
        have hf : 1 ≤ f := by
          simp only [Nat.add_sub_cancel] at hs
          omega
        rw [List.getElem?_eq_getElem hi, Option.some_bind]
        simp only []
        by_cases h3 : d[i].val < 0x80
        · rw [if_pos h3]
          refine ⟨_, rfl, by simp, by simp; omega, ?_⟩
          simp only
          omega
        · rw [if_neg h3]
          obtain ⟨r, hr, hr1, hr2, hr3⟩ := ih d (i + 1) (shift + 7) _ hf
            (by simp only [Nat.add_sub_cancel] at hs; omega)
          exact ⟨r, hr, by omega, by omega, by omega⟩

theorem decodeVarint_total (d : List Byte) (i : Nat) :
    ∃ r, decodeVarint d i = some r ∧ i ≤ r.iNdEx ∧ r.iNdEx ≤ i + 10 ∧
      r.iNdEx ≤ max i d.length := by
  obtain ⟨r, hr, h1, h2, h3⟩ := decodeVarintLoop_total 11 d i 0 0 (by norm_num) (by norm_num)
  exact ⟨r, hr, h1, by omega, h3⟩

theorem decodeVarint32_total (d : List Byte) (i : Nat) :
    ∃ r, decodeVarint32 d i = some r ∧ i ≤ r.iNdEx ∧ r.iNdEx ≤ i + 10 ∧
      r.iNdEx ≤ max i d.length ∧
      (r.err = none → i < r.iNdEx ∧ r.iNdEx ≤ d.length) := by
  obtain ⟨r, hr, h1, h2, h3⟩ := decodeVarint_total d i
  have h32 := decodeVarint32Loop_eq 11 d i 0 0
  unfold decodeVarint at hr
  rw [Nat.zero_mod, hr] at h32
  exact ⟨_, h32, h1, h2, h3, fun he => decodeVarintLoop_progress 11 d i 0 0 r hr he⟩

theorem skipSwitch_total (d : List Byte) (i : Nat) (depth : Int) (wireType : Nat) :
    ∃ s, skipSwitch d i depth wireType = some s := by
  obtain ⟨r, hr, _⟩ := decodeVarint_total d i
  unfold skipSwitch
  split_ifs
  · rw [hr]; exact ⟨_, rfl⟩
  · exact ⟨_, rfl⟩
  · rw [hr, Option.some_bind]
    cases hre : r.err with
    | some e => exact ⟨_, rfl⟩
    | none =>
      simp only
      split_ifs <;> exact ⟨_, rfl⟩
  · exact ⟨_, rfl⟩
  · exact ⟨_, rfl⟩
  · exact ⟨_, rfl⟩
  · exact ⟨_, rfl⟩
  · exact ⟨_, rfl⟩

/-- The outer loop of `skipIbcForwardMetadata` returns when it has one unit of
fuel per remaining byte and one more. -/
theorem skipLoop_total (fuel : Nat) :
    ∀ (d : List Byte) (i : Nat) (depth : Int), d.length < 2 ^ 63 → 1 ≤ fuel →
      d.length + 1 ≤ fuel + i → ∃ r, skipLoop fuel d i depth = some r := by
  induction fuel with
  | zero => intro d i depth _ h; omega
  | succ f ih =>
    intro d i depth hl _ hf
    rw [skipLoop]
    simp only
    by_cases hi : i < d.length
    swap
    · rw [if_neg hi]; exact ⟨_, rfl⟩
    rw [if_pos hi]
    obtain ⟨t, ht, _⟩ := decodeVarint_total d i
    rw [ht, Option.some_bind]
    cases hte : t.err with
    | some e => exact ⟨_, rfl⟩
    | none =>
      simp only
      have hp := decodeVarint_progress d i t ht hte
      obtain ⟨s, hs⟩ := skipSwitch_total d t.iNdEx depth (t.value &&& 0x7)
      rw [hs, Option.some_bind]
      cases hse : s.2.2 with
      | some e => exact ⟨_, rfl⟩
      | none =>
        simp only
        by_cases hneg : s.1 < 0
        · rw [if_pos hneg]; exact ⟨_, rfl⟩
        · rw [if_neg hneg]
          by_cases hdep : s.2.1 = 0
          · rw [if_pos hdep]; exact ⟨_, rfl⟩
          · rw [if_neg hdep]
            have hsp := skipSwitch_progress d t.iNdEx depth _ s hl hp.2 hs hse (by omega)
            exact ih d s.1.toNat s.2.1 hl (by omega) (by omega)

theorem skipIbcForwardMetadata_total (d : List Byte) (hl : d.length < 2 ^ 63) :
    ∃ r, skipIbcForwardMetadata d = some r :=
  skipLoop_total (d.length + 1) d 0 0 hl (by omega) (by omega)

theorem unmarshalUint64Field_total (field : String)
    (set : IBCForwardMetadata → Nat → IBCForwardMetadata) (m : IBCForwardMetadata)
    (wireType : Nat) (d : List Byte) (i : Nat) :
    ∃ r, unmarshalUint64Field field set m wireType d i = some r := by
  obtain ⟨t, ht, _⟩ := decodeVarint_total d i
  unfold unmarshalUint64Field
  split_ifs
  · exact ⟨_, rfl⟩
  · rw [ht]; exact ⟨_, rfl⟩

/-- The common part of the length-delimited cases: after the three checks the
slice expression is in range. -/
theorem slice_postIndex (d : List Byte) (i : Nat) (t : VarintResult) (hl : d.length < 2 ^ 63)
    (ht : decodeVarint d i = some t) (hte : t.err = none)
    (h1 : ¬ wrapInt64 (t.value : Int) < 0)
    (h2 : ¬ wrapInt64 ((t.iNdEx : Int) + wrapInt64 (t.value : Int)) < 0)
    (h3 : ¬ wrapInt64 ((t.iNdEx : Int) + wrapInt64 (t.value : Int)) > (d.length : Int)) :
    ∃ s, slice d t.iNdEx (wrapInt64 ((t.iNdEx : Int) + wrapInt64 (t.value : Int))).toNat =
        some s ∧ s.length ≤ d.length ∧
      i < (wrapInt64 ((t.iNdEx : Int) + wrapInt64 (t.value : Int))).toNat := by
  have hp := decodeVarint_progress d i t ht hte
  have hb := wrapInt64_lt (t.value : Int)
  have hw := wrapInt64_nonneg_imp ((t.iNdEx : Int) + wrapInt64 t.value) (by omega)
    (by omega) (by omega)
  refine ⟨_, slice_eq _ _ _ (by omega) (by omega), ?_, by omega⟩
  simp only [List.length_take, List.length_drop]
  omega

theorem unmarshalStringField_total (field : String)
    (set : IBCForwardMetadata → List Byte → IBCForwardMetadata) (m : IBCForwardMetadata)
    (wireType : Nat) (d : List Byte) (i : Nat) (hl : d.length < 2 ^ 63) :
    ∃ r, unmarshalStringField field set m wireType d i = some r := by
  obtain ⟨t, ht, _⟩ := decodeVarint_total d i
  unfold unmarshalStringField
  simp only
  split_ifs with hw
  · exact ⟨_, rfl⟩
  · rw [ht, Option.some_bind]
    cases hte : t.err with
    | some e => exact ⟨_, rfl⟩
    | none =>
      simp only
      split_ifs with h1 h2 h3
      · exact ⟨_, rfl⟩
      · exact ⟨_, rfl⟩
      · exact ⟨_, rfl⟩
      · obtain ⟨s, hs, _⟩ := slice_postIndex d i t hl ht hte h1 h2 h3
        rw [hs]
        exact ⟨_, rfl⟩

theorem unmarshalUnknownField_total (m : IBCForwardMetadata) (d : List Byte) (i : Nat)
    (hl : d.length < 2 ^ 63) (hi : i ≤ d.length) :
    ∃ r, unmarshalUnknownField m d i = some r := by
  unfold unmarshalUnknownField sliceFrom
  simp only
  rw [slice_eq _ _ _ hi (le_refl _), Option.some_bind]
  obtain ⟨sk, hs⟩ := skipIbcForwardMetadata_total (List.take (d.length - i) (List.drop i d))
    (by simp only [List.length_take, List.length_drop]; omega)
  rw [hs, Option.some_bind]
  obtain ⟨skippy, err⟩ := sk
  cases err with
  | some e => exact ⟨_, rfl⟩
  | none =>
    simp only
    split_ifs <;> exact ⟨_, rfl⟩

theorem unmarshalField_total (m : IBCForwardMetadata) (d : List Byte) (i : Nat)
    (hl : d.length < 2 ^ 63) (hi : i < d.length) : ∃ r, m.unmarshalField d i = some r := by
  obtain ⟨t, ht, _⟩ := decodeVarint_total d i
  unfold IBCForwardMetadata.unmarshalField
  simp only
  rw [ht, Option.some_bind]
  cases hte : t.err with
  | some e => exact ⟨_, rfl⟩
  | none =>
    simp only
    split_ifs
    · exact ⟨_, rfl⟩
    · exact ⟨_, rfl⟩
    · exact unmarshalUint64Field_total _ _ _ _ _ _
    · exact unmarshalStringField_total _ _ _ _ _ _ hl
    · exact unmarshalStringField_total _ _ _ _ _ _ hl
    · exact unmarshalStringField_total _ _ _ _ _ _ hl
    · exact unmarshalStringField_total _ _ _ _ _ _ hl
    · exact unmarshalUint64Field_total _ _ _ _ _ _
    · exact unmarshalUnknownField_total m d i hl (by omega)

/-- The outer loop of `(*IBCForwardMetadata).Unmarshal` returns when it has
one unit of fuel per remaining byte and one more. -/
theorem unmarshalLoop_total (fuel : Nat) :
    ∀ (m : IBCForwardMetadata) (d : List Byte) (i : Nat), d.length < 2 ^ 63 → 1 ≤ fuel →
      d.length + 1 ≤ fuel + i → ∃ r, IBCForwardMetadata.unmarshalLoop fuel m d i = some r := by
  induction fuel with
  | zero => intro m d i _ h; omega
  | succ f ih =>
    intro m d i hl _ hf
    rw [IBCForwardMetadata.unmarshalLoop]
    by_cases hi : i < d.length
    · rw [if_pos hi]
      obtain ⟨r, hr⟩ := unmarshalField_total m d i hl hi
      rw [hr, Option.some_bind]
      cases hre : r.err with
      | some e => exact ⟨_, rfl⟩
      | none =>
        simp only
        have hp := unmarshalField_progress m d i r hl hi hr hre
        exact ih r.m d r.iNdEx hl (by omega) (by omega)
    · rw [if_neg hi]
      split_ifs <;> exact ⟨_, rfl⟩

theorem Unmarshal_total (m : IBCForwardMetadata) (d : List Byte) (hl : d.length < 2 ^ 63) :
    ∃ r, m.Unmarshal d = some r :=
  unmarshalLoop_total (d.length + 1) m d 0 hl (by omega) (by omega)

/-! ### The stored record -/

theorem readLengthDelimited_total (d : List Byte) (i : Nat) (hl : d.length < 2 ^ 63) :
    ∃ r, readLengthDelimited d i = some r ∧
      (r.err = none → i < r.iNdEx ∧ r.bytes.length < 2 ^ 63) := by
  obtain ⟨t, ht, _⟩ := decodeVarint_total d i
  unfold readLengthDelimited
  simp only
  rw [ht, Option.some_bind]
  cases hte : t.err with
  | some e => exact ⟨_, rfl, by simp⟩
  | none =>
    simp only
    split_ifs with h1 h2 h3
    · exact ⟨_, rfl, by simp⟩
    · exact ⟨_, rfl, by simp⟩
    · exact ⟨_, rfl, by simp⟩
    · obtain ⟨s, hs, hsl, hlt⟩ := slice_postIndex d i t hl ht hte h1 h2 h3
      rw [hs, Option.some_bind]
      refine ⟨_, rfl, fun _ => ?_⟩
      simp only
      exact ⟨hlt, lt_of_le_of_lt hsl hl⟩

theorem unmarshalSourceDomain_total (m : StoreIBCForwardMetadata) (wireType : Nat)
    (d : List Byte) (i : Nat) :
    ∃ r, unmarshalSourceDomain m wireType d i = some r ∧ (r.err = none → i < r.iNdEx) := by
  obtain ⟨t, ht, _, _, _, hp⟩ := decodeVarint32_total d i
  unfold unmarshalSourceDomain
  split_ifs
  · exact ⟨_, rfl, by simp⟩
  · rw [ht]
    exact ⟨_, rfl, fun he => (hp he).1⟩

theorem unmarshalSourceDomainSender_total (m : StoreIBCForwardMetadata) (wireType : Nat)
    (d : List Byte) (i : Nat) (hl : d.length < 2 ^ 63) :
    ∃ r, unmarshalSourceDomainSender m wireType d i = some r ∧
      (r.err = none → i < r.iNdEx) := by
  obtain ⟨t, ht, hp⟩ := readLengthDelimited_total d i hl
  unfold unmarshalSourceDomainSender
  split_ifs
  · exact ⟨_, rfl, by simp⟩
  · rw [ht, Option.some_bind]
    cases hte : t.err with
    | some e => exact ⟨_, rfl, by simp⟩
    | none => exact ⟨_, rfl, fun _ => (hp hte).1⟩

theorem unmarshalMetadata_total (m : StoreIBCForwardMetadata) (wireType : Nat)
    (d : List Byte) (i : Nat) (hl : d.length < 2 ^ 63) :
    ∃ r, unmarshalMetadata m wireType d i = some r ∧ (r.err = none → i < r.iNdEx) := by
  obtain ⟨t, ht, hp⟩ := readLengthDelimited_total d i hl
  unfold unmarshalMetadata
  split_ifs
  · exact ⟨_, rfl, by simp⟩
  · rw [ht, Option.some_bind]
    cases hte : t.err with
    | some e => exact ⟨_, rfl, by simp⟩
    | none =>
      simp only
      cases hm : m.Metadata with
      | none =>
        simp only
        obtain ⟨u, hu⟩ := Unmarshal_total IBCForwardMetadata.Reset t.bytes (hp hte).2
        rw [hu, Option.some_bind]
        cases hue : u.2 with
        | some e => exact ⟨_, rfl, by simp⟩
        | none => exact ⟨_, rfl, fun _ => (hp hte).1⟩
      | some md =>
        simp only
        obtain ⟨u, hu⟩ := Unmarshal_total md t.bytes (hp hte).2
        rw [hu, Option.some_bind]
        cases hue : u.2 with
        | some e => exact ⟨_, rfl, by simp⟩
        | none => exact ⟨_, rfl, fun _ => (hp hte).1⟩

theorem unmarshalAckError_total (m : StoreIBCForwardMetadata) (wireType : Nat)
    (d : List Byte) (i : Nat) :
    ∃ r, unmarshalAckError m wireType d i = some r ∧ (r.err = none → i < r.iNdEx) := by
  obtain ⟨t, ht, _⟩ := decodeVarint_total d i
  unfold unmarshalAckError
  split_ifs
  · exact ⟨_, rfl, by simp⟩
  · rw [ht, Option.some_bind]
    cases hte : t.err with
    | some e => exact ⟨_, rfl, by simp⟩
    | none => exact ⟨_, rfl, fun _ => (decodeVarint_progress d i t ht hte).1⟩

theorem unmarshalStoreUnknownField_total (m : StoreIBCForwardMetadata) (d : List Byte) (i : Nat)
    (hl : d.length < 2 ^ 63) (hi : i ≤ d.length) :
    ∃ r, unmarshalStoreUnknownField m d i = some r ∧ (r.err = none → i < r.iNdEx) := by
  unfold unmarshalStoreUnknownField sliceFrom
  simp only
  rw [slice_eq _ _ _ hi (le_refl _), Option.some_bind]
  obtain ⟨sk, hs⟩ := skipIbcForwardMetadata_total (List.take (d.length - i) (List.drop i d))
    (by simp only [List.length_take, List.length_drop]; omega)
  rw [hs, Option.some_bind]
  obtain ⟨skippy, err⟩ := sk
  cases err with
  | some e => exact ⟨_, rfl, by simp⟩
  | none =>
    simp only
    have hp := skipIbcForwardMetadata_progress _ skippy
      (by simp only [List.length_take, List.length_drop]; omega) hs
    split_ifs with h1 h2
    · exact ⟨_, rfl, by simp⟩
    · exact ⟨_, rfl, by simp⟩
    · refine ⟨_, rfl, fun _ => ?_⟩
      simp only
      have := wrapInt64_nonneg_imp ((i : Int) + skippy) (by omega) (by omega) (by omega)
      omega

/-- One iteration of the outer loop of `(*StoreIBCForwardMetadata).Unmarshal`
returns, and moves the read index forward when it returns no error. -/
theorem storeUnmarshalField_total (m : StoreIBCForwardMetadata) (d : List Byte) (i : Nat)
    (hl : d.length < 2 ^ 63) (hi : i < d.length) :
    ∃ r, m.unmarshalField d i = some r ∧ (r.err = none → i < r.iNdEx) := by
  obtain ⟨t, ht, _⟩ := decodeVarint_total d i
  unfold StoreIBCForwardMetadata.unmarshalField
  simp only
  rw [ht, Option.some_bind]
  cases hte : t.err with
  | some e => exact ⟨_, rfl, by simp⟩
  | none =>
    simp only
    have hp := decodeVarint_progress d i t ht hte
    split_ifs
    · exact ⟨_, rfl, by simp⟩
    · exact ⟨_, rfl, by simp⟩
    · obtain ⟨r, hr, h⟩ := unmarshalSourceDomain_total m (t.value &&& 0x7) d t.iNdEx
      exact ⟨r, hr, fun he => by have := h he; omega⟩
    · obtain ⟨r, hr, h⟩ := unmarshalSourceDomainSender_total m (t.value &&& 0x7) d t.iNdEx hl
      exact ⟨r, hr, fun he => by have := h he; omega⟩
    · obtain ⟨r, hr, h⟩ := unmarshalMetadata_total m (t.value &&& 0x7) d t.iNdEx hl
      exact ⟨r, hr, fun he => by have := h he; omega⟩
    · obtain ⟨r, hr, h⟩ := unmarshalAckError_total m (t.value &&& 0x7) d t.iNdEx
      exact ⟨r, hr, fun he => by have := h he; omega⟩
    · exact unmarshalStoreUnknownField_total m d i hl (by omega)

theorem storeUnmarshalLoop_total (fuel : Nat) :
    ∀ (m : StoreIBCForwardMetadata) (d : List Byte) (i : Nat), d.length < 2 ^ 63 → 1 ≤ fuel →
      d.length + 1 ≤ fuel + i →
      ∃ r, StoreIBCForwardMetadata.unmarshalLoop fuel m d i = some r := by
  induction fuel with
  | zero => intro m d i _ h; omega
  | succ f ih =>
    intro m d i hl _ hf
    rw [StoreIBCForwardMetadata.unmarshalLoop]
    by_cases hi : i < d.length
    · rw [if_pos hi]
      obtain ⟨r, hr, hp⟩ := storeUnmarshalField_total m d i hl hi
      rw [hr, Option.some_bind]
      cases hre : r.err with
      | some e => exact ⟨_, rfl⟩
      | none =>
        simp only
        have := hp hre
        exact ih r.m d r.iNdEx hl (by omega) (by omega)
    · rw [if_neg hi]
      split_ifs <;> exact ⟨_, rfl⟩

/-- C22: on every byte buffer (its length fits a Go `int`),
`(*IBCForwardMetadata).Unmarshal`, `(*StoreIBCForwardMetadata).Unmarshal` (on
any receiver) and `skipIbcForwardMetadata` return a result: the loops end
within one iteration per byte, and no read or slice is out of range (either
would make the embedded call return nothing). Every iteration of an outer
loop that returns no error moves the read index forward, in the default case
and on a start-group tag too, and every varint loop returns after reading at
most 10 bytes, none of them at or beyond the end of the buffer. -/
theorem tagged_decoder_total (d : List Byte) (m : IBCForwardMetadata)
    (s : StoreIBCForwardMetadata) (hl : d.length < 2 ^ 63) :
    (∃ r, m.Unmarshal d = some r) ∧ (∃ r, s.Unmarshal d = some r) ∧
    (∃ r, skipIbcForwardMetadata d = some r) ∧
    (∀ i, i < d.length → ∃ r, m.unmarshalField d i = some r ∧ (r.err = none → i < r.iNdEx)) ∧
    (∀ i, i < d.length → ∃ r, s.unmarshalField d i = some r ∧ (r.err = none → i < r.iNdEx)) ∧
    (∀ (i : Nat) (depth : Int), i < d.length → ∃ t, decodeVarint d i = some t ∧
      ∃ sw, skipSwitch d t.iNdEx depth (t.value &&& 0x7) = some sw ∧
        (t.err = none → sw.2.2 = none → 0 ≤ sw.1 → (i : Int) < sw.1)) ∧
    (∀ i, ∃ r, decodeVarint d i = some r ∧ i ≤ r.iNdEx ∧ r.iNdEx ≤ i + 10 ∧
      r.iNdEx ≤ max i d.length) ∧
    (∀ i, ∃ r, decodeVarint32 d i = some r ∧ i ≤ r.iNdEx ∧ r.iNdEx ≤ i + 10 ∧
      r.iNdEx ≤ max i d.length) := by
  refine ⟨Unmarshal_total m d hl,
    storeUnmarshalLoop_total (d.length + 1) s d 0 hl (by omega) (by omega),
    skipIbcForwardMetadata_total d hl, ?_, fun i hi => storeUnmarshalField_total s d i hl hi,
    ?_, decodeVarint_total d, ?_⟩
  · intro i hi
    obtain ⟨r, hr⟩ := unmarshalField_total m d i hl hi
    exact ⟨r, hr, unmarshalField_progress m d i r hl hi hr⟩
  · intro i depth hi
    obtain ⟨t, ht, _⟩ := decodeVarint_total d i
    obtain ⟨sw, hsw⟩ := skipSwitch_total d t.iNdEx depth (t.value &&& 0x7)
    refine ⟨t, ht, sw, hsw, fun hte hse h0 => ?_⟩
    have hp := decodeVarint_progress d i t ht hte
    have := skipSwitch_progress d t.iNdEx depth _ sw hl hp.2 hsw hse h0
    omega
  · intro i
    obtain ⟨r, hr, h1, h2, h3, _⟩ := decodeVarint32_total d i
    exact ⟨r, hr, h1, h2, h3⟩

theorem tagged_decoder_total_witness :
    (∃ r, IBCForwardMetadata.Reset.Unmarshal [0x3b, 0x08, 0x07] = some r) ∧
      skipIbcForwardMetadata [0x3b, 0x08, 0x07] = some (0, some .ErrUnexpectedEOF) ∧
      IBCForwardMetadata.Reset.Unmarshal [0x3b, 0x08, 0x07] =
        some (IBCForwardMetadata.Reset, some .ErrUnexpectedEOF) ∧
      StoreIBCForwardMetadata.Reset.Unmarshal [0x1a, 0x02, 0x08] =
        some (⟨0, [], none, false⟩, some .ErrUnexpectedEOF) :=
  ⟨(tagged_decoder_total [0x3b, 0x08, 0x07] IBCForwardMetadata.Reset
      StoreIBCForwardMetadata.Reset (by norm_num)).1,
    by decide, by decide, by decide⟩

end NobleRouter
